import Mathlib

/-! BAGEL: task queue, SuperCI gradient vectors, CASPT2 linear solver.

A shallow embedding of

* `src/smith/queue.h` (`Queue::next_compute`, `Queue::done`, the drain loop
  `while (!queue->done()) queue->next_compute();` of `CASPT2.cc`),
* `src/multi/casscf/superci_sigma.cc` (`grad_vc`, `grad_va`, `grad_ca`),
* `src/smith/caspt2/CASPT2.cc` (`solve_linear`).

Doubles are idealised as elements of a linear ordered field (exact arithmetic);
`std::sqrt` is a parameter of the model.
-/

namespace bagel
namespace SMITH

/-! ## Queue / Task (src/smith/queue.h) -/

/-- The address held by a `std::shared_ptr<Task>`: tasks are compared by identity. -/
abbrev TaskPtr := Nat

/-- Modelled from the spec: the class `Task` of `src/smith/task.h`, which is not among the
sources.  Only the part `Queue` uses is kept: the dependency list `depend_` (the tasks whose
output this task still waits for), `ready()` and `delete_dep()`. -/
structure Task where
  /-- the tasks this task still waits for -/
  depend_ : List TaskPtr
deriving DecidableEq, Repr

/-- Modelled from the spec: `Task::ready()`; a task is ready exactly when its dependency list
is empty ("all inputs materialized"). -/
def Task.ready (t : Task) : Bool := t.depend_.isEmpty

/-- Modelled from the spec: `Task::delete_dep(a)`; deletes the completed task `a` from the
dependency list ("deleting the completed task from every remaining task's dependency list"),
every other entry is kept, in order. -/
def Task.delete_dep (t : Task) (a : TaskPtr) : Task :=
  { depend_ := t.depend_.filter (fun d => d != a) }

/-- The memory a `Queue` works on: the member `tasklist_` (a list of shared pointers), the task
objects the pointers refer to, and whatever `Task::compute()` acts on (`world`). -/
structure QueueState (σ : Type) where
  /-- the member `std::list<std::shared_ptr<Task>> tasklist_` -/
  tasklist_ : List TaskPtr
  /-- the task objects, by address -/
  tasks : TaskPtr → Task
  /-- the tensors and other data `compute()` reads and writes -/
  world : σ

/-- The two ways a call of `next_compute` can end: the assertion of line 57 fails (with the
memory as it is at that moment), or the call returns the executed task. -/
inductive Outcome (σ : Type) where
  | assert_failed (s : QueueState σ)
  | returned (out : TaskPtr) (s : QueueState σ)

/-- Lines 53-55 of queue.h: the scan `for ( ; i != tasklist_.end(); ++i) if ((*i)->ready()) break;`.
The result is the position of the iterator and the task it points to, `none` for
`i == tasklist_.end()`. -/
def first_ready (tasks : TaskPtr → Task) : List TaskPtr → Option (Nat × TaskPtr)
  | [] => none
  | p :: ps =>
    if (tasks p).ready then some (0, p)
    else (first_ready tasks ps).map (fun r => (r.1 + 1, r.2))

/-- Line 62 of queue.h: `for (auto& j : tasklist_) j->delete_dep(out);`, one task object after
the other. -/
def delete_dep_all (out : TaskPtr) : List TaskPtr → (TaskPtr → Task) → (TaskPtr → Task)
  | [], tasks => tasks
  | j :: js, tasks => delete_dep_all out js (Function.update tasks j ((tasks j).delete_dep out))

/-- `Queue::next_compute` (queue.h, lines 52-66).  `compute out w` is the effect of
`out->compute()` on the data. -/
def next_compute {σ : Type} (compute : TaskPtr → σ → σ) (s : QueueState σ) : Outcome σ :=
  match first_ready s.tasks s.tasklist_ with
  | none => Outcome.assert_failed s
  | some (i, out) =>
    Outcome.returned out
      { tasklist_ := s.tasklist_.eraseIdx i
        tasks := delete_dep_all out s.tasklist_ s.tasks
        world := compute out s.world }

/-- The constructor `Queue(d)` (queue.h, line 48): the list is copied and shuffled.  `shuffle`
is what `std::random_shuffle` does to the list in this run; it permutes its argument. -/
def Queue_of {σ : Type} (shuffle : List TaskPtr → List TaskPtr) (d : List TaskPtr)
    (tasks : TaskPtr → Task) (w : σ) : QueueState σ :=
  { tasklist_ := shuffle d, tasks := tasks, world := w }

/-- `Queue::add_task` (queue.h, line 68). -/
def add_task {σ : Type} (s : QueueState σ) (a : TaskPtr) : QueueState σ :=
  { s with tasklist_ := s.tasklist_ ++ [a] }

/-- `Queue::done` (queue.h, line 70). -/
def done {σ : Type} (s : QueueState σ) : Bool := s.tasklist_.isEmpty

/-- How the loop `while (!queue->done()) queue->next_compute();` ends: it leaves the loop
(`finished`), an assertion fails (`aborted`), or the model runs out of fuel.  `executed` lists
the tasks returned by the successive calls of `next_compute`, first call first. -/
inductive DrainResult (σ : Type) where
  | finished (executed : List TaskPtr) (s : QueueState σ)
  | aborted (executed : List TaskPtr) (s : QueueState σ)
  | out_of_fuel (executed : List TaskPtr) (s : QueueState σ)

/-- Records one more call of `next_compute`, made before those of the result. -/
def DrainResult.push {σ : Type} (p : TaskPtr) : DrainResult σ → DrainResult σ
  | DrainResult.finished e s => DrainResult.finished (p :: e) s
  | DrainResult.aborted e s => DrainResult.aborted (p :: e) s
  | DrainResult.out_of_fuel e s => DrainResult.out_of_fuel (p :: e) s

/-- The drain loop `while (!queue->done()) queue->next_compute();` (CASPT2.cc, lines 88-89,
114-115, ...), with at most `fuel` calls of `next_compute`. -/
def drain {σ : Type} (compute : TaskPtr → σ → σ) : Nat → QueueState σ → DrainResult σ
  | 0, s => if done s then DrainResult.finished [] s else DrainResult.out_of_fuel [] s
  | fuel + 1, s =>
    if done s then DrainResult.finished [] s
    else
      match next_compute compute s with
      | Outcome.assert_failed s' => DrainResult.aborted [] s'
      | Outcome.returned out s' => (drain compute fuel s').push out

/-- Task `a` of the queue waits for task `b`. -/
def depends (l : List TaskPtr) (tasks : TaskPtr → Task) (a b : TaskPtr) : Prop :=
  a ∈ l ∧ b ∈ (tasks a).depend_

/-- The dependencies of the tasks of the queue are acyclic: no task waits, directly or through
other tasks, for itself. -/
def Acyclic (l : List TaskPtr) (tasks : TaskPtr → Task) : Prop :=
  ∀ a, ¬ Relation.TransGen (depends l tasks) a a

/-- Every dependency of a task of the queue belongs to the queue. -/
def DepsInQueue (l : List TaskPtr) (tasks : TaskPtr → Task) : Prop :=
  ∀ a ∈ l, ∀ b ∈ (tasks a).depend_, b ∈ l

/-- A task whose `compute()` adds its contribution to the output accumulator. -/
def accumulate {α : Type} [Add α] (contrib : TaskPtr → α) (p : TaskPtr) (w : α) : α :=
  w + contrib p

/-- The task objects of a queue given by a table of dependency lists (tasks not in the table
have no dependencies). -/
def tasks_of (table : List (TaskPtr × List TaskPtr)) (p : TaskPtr) : Task :=
  { depend_ := (table.lookup p).getD [] }

end SMITH

/-! ## SuperCI gradient vectors (src/multi/casscf/superci_sigma.cc) -/

/-- Modelled from the spec: the class `Matrix` (`src/util/math/matrix.h` is not among the
sources).  The entries are stored by columns, `ndim` rows to a column, which is how the
gradient routines read them: `nvirt_` consecutive entries from `element_ptr(nocc_, i)` are the
entries `(nocc_ + a, i)`. -/
structure Matrix (R : Type) where
  /-- number of rows -/
  ndim : Nat
  /-- the storage `data()` -/
  data : Nat → R

/-- Modelled from the spec: `Matrix::element_ptr(i, j)`, as an offset into the storage. -/
def Matrix.element_ptr {R : Type} (m : Matrix R) (i j : Nat) : Nat := i + j * m.ndim

/-- Modelled from the spec: `Matrix::element(i, j)`, the entry in row `i` and column `j`. -/
def Matrix.element {R : Type} (m : Matrix R) (i j : Nat) : R := m.data (m.element_ptr i j)

/-- Modelled from the spec: the class `RotFile` (`src/multi/casscf/rotfile.h` is not among the
sources): a flat vector partitioned into a closed-active block (closed index running first), a
virtual-active block and a virtual-closed block (virtual index running first). -/
structure RotFile (R : Type) where
  /-- number of closed orbitals -/
  nclosed_ : Nat
  /-- number of active orbitals -/
  nact_ : Nat
  /-- number of virtual orbitals -/
  nvirt_ : Nat
  /-- the storage `data()` -/
  data : Nat → R

/-- Modelled from the spec: `RotFile::ptr_ca()`, start of the closed-active block. -/
def RotFile.ptr_ca {R : Type} (_r : RotFile R) : Nat := 0

/-- Modelled from the spec: `RotFile::ptr_va()`, start of the virtual-active block. -/
def RotFile.ptr_va {R : Type} (r : RotFile R) : Nat := r.nclosed_ * r.nact_

/-- Modelled from the spec: `RotFile::ptr_vc()`, start of the virtual-closed block. -/
def RotFile.ptr_vc {R : Type} (r : RotFile R) : Nat := (r.nclosed_ + r.nvirt_) * r.nact_

/-- Modelled from the spec: `RotFile::size()`. -/
def RotFile.size {R : Type} (r : RotFile R) : Nat :=
  r.nclosed_ * r.nact_ + r.nvirt_ * r.nact_ + r.nvirt_ * r.nclosed_

/-- Modelled from the spec: `RotFile::ele_ca(ic, ia)`, position `ic + ia*nclosed` of the
closed-active block. -/
def RotFile.ele_ca {R : Type} (r : RotFile R) (ic ia : Nat) : R :=
  r.data (r.ptr_ca + ic + ia * r.nclosed_)

/-- Modelled from the spec: `RotFile::ele_va(iv, ia)`, position `iv + ia*nvirt` of the
virtual-active block. -/
def RotFile.ele_va {R : Type} (r : RotFile R) (iv ia : Nat) : R :=
  r.data (r.ptr_va + iv + ia * r.nvirt_)

/-- Modelled from the spec: `RotFile::ele_vc(iv, ic)`, position `iv + ic*nvirt` of the
virtual-closed block. -/
def RotFile.ele_vc {R : Type} (r : RotFile R) (iv ic : Nat) : R :=
  r.data (r.ptr_vc + iv + ic * r.nvirt_)

/-- Modelled from the spec: a freshly created rotation vector, all entries zero. -/
def RotFile.fresh {R : Type} [Zero R] (nclosed nact nvirt : Nat) : RotFile R :=
  { nclosed_ := nclosed, nact_ := nact, nvirt_ := nvirt, data := fun _ => 0 }

/-- The members of `SuperCI` that the gradient routines read. -/
structure SuperCI (R : Type) where
  /-- number of closed orbitals -/
  nclosed_ : Nat
  /-- number of active orbitals -/
  nact_ : Nat
  /-- number of occupied orbitals, the row at which the virtual orbitals start -/
  nocc_ : Nat
  /-- number of virtual orbitals -/
  nvirt_ : Nat
  /-- occupation numbers of the active orbitals -/
  occup_ : Nat → R

/-- Modelled from the spec: `blas::ax_plus_y_n(a, x, n, y)` (`src/util/math/algo.h` is not
among the sources): `y[k] += a * x[k]` for `k = 0, ..., n-1`.  The arrays are given by their
storage and the offset the pointer stands at. -/
def ax_plus_y_n {R : Type} [Add R] [Mul R] (a : R) (x : Nat → R) (xp : Nat) (n : Nat)
    (y : Nat → R) (yp : Nat) : Nat → R :=
  (List.range n).foldl
    (fun y k => Function.update y (yp + k) (y (yp + k) + a * x (xp + k))) y

/-- `SuperCI::grad_vc` (superci_sigma.cc, lines 38-43).  The loop state is the storage of
`sigma` and the pointer `target`. -/
def SuperCI.grad_vc {R : Type} [LinearOrderedField R] (sqrt : R → R) (self : SuperCI R)
    (f : Matrix R) (sigma : RotFile R) : RotFile R :=
  if self.nvirt_ = 0 ∨ self.nclosed_ = 0 then sigma
  else
    { sigma with
      data := ((List.range self.nclosed_).foldl
        (fun (st : (Nat → R) × Nat) i =>
          (ax_plus_y_n (sqrt 2) f.data (f.element_ptr self.nocc_ i) self.nvirt_ st.1 st.2,
            st.2 + self.nvirt_))
        (sigma.data, sigma.ptr_vc)).1 }

/-- Line 51 of superci_sigma.cc:
`fac = (occup_[i]>occup_thresh) ? 1.0/std::sqrt(occup_[i]) : 0.0`, together with the
denominator of the division, when one is evaluated. -/
def fac_va {R : Type} [LinearOrderedField R] (sqrt : R → R) (occup_thresh occ : R) :
    R × Option R :=
  if occ > occup_thresh then (1 / sqrt occ, some (sqrt occ)) else (0, none)

/-- `SuperCI::grad_va` (superci_sigma.cc, lines 47-54), instrumented: the loop state is the
storage of `sigma`, the pointer `target`, and the list of the divisions evaluated so far, each
as the orbital index with the denominator.  `occup_thresh` is a constant of a header that is
not among the sources. -/
def SuperCI.grad_va_log {R : Type} [LinearOrderedField R] (sqrt : R → R) (occup_thresh : R)
    (self : SuperCI R) (fact : Matrix R) (sigma : RotFile R) : RotFile R × List (Nat × R) :=
  if self.nvirt_ = 0 ∨ self.nact_ = 0 then (sigma, [])
  else
    let st := (List.range self.nact_).foldl
      (fun (st : (Nat → R) × Nat × List (Nat × R)) i =>
        let fac := fac_va sqrt occup_thresh (self.occup_ i)
        (ax_plus_y_n fac.1 fact.data (fact.element_ptr self.nocc_ i) self.nvirt_ st.1 st.2.1,
          st.2.1 + self.nvirt_,
          st.2.2 ++ (fac.2.toList.map (fun den => (i, den)))))
      (sigma.data, sigma.ptr_va, [])
    ({ sigma with data := st.1 }, st.2.2)

/-- `SuperCI::grad_va` (superci_sigma.cc, lines 47-54): the rotation vector it leaves. -/
def SuperCI.grad_va {R : Type} [LinearOrderedField R] (sqrt : R → R) (occup_thresh : R)
    (self : SuperCI R) (fact : Matrix R) (sigma : RotFile R) : RotFile R :=
  (self.grad_va_log sqrt occup_thresh fact sigma).1

/-- Line 62 of superci_sigma.cc:
`fac = (2.0-occup_[i] > occup_thresh) ? 1.0/std::sqrt(2.0-occup_[i]) : 0.0`. -/
def fac_ca {R : Type} [LinearOrderedField R] (sqrt : R → R) (occup_thresh occ : R) : R :=
  if 2 - occ > occup_thresh then 1 / sqrt (2 - occ) else 0

/-- `SuperCI::grad_ca` (superci_sigma.cc, lines 58-66). -/
def SuperCI.grad_ca {R : Type} [LinearOrderedField R] (sqrt : R → R) (occup_thresh : R)
    (self : SuperCI R) (f fact : Matrix R) (sigma : RotFile R) : RotFile R :=
  if self.nclosed_ = 0 ∨ self.nact_ = 0 then sigma
  else
    { sigma with
      data := ((List.range self.nact_).foldl
        (fun (st : (Nat → R) × Nat) i =>
          let fac := fac_ca sqrt occup_thresh (self.occup_ i)
          (ax_plus_y_n (-fac) fact.data (fact.element_ptr 0 i) self.nclosed_
              (ax_plus_y_n (2 * fac) f.data (f.element_ptr 0 (self.nclosed_ + i))
                self.nclosed_ st.1 st.2) st.2,
            st.2 + self.nclosed_))
        (sigma.data, sigma.ptr_ca)).1 }

/-- What `grad_vc` adds at position `j` of the storage when `target` starts at `ptr`: for `j`
in the `nclosed_` blocks of `nvirt_` entries from `ptr`, entry `a` of block `i` receives
`sqrt(2) * f(nocc + a, i)`; nothing elsewhere. -/
def SuperCI.contrib_vc {R : Type} [LinearOrderedField R] (sqrt : R → R) (self : SuperCI R)
    (f : Matrix R) (ptr j : Nat) : R :=
  if ptr ≤ j ∧ j < ptr + self.nclosed_ * self.nvirt_ then
    sqrt 2 * f.element (self.nocc_ + (j - ptr) % self.nvirt_) ((j - ptr) / self.nvirt_)
  else 0

/-- What `grad_va` adds at position `j` of the storage when `target` starts at `ptr`. -/
def SuperCI.contrib_va {R : Type} [LinearOrderedField R] (sqrt : R → R) (occup_thresh : R)
    (self : SuperCI R) (fact : Matrix R) (ptr j : Nat) : R :=
  if ptr ≤ j ∧ j < ptr + self.nact_ * self.nvirt_ then
    (fac_va sqrt occup_thresh (self.occup_ ((j - ptr) / self.nvirt_))).1
      * fact.element (self.nocc_ + (j - ptr) % self.nvirt_) ((j - ptr) / self.nvirt_)
  else 0

/-- What `grad_ca` adds at position `j` of the storage when `target` starts at `ptr`. -/
def SuperCI.contrib_ca {R : Type} [LinearOrderedField R] (sqrt : R → R) (occup_thresh : R)
    (self : SuperCI R) (f fact : Matrix R) (ptr j : Nat) : R :=
  if ptr ≤ j ∧ j < ptr + self.nact_ * self.nclosed_ then
    2 * fac_ca sqrt occup_thresh (self.occup_ ((j - ptr) / self.nclosed_))
        * f.element ((j - ptr) % self.nclosed_) (self.nclosed_ + (j - ptr) / self.nclosed_)
      + -(fac_ca sqrt occup_thresh (self.occup_ ((j - ptr) / self.nclosed_)))
        * fact.element ((j - ptr) % self.nclosed_) ((j - ptr) / self.nclosed_)
  else 0

/-- The rotation vector has the dimensions of the CASSCF object. -/
def SuperCI.fits {R : Type} (self : SuperCI R) (sigma : RotFile R) : Prop :=
  sigma.nclosed_ = self.nclosed_ ∧ sigma.nact_ = self.nact_ ∧ sigma.nvirt_ = self.nvirt_

/-- A CASSCF object with one closed, two active (occupations 0 and 1) and two virtual
orbitals, over the rationals. -/
def demo_superci : SuperCI ℚ :=
  { nclosed_ := 1, nact_ := 2, nocc_ := 3, nvirt_ := 2,
    occup_ := fun i => if i = 0 then 0 else 1 }

/-- A 5 x 5 matrix over the rationals with entry `k + 1` at storage position `k`. -/
def demo_fock : Matrix ℚ := { ndim := 5, data := fun k => (k : ℚ) + 1 }

/-! ## CASPT2 linear solver (src/smith/caspt2/CASPT2.cc, `solve_linear`) -/

namespace SMITH

/-- The operations on multi-state tensor collections that `solve_linear` calls; their code is
not among the sources, they are parameters of the model.  `MT` is `MultiTensor`, `R` the
scalars, `Solver` the state of a `LinearRM<MultiTensor>` object. -/
structure CASPT2.Ops (MT R Solver : Type) where
  /-- the effect of `MultiTensor::zero()` -/
  zero : MT → MT
  /-- the value of `MultiTensor::rms()` -/
  rms : MT → R
  /-- the value of `MultiTensor::norm()` -/
  norm : MT → R
  /-- the effect of `MultiTensor::scale(a)` -/
  scale : R → MT → MT
  /-- the effect of `update_amplitude(t, r)` on `t` -/
  update_amplitude : MT → MT → MT
  /-- the effect on `rall_[i]` of lines 265-274 for the pair `(jst, ist)`: `set_rdm`, the
  drained residual queue with `t2 = t[i]->at(ist)`, `r = rall_[i]->at(jst)` and the given
  `e0_`, and `diagonal(r, t2, jst == ist)` -/
  residual_pair : Nat → Nat → R → MT → MT → MT
  /-- the object `make_shared<LinearRM<MultiTensor>>(30, s[i])` -/
  solver_make : MT → Solver
  /-- the effect and the value of `solver->compute_residual(t, r)` -/
  compute_residual : Solver → MT → MT → Solver × MT
  /-- the value of `solver->civec()` -/
  civec : Solver → MT
  /-- the value of `dot_product_transpose(a, b)` -/
  dot_product_transpose : MT → MT → R

/-- A call of `print_iteration`: `print_iteration(iter, energy, error, time)` of one
iteration, or the closing `print_iteration(failed)`. -/
inductive CASPT2.Printed (R : Type) where
  | iteration (iter : Int) (energy error : R)
  | summary (failed : Bool)

/-- The members of the `CASPT2` object that `solve_linear` reads and writes, with the options
of `info_`. -/
structure CASPT2 (MT R : Type) where
  /-- number of states -/
  nstates_ : Nat
  /-- zeroth-order energies -/
  e0all_ : Nat → R
  /-- the member `e0_` -/
  e0_ : R
  /-- the member `energy_` -/
  energy_ : Nat → R
  /-- the member `rall_` -/
  rall_ : Nat → MT
  /-- the option `info_->shift()` -/
  shift : R
  /-- the option `info_->sssr()` -/
  sssr : Bool
  /-- the option `info_->maxiter()` -/
  maxiter : Int
  /-- the option `info_->thresh()` -/
  thresh : R
  /-- the calls of `print_iteration` made so far -/
  output : List (CASPT2.Printed R)

namespace CASPT2

/-- The variables of the iteration loop of `solve_linear` for one state: the object, the
amplitudes `t`, the solver, `conv` and `error`. -/
structure LoopState (MT R Solver : Type) where
  /-- the `CASPT2` object -/
  self : CASPT2 MT R
  /-- the argument `t` -/
  t : Nat → MT
  /-- the subspace solver -/
  solver : Solver
  /-- the local `conv` -/
  conv : Bool
  /-- the local `error` -/
  error : R

/-- The function `detail::real` at a real scalar type. -/
def detail_real {R : Type} (x : R) : R := x

/-- Lines 259-277 of CASPT2.cc: `rall_[i]->zero()`, the normalisation of `t[i]`, and the
residual of every processed pair of states. -/
def residual_phase {MT R Solver : Type} [LinearOrderedField R] (ops : Ops MT R Solver)
    (i : Nat) (st : LoopState MT R Solver) : LoopState MT R Solver :=
  let self1 := { st.self with rall_ := Function.update st.self.rall_ i (ops.zero (st.self.rall_ i)) }
  let norm := ops.norm (st.t i)
  let t1 := Function.update st.t i (ops.scale (1 / norm) (st.t i))
  let self2 := (List.range self1.nstates_).foldl
    (fun (self : CASPT2 MT R) jst =>
      (List.range self.nstates_).foldl
        (fun (self : CASPT2 MT R) ist =>
          if self.sssr && (jst != i || ist != i) then self
          else
            { self with
              e0_ := self.e0all_ i - self.shift
              rall_ := Function.update self.rall_ i
                (ops.residual_pair jst ist (self.e0all_ i - self.shift) (t1 i) (self.rall_ i)) })
        self)
    self1
  { st with self := self2, t := t1 }

/-- Lines 279-280 of CASPT2.cc: `rall_[i] = solver->compute_residual(t[i], rall_[i]);
t[i] = solver->civec();`. -/
def solver_phase {MT R Solver : Type} (ops : Ops MT R Solver) (i : Nat)
    (st : LoopState MT R Solver) : LoopState MT R Solver :=
  let res := ops.compute_residual st.solver (st.t i) (st.self.rall_ i)
  { st with
    self := { st.self with rall_ := Function.update st.self.rall_ i res.2 }
    solver := res.1
    t := Function.update st.t i (ops.civec res.1) }

/-- Lines 283-284 of CASPT2.cc: the Hylleraas energy,
`energy_[i] = real(dot(s[i], t[i])); energy_[i] += real(dot(rall_[i], t[i]));`. -/
def energy_phase {MT R Solver : Type} [LinearOrderedField R] (ops : Ops MT R Solver)
    (s : Nat → MT) (i : Nat) (st : LoopState MT R Solver) : LoopState MT R Solver :=
  let e1 := Function.update st.self.energy_ i
    (detail_real (ops.dot_product_transpose (s i) (st.t i)))
  let e2 := Function.update e1 i
    (e1 i + detail_real (ops.dot_product_transpose (st.self.rall_ i) (st.t i)))
  { st with self := { st.self with energy_ := e2 } }

/-- Lines 287-295 of CASPT2.cc: the residual RMS, the printed line, the convergence test and
the update of the amplitude when not converged. -/
def convergence_phase {MT R Solver : Type} [LinearOrderedField R] (ops : Ops MT R Solver)
    (i : Nat) (iter : Int) (st : LoopState MT R Solver) : LoopState MT R Solver :=
  let error := ops.rms (st.self.rall_ i)
  let self1 := { st.self with
    output := st.self.output ++ [Printed.iteration iter (st.self.energy_ i) error] }
  let conv := decide (error < st.self.thresh)
  let t1 := if conv then st.t
    else Function.update st.t i (ops.update_amplitude (ops.zero (st.t i)) (st.self.rall_ i))
  { st with self := self1, t := t1, conv := conv, error := error }

/-- The body of the loop `for ( ; iter != info_->maxiter(); ++iter)` of `solve_linear`
(CASPT2.cc, lines 258-297) for state `i`, up to the `break`. -/
def iteration {MT R Solver : Type} [LinearOrderedField R] (ops : Ops MT R Solver)
    (s : Nat → MT) (i : Nat) (iter : Int) (st : LoopState MT R Solver) :
    LoopState MT R Solver :=
  convergence_phase ops i iter (energy_phase ops s i (solver_phase ops i (residual_phase ops i st)))

/-- The loop `for ( ; iter != info_->maxiter(); ++iter) { ...; if (conv) break; }` of
`solve_linear`, with at most `fuel` executions of the body; `none` when the fuel runs out. -/
def iterate {MT R Solver : Type} [LinearOrderedField R] (ops : Ops MT R Solver)
    (s : Nat → MT) (i : Nat) : Nat → Int → LoopState MT R Solver →
    Option (LoopState MT R Solver)
  | 0, iter, st => if iter = st.self.maxiter then some st else none
  | fuel + 1, iter, st =>
    if iter = st.self.maxiter then some st
    else
      let st1 := iteration ops s i iter st
      if st1.conv then some st1 else iterate ops s i fuel (iter + 1) st1

/-- The body of the loop over the states `i` of `solve_linear` (CASPT2.cc, lines 241-303),
acting on the object, the amplitudes and the flag `converged`. -/
def solve_state {MT R Solver : Type} [LinearOrderedField R] (ops : Ops MT R Solver)
    (s : Nat → MT) (fuel : Nat) (acc : CASPT2 MT R × (Nat → MT) × Bool) (i : Nat) :
    Option (CASPT2 MT R × (Nat → MT) × Bool) :=
  let self1 := { acc.1 with
    e0_ := acc.1.e0all_ i - acc.1.shift
    energy_ := Function.update acc.1.energy_ i 0 }
  let t1 := Function.update acc.2.1 i (ops.zero (acc.2.1 i))
  if ops.rms (s i) < 1 / 10 ^ 15 then
    some ({ self1 with output := self1.output ++ [Printed.iteration 0 0 0] }, t1, acc.2.2)
  else
    let t2 := Function.update t1 i (ops.update_amplitude (t1 i) (s i))
    match iterate ops s i fuel 0
      { self := self1, t := t2, solver := ops.solver_make (s i), conv := false, error := 0 } with
    | none => none
    | some st => some (st.self, st.t, acc.2.2 && st.conv)

/-- `CASPT2::solve_linear` (CASPT2.cc, lines 237-308): the object after the call and the
returned amplitudes; `none` when an iteration loop needs more than `fuel` executions. -/
def solve_linear {MT R Solver : Type} [LinearOrderedField R] (ops : Ops MT R Solver)
    (self : CASPT2 MT R) (s t : Nat → MT) (fuel : Nat) :
    Option (CASPT2 MT R × (Nat → MT)) :=
  match (List.range self.nstates_).foldlM (solve_state ops s fuel) (self, t, true) with
  | none => none
  | some acc =>
    some ({ acc.1 with output := acc.1.output ++ [Printed.summary (!acc.2.2)] }, acc.2.1)

/-! ### `CASPT2::CASPT2` and `CASPT2::solve` -/

/-- The part of the class `MultiTensor_` that the driver uses (its header is not among the
sources): one factor and one tensor pointer per state, a null pointer being `none`. -/
structure MultiTensor (T R : Type) where
  /-- the factors `fac(i)` -/
  fac_ : Nat → R
  /-- the tensors `at(i)`, `none` when not allocated -/
  tensors_ : Nat → Option T

/-- The object `make_shared<MultiTensor>(nstates_)`: factors zero, no tensor allocated. -/
def MultiTensor.empty {T R : Type} [Zero R] : MultiTensor T R :=
  { fac_ := fun _ => 0, tensors_ := fun _ => none }

/-- The assignment `(*m)[j] = x` / `m->at(j) = x`. -/
def MultiTensor.set {T R : Type} (m : MultiTensor T R) (j : Nat) (x : T) : MultiTensor T R :=
  { m with tensors_ := Function.update m.tensors_ j (some x) }

/-- The assignment `m->fac(j) = a`. -/
def MultiTensor.set_fac {T R : Type} (m : MultiTensor T R) (j : Nat) (a : R) :
    MultiTensor T R :=
  { m with fac_ := Function.update m.fac_ j a }

/-- The loop of the constructor `CASPT2::CASPT2` (CASPT2.cc, lines 43-55) that creates
`t2all_`, `sall_` and `rall_`.  `init_amplitude`, `init_residual` are the tensors the
functions of these names return, `clone` is `MultiTensor::clone()`. -/
def ctor_tensors {T R : Type} [Zero R] (nstates_ : Nat) (sssr : Bool)
    (init_amplitude init_residual : T) (clone : MultiTensor T R → MultiTensor T R) :
    (Nat → MultiTensor T R) × (Nat → MultiTensor T R) × (Nat → MultiTensor T R) :=
  (List.range nstates_).foldl
    (fun acc i =>
      let tmps := (List.range nstates_).foldl
        (fun (p : MultiTensor T R × MultiTensor T R) j =>
          if !sssr || i == j then (p.1.set j init_amplitude, p.2.set j init_residual) else p)
        (MultiTensor.empty, MultiTensor.empty)
      (Function.update acc.1 i tmps.1, Function.update acc.2.1 i tmps.2,
        Function.update acc.2.2 i (clone tmps.2)))
    (fun _ => MultiTensor.empty, fun _ => MultiTensor.empty, fun _ => MultiTensor.empty)

/-- A queue made and drained by `solve()`: a source queue for the pair (bra `jst`, ket `ist`),
writing either into `sall_[ist]->at(jst)` or into a tensor freshly made by `init_residual()`;
or a norm queue for the pair (bra `jst`, ket `ist`) in the turn of state `istate`. -/
inductive QueueRun where
  | source (jst ist : Nat) (fresh : Bool)
  | norm (jst ist istate : Nat)
deriving DecidableEq, Repr

/-- The operations `solve()` calls whose code is not among the sources; they are parameters
of the model. -/
structure SolveOps (T R : Type) where
  /-- the tensor made by `init_residual()` -/
  init_residual : T
  /-- the tensor `s` after `set_rdm(jst, ist)` and the drained `make_sourceq(false, jst == ist)`,
  as a function of `jst`, `ist` and `s` before -/
  source_queue : Nat → Nat → T → T
  /-- the tensor `n` after `set_rdm(jst, ist)` and the drained `make_normq(true, jst == ist)`,
  as a function of `jst`, `ist`, the amplitude `t2` and `n` before -/
  norm_queue : Nat → Nat → Option T → T → T
  /-- the value of `dot_product_transpose(n, t)` for tensors -/
  dot_tensor : T → Option T → R
  /-- the effect of `heff_->diagonalize(eig)` on a matrix of the given dimension: the
  eigenvectors left in `heff_` and the eigenvalues left in `eig` -/
  diagonalize : Nat → (Nat → Nat → R) → (Nat → Nat → R) × (Nat → R)

/-- The members of the `CASPT2` object that `solve()` reads and writes: those of
`solve_linear` (`base`), and `t2all_`, `sall_`, `pt2energy_`, `eref_`, `heff_` (as the function
`(i, j) => (*heff_)(i, j)`), the option `info_->do_ms()`, and the record of the queues drained
so far. -/
structure SolveState (T R : Type) where
  /-- the members used by `solve_linear` -/
  base : CASPT2 (MultiTensor T R) R
  /-- the amplitudes -/
  t2all_ : Nat → MultiTensor T R
  /-- the sources -/
  sall_ : Nat → MultiTensor T R
  /-- the member `pt2energy_` -/
  pt2energy_ : Nat → R
  /-- the reference energies `(*eref_)(i, j)` -/
  eref_ : Nat → Nat → R
  /-- the effective Hamiltonian `(*heff_)(i, j)` -/
  heff_ : Nat → Nat → R
  /-- the option `info_->do_ms()` -/
  do_ms : Bool
  /-- the queues drained so far -/
  runs : List QueueRun

/-- Lines 110-116 of CASPT2.cc, the body of the loop over `jst` for the ket `istate`: skipped
under SS-SR for `jst != istate`; otherwise the source queue is drained on
`s = sall_[istate]->at(jst)`.  `none` when that pointer is null. -/
def source_step {T R : Type} (sops : SolveOps T R) (istate : Nat) (st : SolveState T R)
    (jst : Nat) : Option (SolveState T R) :=
  if st.base.sssr && (jst != istate) then some st
  else
    match (st.sall_ istate).tensors_ jst with
    | none => none
    | some s0 =>
      some { st with
        sall_ := Function.update st.sall_ istate
          ((st.sall_ istate).set jst (sops.source_queue jst istate s0))
        runs := st.runs ++ [QueueRun.source jst istate false] }

/-- Lines 105-118 of CASPT2.cc: the loop that builds the sources. -/
def source_loop {T R : Type} [Zero R] (sops : SolveOps T R) (st : SolveState T R) :
    Option (SolveState T R) :=
  (List.range st.base.nstates_).foldlM
    (fun (st : SolveState T R) istate =>
      (List.range st.base.nstates_).foldlM (source_step sops istate)
        { st with
          t2all_ := Function.update st.t2all_ istate ((st.t2all_ istate).set_fac istate 0)
          sall_ := Function.update st.sall_ istate ((st.sall_ istate).set_fac istate 0) })
    st

/-- Line 121 of CASPT2.cc: `t2all_ = solve_linear(sall_, t2all_);`. -/
def linear_phase {T R Solver : Type} [LinearOrderedField R]
    (ops : Ops (MultiTensor T R) R Solver) (fuel : Nat) (st : SolveState T R) :
    Option (SolveState T R) :=
  match solve_linear ops st.base st.sall_ st.t2all_ fuel with
  | none => none
  | some res => some { st with base := res.1, t2all_ := res.2 }

/-- Lines 135-142 of CASPT2.cc, the body of the loops over the bra `jst` and the ket `ist` in
the turn of state `istate`; the state of the loop is the object, the tensor `n` and `norm`. -/
def norm_step {T R : Type} [Add R] (sops : SolveOps T R) (istate jst : Nat)
    (acc : SolveState T R × T × R) (ist : Nat) : SolveState T R × T × R :=
  if acc.1.base.sssr && (jst != istate || ist != istate) then acc
  else
    let n := sops.norm_queue jst ist ((acc.1.t2all_ istate).tensors_ ist) acc.2.1
    ({ acc.1 with runs := acc.1.runs ++ [QueueRun.norm jst ist istate] }, n,
      acc.2.2 + sops.dot_tensor n ((acc.1.t2all_ istate).tensors_ jst))

/-- Lines 126-150 of CASPT2.cc, the body of the loop over `istate` that sets the single-state
energies `pt2energy_[istate]`. -/
def energy_step {T R : Type} [LinearOrderedField R] (sops : SolveOps T R)
    (st : SolveState T R) (istate : Nat) : SolveState T R :=
  if st.base.shift = 0 then
    { st with
      pt2energy_ := Function.update st.pt2energy_ istate
        (st.base.energy_ istate + st.eref_ istate istate) }
  else
    let acc := (List.range st.base.nstates_).foldl
      (fun (acc : SolveState T R × T × R) jst =>
        (List.range acc.1.base.nstates_).foldl (norm_step sops istate jst) acc)
      (st, sops.init_residual, 0)
    { acc.1 with
      pt2energy_ := Function.update acc.1.pt2energy_ istate
        (acc.1.base.energy_ istate + acc.1.eref_ istate istate
          - acc.1.base.shift * acc.2.2) }

/-- Lines 125-151 of CASPT2.cc: the loop over `istate` that sets the single-state energies. -/
def energy_loop {T R : Type} [LinearOrderedField R] (sops : SolveOps T R)
    (st : SolveState T R) : SolveState T R :=
  (List.range st.base.nstates_).foldl (energy_step sops) st

/-- Lines 164-173 of CASPT2.cc, the body of the loop over `jst` that collects the sources of
the ket `ist` in `sist`: the allocated tensor of `sall_[ist]`, or else the result of a source
queue drained on a fresh tensor. -/
def sist_step {T R : Type} (sops : SolveOps T R) (ist : Nat)
    (acc : SolveState T R × MultiTensor T R) (jst : Nat) :
    SolveState T R × MultiTensor T R :=
  match (acc.1.sall_ ist).tensors_ jst with
  | some x => (acc.1, acc.2.set jst x)
  | none =>
    ({ acc.1 with runs := acc.1.runs ++ [QueueRun.source jst ist true] },
      acc.2.set jst (sops.source_queue jst ist sops.init_residual))

/-- Lines 177-184 of CASPT2.cc, the body of the loop over `jst` that fills column `ist` of
`heff_`. -/
def heff_step {T R Solver : Type} [Add R] (ops : Ops (MultiTensor T R) R Solver) (ist : Nat)
    (sist : MultiTensor T R) (st : SolveState T R) (jst : Nat) : SolveState T R :=
  if ist = jst then
    { st with
      heff_ := Function.update st.heff_ ist
        (Function.update (st.heff_ ist) ist (st.pt2energy_ ist)) }
  else
    { st with
      heff_ := Function.update st.heff_ jst
        (Function.update (st.heff_ jst) ist
          (ops.dot_product_transpose sist (st.t2all_ jst) + st.eref_ jst ist)) }

/-- Modelled from the spec: `Matrix::symmetrize()` (its code is not among the sources) for a
matrix of dimension `n`: every pair of off-diagonal elements `(i, j)`, `(j, i)` is replaced by
its average, as the comment `1/2 [ <1g | H | Oe> + <0g |H | 1e > ]` in `solve()` says. -/
def symmetrize {R : Type} [LinearOrderedField R] (n : Nat) (h : Nat → Nat → R) :
    Nat → Nat → R :=
  fun i j => if i < n ∧ j < n ∧ i ≠ j then (h i j + h j i) / 2 else h i j

/-- Lines 159-187 of CASPT2.cc: the effective Hamiltonian as it stands before
`heff_->diagonalize(eig)`. -/
def heff_build {T R Solver : Type} [LinearOrderedField R]
    (ops : Ops (MultiTensor T R) R Solver) (sops : SolveOps T R) (st : SolveState T R) :
    SolveState T R :=
  let st1 := (List.range st.base.nstates_).foldl
    (fun (st : SolveState T R) ist =>
      let acc := (List.range st.base.nstates_).foldl (sist_step sops ist)
        (st, MultiTensor.empty)
      (List.range acc.1.base.nstates_).foldl (heff_step ops ist acc.2) acc.1)
    { st with heff_ := fun _ _ => 0 }
  { st1 with heff_ := symmetrize st1.base.nstates_ st1.heff_ }

/-- Lines 158-231 of CASPT2.cc: the multi-state part of `solve()`. -/
def ms_phase {T R Solver : Type} [LinearOrderedField R]
    (ops : Ops (MultiTensor T R) R Solver) (sops : SolveOps T R) (st : SolveState T R) :
    SolveState T R :=
  if st.do_ms && decide (1 < st.base.nstates_) then
    let st1 := heff_build ops sops st
    let res := sops.diagonalize st1.base.nstates_ st1.heff_
    { st1 with
      heff_ := res.1
      pt2energy_ := fun i => if i < st1.base.nstates_ then res.2 i else st1.pt2energy_ i }
  else
    { st with heff_ := fun i j => if i = 0 ∧ j = 0 then 1 else 0 }

/-- Line 232 of CASPT2.cc: `energy_ = pt2energy_;`. -/
def energy_copy {T R : Type} (st : SolveState T R) : SolveState T R :=
  { st with base := { st.base with energy_ := st.pt2energy_ } }

/-- `CASPT2::solve` (CASPT2.cc, lines 100-233); `none` when a null source tensor is used or
the fuel of `solve_linear` runs out. -/
def solve {T R Solver : Type} [LinearOrderedField R] (ops : Ops (MultiTensor T R) R Solver)
    (sops : SolveOps T R) (fuel : Nat) (st : SolveState T R) : Option (SolveState T R) :=
  match source_loop sops st with
  | none => none
  | some st1 =>
    match linear_phase ops fuel st1 with
    | none => none
    | some st2 => some (energy_copy (ms_phase ops sops (energy_loop sops st2)))

/-- The source queues of the source-building loop of `solve()`, in the order of the loop: for
each ket `istate` the bras `jst` that SS-SR does not skip, each writing into
`sall_[istate]->at(jst)`. -/
def source_runs (nstates_ : Nat) (sssr : Bool) : List QueueRun :=
  (List.range nstates_).flatMap (fun istate =>
    ((List.range nstates_).filter (fun jst => !(sssr && (jst != istate)))).map
      (fun jst => QueueRun.source jst istate false))

/-- The source queues of the multi-state part of `solve()`, in the order of the loop: for each
ket `ist` the bras `jst` whose tensor `sall_[ist]->at(jst)` is not allocated, each writing into
a fresh tensor. -/
def ms_source_runs {T R : Type} (nstates_ : Nat) (sall_ : Nat → MultiTensor T R) :
    List QueueRun :=
  (List.range nstates_).flatMap (fun ist =>
    ((List.range nstates_).filter (fun jst => ((sall_ ist).tensors_ jst).isNone)).map
      (fun jst => QueueRun.source jst ist true))

/-- The source collection `sist` that the multi-state part of `solve()` puts together for the
ket `ist`: entry `jst` is the allocated tensor `sall_[ist]->at(jst)`, or else the result of the
source queue of the pair on a fresh tensor. -/
def sist_of {T R : Type} [Zero R] (sops : SolveOps T R) (nstates_ : Nat)
    (sall_ : Nat → MultiTensor T R) (ist : Nat) : MultiTensor T R :=
  { fac_ := fun _ => 0
    tensors_ := fun jst =>
      if jst < nstates_ then
        some (match (sall_ ist).tensors_ jst with
          | some x => x
          | none => sops.source_queue jst ist sops.init_residual)
      else none }

/-- The element `(j, i)` that the multi-state part of `solve()` writes into `heff_` before
`symmetrize()`: the single-state energy on the diagonal, and `<s_i|t_j> + eref(j, i)` off it. -/
def heff_raw {T R Solver : Type} [LinearOrderedField R]
    (ops : Ops (MultiTensor T R) R Solver) (sops : SolveOps T R) (st : SolveState T R)
    (j i : Nat) : R :=
  if i = j then st.pt2energy_ i
  else ops.dot_product_transpose (sist_of sops st.base.nstates_ st.sall_ i) (st.t2all_ j)
    + st.eref_ j i

/-- The (bra, ket) pairs of states that the norm loops of `solve()` process in the turn of
state `istate`, in the order of the loops: all pairs with SS-SR off, the pair
`(istate, istate)` alone with SS-SR on. -/
def norm_pairs (nstates_ : Nat) (sssr : Bool) (istate : Nat) : List (Nat × Nat) :=
  (List.range nstates_).flatMap (fun jst =>
    ((List.range nstates_).filter
      (fun ist => !(sssr && (jst != istate || ist != istate)))).map (fun ist => (jst, ist)))

/-- The norm queue of the pair `p` = (bra, ket) and its term: the tensor `n` the queue leaves,
and the sum so far plus `<n|t_istate[bra]>`. -/
def norm_acc {T R : Type} [Add R] (sops : SolveOps T R) (t : MultiTensor T R)
    (acc : T × R) (p : Nat × Nat) : T × R :=
  (sops.norm_queue p.1 p.2 (t.tensors_ p.2) acc.1,
    acc.2 + sops.dot_tensor (sops.norm_queue p.1 p.2 (t.tensors_ p.2) acc.1) (t.tensors_ p.1))

/-- The norm of state `istate`: the sum of `<n|t_istate[bra]>` over the processed (bra, ket)
pairs, `n` being the tensor left by the norm queue of the pair. -/
def norm_sum {T R : Type} [LinearOrderedField R] (sops : SolveOps T R)
    (st : SolveState T R) (istate : Nat) : R :=
  ((norm_pairs st.base.nstates_ st.base.sssr istate).foldl
    (norm_acc sops (st.t2all_ istate)) (sops.init_residual, 0)).2

/-- Every source tensor that the source-building loop uses is allocated. -/
def sources_allocated {T R : Type} (st : SolveState T R) : Prop :=
  ∀ i j, i < st.base.nstates_ → j < st.base.nstates_ → (!st.base.sssr || i == j) = true →
    ((st.sall_ i).tensors_ j).isSome = true

/-- Operations on collections of tensors (a tensor being a natural number) for a small run of
`solve()`: every RMS is 0, so that `solve_linear` takes the zero-source shortcut, and every dot
product is 1. -/
def demo_mt_ops : Ops (MultiTensor Nat ℚ) ℚ Nat :=
  { zero := fun m => m
    rms := fun _ => 0
    norm := fun _ => 1
    scale := fun _ m => m
    update_amplitude := fun t _ => t
    residual_pair := fun _ _ _ _ r => r
    solver_make := fun _ => 0
    compute_residual := fun n _ r => (n, r)
    civec := fun _ => MultiTensor.empty
    dot_product_transpose := fun _ _ => 1 }

/-- Operations of `solve()` for a small run: a source queue adds 1 to the tensor, a norm queue
leaves `n` alone, every dot product is 1 and `diagonalize` returns the diagonal. -/
def demo_sops : SolveOps Nat ℚ :=
  { init_residual := 0
    source_queue := fun _ _ x => x + 1
    norm_queue := fun _ _ _ n => n
    dot_tensor := fun _ _ => 1
    diagonalize := fun _ h => (h, fun i => h i i) }

/-- A `CASPT2` object as the constructor leaves it, with the given number of states, SS-SR and
multi-state options and level shift. -/
def demo_solve_state (nstates_ : Nat) (sssr do_ms : Bool) (shift : ℚ) : SolveState Nat ℚ :=
  { base :=
      { nstates_ := nstates_, e0all_ := fun _ => 0, e0_ := 0, energy_ := fun _ => 0,
        rall_ := (ctor_tensors nstates_ sssr 0 0 (fun m => m)).2.2,
        shift := shift, sssr := sssr, maxiter := 5, thresh := 1 / 2, output := [] }
    t2all_ := (ctor_tensors nstates_ sssr 0 0 (fun m => m)).1
    sall_ := (ctor_tensors nstates_ sssr 0 0 (fun m => m)).2.1
    pt2energy_ := fun _ => 0
    eref_ := fun i j => if i = j then 3 else 0
    heff_ := fun _ _ => 0
    do_ms := do_ms
    runs := [] }

/-- The loop variables with which the iteration loop of state `i` starts (CASPT2.cc, lines
242-256): `conv = false`, `error = 0.0`, `e0_` set, `energy_[i] = 0.0`, the guess amplitude
`t[i]` built from the source, and a new solver. -/
def state_start {MT R Solver : Type} [LinearOrderedField R] (ops : Ops MT R Solver)
    (s : Nat → MT) (acc : CASPT2 MT R × (Nat → MT) × Bool) (i : Nat) : LoopState MT R Solver :=
  { self := { acc.1 with
      e0_ := acc.1.e0all_ i - acc.1.shift
      energy_ := Function.update acc.1.energy_ i 0 }
    t := Function.update (Function.update acc.2.1 i (ops.zero (acc.2.1 i))) i
      (ops.update_amplitude (Function.update acc.2.1 i (ops.zero (acc.2.1 i)) i) (s i))
    solver := ops.solver_make (s i)
    conv := false
    error := 0 }

/-- The object, the amplitudes and the flag `converged` of `solve_linear` when the loop over the
states has done the states `0, ..., k-1`, i.e. on entry of the turn of state `k`. -/
def states_upto {MT R Solver : Type} [LinearOrderedField R] (ops : Ops MT R Solver)
    (self : CASPT2 MT R) (s t : Nat → MT) (fuel : Nat) (k : Nat) :
    Option (CASPT2 MT R × (Nat → MT) × Bool) :=
  (List.range k).foldlM (solve_state ops s fuel) (self, t, true)

/-- Two `CASPT2` objects have the same number of states and the same options. -/
def same_options {MT R : Type} (a b : CASPT2 MT R) : Prop :=
  a.nstates_ = b.nstates_ ∧ a.e0all_ = b.e0all_ ∧ a.shift = b.shift ∧ a.sssr = b.sssr ∧
    a.maxiter = b.maxiter ∧ a.thresh = b.thresh

/-- Operations for a small run of `solve_linear`: a collection is a natural number, the solver
counts its calls and returns the count as the residual, and the residual RMS is 1 except for
the collection `1`, whose RMS is 0. -/
def demo_ops : Ops Nat ℚ Nat :=
  { zero := fun _ => 0
    rms := fun m => if m = 1 then 0 else 1
    norm := fun _ => 1
    scale := fun _ m => m
    update_amplitude := fun t _ => t
    residual_pair := fun _ _ _ _ r => r
    solver_make := fun _ => 0
    compute_residual := fun n _ _ => (n + 1, n)
    civec := fun _ => 7
    dot_product_transpose := fun _ _ => 0 }

/-- A `CASPT2` object with one state, threshold 1/2 and the given `maxiter`. -/
def demo_caspt2 (maxiter : Int) : CASPT2 Nat ℚ :=
  { nstates_ := 1, e0all_ := fun _ => 0, e0_ := 0, energy_ := fun _ => 0, rall_ := fun _ => 5,
    shift := 0, sssr := false, maxiter := maxiter, thresh := 1 / 2, output := [] }

/-- The printed lines without their numbers: `some iter` for the line of iteration `iter`,
`none` for the closing line. -/
def Printed.iter_of {R : Type} : Printed R → Option Int
  | Printed.iteration iter _ _ => some iter
  | Printed.summary _ => none

/-! ### The XMS coupling matrix of `CASPT2::solve_deriv` -/

/-- Lines 518-521 of CASPT2.cc, the body of the loop over `j < i`: `cy`, then
`wmn(j,i) = fabs(e0all_[j]-e0all_[i]) > 1.0e-12 ? -0.5 * cy / (e0all_[j]-e0all_[i]) : 0.0;
wmn(i,j) = wmn(j,i);`.  `dot a b` is the dot product of CI vector `a` with `ci_deriv_` of
state `b`.  The state of the loop is the matrix `wmn` and the record of the divisions
evaluated, each as `(j, i, denominator)`. -/
def wmn_step {R : Type} [LinearOrderedField R] (e0all_ : Nat → R) (dot : Nat → Nat → R)
    (i : Nat) (acc : (Nat → Nat → R) × List (Nat × Nat × R)) (j : Nat) :
    (Nat → Nat → R) × List (Nat × Nat × R) :=
  let cy := dot j i - dot i j
  let w1 := Function.update acc.1 j (Function.update (acc.1 j) i
    (if abs (e0all_ j - e0all_ i) > 1 / 10 ^ 12 then -(1 / 2) * cy / (e0all_ j - e0all_ i)
      else 0))
  let w2 := Function.update w1 i (Function.update (w1 i) j (w1 j i))
  (w2, acc.2 ++
    (if abs (e0all_ j - e0all_ i) > 1 / 10 ^ 12 then [(j, i, e0all_ j - e0all_ i)] else []))

/-- Lines 514-524 of CASPT2.cc: the matrix `wmn` (created with all elements zero) after the
loops `for i, for j != i`, with the record of the divisions evaluated. -/
def solve_deriv_wmn {R : Type} [LinearOrderedField R] (nstates_ : Nat) (e0all_ : Nat → R)
    (dot : Nat → Nat → R) : (Nat → Nat → R) × List (Nat × Nat × R) :=
  (List.range nstates_).foldl
    (fun acc i => (List.range i).foldl (wmn_step e0all_ dot i) acc)
    (fun _ _ => 0, [])

/-- The element `wmn(j, i)` for `j < i` as line 520 computes it. -/
def wmn_value {R : Type} [LinearOrderedField R] (e0all_ : Nat → R) (dot : Nat → Nat → R)
    (j i : Nat) : R :=
  if abs (e0all_ j - e0all_ i) > 1 / 10 ^ 12 then
    -(1 / 2) * (dot j i - dot i j) / (e0all_ j - e0all_ i)
  else 0

end CASPT2

/-! ## Task900 (src/smith/caspt2/MSCASPT2_contract_tasks.h, MSCASPT2_contract_gen.cc) -/

namespace MSCASPT2

/-- The members of `Task900` that `compute_` uses: the pointer `deci_` (an address in the
memory of tensors) and the flag `reset_`. -/
structure Task900 where
  /-- address of the tensor `deci_` -/
  deci_ : Nat
  /-- the flag `reset_` -/
  reset_ : Bool
deriving DecidableEq, Repr

/-- The constructor `Task900::Task900(t, reset)` (MSCASPT2_contract_gen.cc, lines 37-39):
`reset_(reset)`, `deci_ = t[0]`; `none` when the vector `t` is empty. -/
def Task900.ctor (t : List Nat) (reset : Bool) : Option Task900 :=
  match t with
  | [] => none
  | t0 :: _ => some { deci_ := t0, reset_ := reset }

/-- Modelled from the spec: `Tensor::zero()` (tensor.h is not among the sources) sets every
element of the tensor to zero. -/
def Tensor_zero {R : Type} [Zero R] (_t : Nat → R) : Nat → R := fun _ => 0

/-- `Task900::compute_` (MSCASPT2_contract_tasks.h, lines 47-49): `if (reset_) deci_->zero();`,
acting on the memory of tensors (tensor by address, element by index). -/
def Task900.compute_ {R : Type} [Zero R] (self : Task900) (mem : Nat → Nat → R) :
    Nat → Nat → R :=
  if self.reset_ then Function.update mem self.deci_ (Tensor_zero (mem self.deci_)) else mem

end MSCASPT2
end SMITH

/-! ## DistABTask::compute (src/fci/distfci_ab.h) -/

/-- The members of `DistABTask` that decide which calls `compute` makes on `sigma`: the alpha
string `astring` (bit `i` of the bitset) and `base_det->norb()`. -/
structure DistABTask where
  /-- the bits of `astring` -/
  astring : Nat → Bool
  /-- the value of `base_det->norb()` -/
  norb_ : Nat

/-- A call on the distributed vector `sigma`: `accumulate_bstring_buf(buf, a)` or
`flush_accumulate()`. -/
inductive SigmaCall (B : Type) where
  | accumulate_bstring_buf (buf : B) (a : Nat)
  | flush_accumulate
deriving DecidableEq, Repr

/-- The operation `set(i)` of a bitset. -/
def bitset_set (b : Nat → Bool) (i : Nat) : Nat → Bool := Function.update b i true

/-- The operation `count()` of a bitset of `nbit` bits. -/
def bitset_count (nbit : Nat) (b : Nat → Bool) : Nat := ((List.range nbit).filter b).length

/-- `DistABTask::compute` (distfci_ab.h, lines 76-103) as the sequence of calls it makes on
`sigma`.  `lexical` is `base_det->lexical<0>`, and `bcolumn i` is the buffer that lines 93-99
fill for orbital `i`. -/
def DistABTask.compute {B : Type} (lexical : (Nat → Bool) → Nat) (bcolumn : Nat → B)
    (self : DistABTask) : List (SigmaCall B) :=
  (List.range self.norb_).foldl
    (fun calls i =>
      if self.astring i then calls
      else calls ++ [SigmaCall.accumulate_bstring_buf (bcolumn i)
        (lexical (bitset_set self.astring i))])
    []
  ++ [SigmaCall.flush_accumulate]

/-! ## `RelMOFile` (ci/zfci/relmofile.cc)

The classes `Kramers`, `KTag` (kramers.h), `ZMatrix` and the template `sort_indices`
(prim_op.h) are not among the sources; what `RelMOFile` uses of them is modelled below. -/

/-- Modelled from the spec: the tag of a block of a Kramers-adapted four-index quantity,
`bitset<4>`, one bar/unbar bit per index; `b1` is bit 1 of the bitset. -/
structure KTag where
  b0 : Bool
  b1 : Bool
  b2 : Bool
  b3 : Bool
  deriving DecidableEq, Repr

/-- Lines 208-210 of relmofile.cc: `s = tag; s[2] = tag[1]; s[1] = tag[2]`. -/
def KTag.transpose_middle (t : KTag) : KTag :=
  { b0 := t.b0, b1 := t.b2, b2 := t.b1, b3 := t.b3 }

/-- The sixteen tags of four bits. -/
def KTag.all : List KTag :=
  [false, true].flatMap fun b0 => [false, true].flatMap fun b1 =>
    [false, true].flatMap fun b2 => [false, true].map fun b3 => KTag.mk b0 b1 b2 b3

/-- A four-index tensor over orbitals: element `(i, j, k, l)` is the entry
`i + nocc * (j + nocc * (k + nocc * l))` of the matrix data. -/
abbrev Tensor4 (C : Type) := Nat → Nat → Nat → Nat → C

/-- Modelled from the spec: `Kramers<4,ZMatrix>` is a map from tags to blocks; a tag that is
not present has no block. -/
abbrev Kramers4 (C : Type) := KTag → Option (Tensor4 C)

/-- Modelled from the spec: `Kramers::emplace` inserts the block under the tag unless the tag
is already present (the behaviour of `std::map::emplace`). -/
def Kramers4.emplace {C : Type} (m : Kramers4 C) (t : KTag) (v : Tensor4 C) : Kramers4 C :=
  if (m t).isSome then m else Function.update m t (some v)

/-- The number of entries of the map. -/
def Kramers4.size {C : Type} (m : Kramers4 C) : Nat :=
  (KTag.all.filter fun t => (m t).isSome).length

/-- Modelled from the spec: `ZMatrix::clone` gives a matrix of the same dimensions filled
with zeros. -/
def ZMatrix_clone {C : Type} [Field C] (_m : Tensor4 C) : Tensor4 C := fun _ _ _ _ => 0

/-- Modelled from the spec: `sort_indices<0,2,1,3,0,1,1,1>(unsorted, sorted, n, n, n, n)`
replaces, for all indices below `n`, the element `(i, k, j, l)` of `sorted` by
`0/1 * sorted(i,k,j,l) + 1/1 * unsorted(i,j,k,l)`. -/
def sort_indices_0213 {C : Type} [Field C] (unsorted sorted : Tensor4 C) (n : Nat) :
    Tensor4 C :=
  fun i k j l =>
    if i < n ∧ k < n ∧ j < n ∧ l < n then 0 / 1 * sorted i k j l + 1 / 1 * unsorted i j k l
    else sorted i k j l

/-- One pass of the loop of `RelMOFile::compress_and_set` (lines 205-212) for the entry
`(t, mat)` of `buf2e`. -/
def RelMOFile.compress_step {C : Type} [Field C] (nocc_ : Nat) (mo2e_ : Kramers4 C)
    (t : KTag) (mat : Tensor4 C) : Kramers4 C :=
  let tmp := sort_indices_0213 mat (ZMatrix_clone mat) nocc_
  mo2e_.emplace t.transpose_middle tmp

/-- `RelMOFile::compress_and_set` (relmofile.cc, lines 200-213): the new `mo1e_` and `mo2e_`.
The loop visits the entries of `buf2e`, that is the tags of `KTag.all` that are present. -/
def RelMOFile.compress_and_set {C B : Type} [Field C] (nocc_ : Nat) (buf1e : B)
    (buf2e : Kramers4 C) : B × Kramers4 C :=
  (buf1e, KTag.all.foldl
    (fun mo2e_ t =>
      match buf2e t with
      | none => mo2e_
      | some mat => RelMOFile.compress_step nocc_ mo2e_ t mat)
    (fun _ => none))

/-- The exceptions of `RelMOFile::kramers`, and the failure of its `assert`. -/
inductive KramersError where
  | logic_error
  | runtime_error
  | assert_failed
  deriving DecidableEq, Repr

/-- What the grouping loop of `RelMOFile::kramers` keeps: the list `done`, and for each group
the columns `(d/2, n/2)` written into both outputs by lines 189-190 together with the
members `current` of the group. -/
structure KramersState where
  done : List Nat
  blocks : List (Nat × Nat × List Nat)
  deriving DecidableEq, Repr

/-- The test of line 138, `fabs(x - e) / fabs(e) < 1.0e-8`, on doubles: for `e = 0` the
quotient is infinite or not a number and the comparison is false. -/
def RelMOFile.close_to {R : Type} [LinearOrderedField R] (e x : R) : Bool :=
  if e = 0 then false else decide (abs (x - e) / abs e < 1 / 10 ^ 8)

/-- Lines 134-140: the list `current` of the group started at orbital `i`. -/
def RelMOFile.kramers_current {R : Type} [LinearOrderedField R] (eig : Nat → R)
    (mdim i : Nat) : List Nat :=
  i :: (List.range' (i + 1) (mdim - (i + 1))).filter fun j =>
    RelMOFile.close_to (eig i) (eig j)

/-- One pass of the loop over `i` of `RelMOFile::kramers` (lines 132-193).  The matrix
operations of lines 144-185 (ZMatrix, not among the sources) do not enter the control flow
and are left out. -/
def RelMOFile.kramers_step {R : Type} [LinearOrderedField R] (eig : Nat → R) (mdim : Nat)
    (st : KramersState) (i : Nat) : Except KramersError KramersState :=
  if i ∈ st.done then .ok st
  else
    let current := RelMOFile.kramers_current eig mdim i
    let n := current.length
    if n % 2 ≠ 0 then .error .runtime_error
    else
      let d := st.done.length
      if d % 2 ≠ 0 then .error .assert_failed
      else .ok { done := st.done ++ current, blocks := st.blocks ++ [(d / 2, n / 2, current)] }

/-- The grouping loop over the orbitals below `k`. -/
def RelMOFile.kramers_loop {R : Type} [LinearOrderedField R] (eig : Nat → R) (mdim k : Nat) :
    Except KramersError KramersState :=
  (List.range k).foldlM (RelMOFile.kramers_step eig mdim) { done := [], blocks := [] }

/-- `RelMOFile::kramers` (relmofile.cc, lines 110-197) for a coefficient matrix of `ndim`
rows and `mdim` columns whose diagonal energies have the real parts `eig`. -/
def RelMOFile.kramers {R : Type} [LinearOrderedField R] (ndim mdim : Nat) (eig : Nat → R) :
    Except KramersError KramersState :=
  if ndim % 2 ≠ 0 ∨ ndim % 4 ≠ 0 then .error .logic_error
  else RelMOFile.kramers_loop eig mdim mdim

/-- Diagonal energies used in the examples: 1, 1, 2, and 0 from orbital 3 on. -/
def demo_eig : Nat → ℚ := fun i => if i < 2 then 1 else if i = 2 then 2 else 0

/-- A two-electron buffer used in the examples: one block, under the tag
`(false, true, false, false)`, with the element `i + 10 j + 100 k + 1000 l`. -/
def demo_buf2e : Kramers4 ℚ := fun t =>
  if t = KTag.mk false true false false then
    some fun i j k l => (i : ℚ) + 10 * j + 100 * k + 1000 * l
  else none

/-- Diagonal energies whose closeness is not transitive: orbital 2 is within `1e-8` (relative)
of orbitals 0 and 1, which are `1.8e-8` apart; the same for orbitals 5, 3 and 4. -/
def near_eig : Nat → ℚ := fun i =>
  if i = 0 then 1000000000 else if i = 1 then 1000000018 else if i = 2 then 1000000009
  else if i = 3 then 2000000000 else if i = 4 then 2000000036 else 2000000018

/-- Diagonal energies of two well separated pairs: 1, 1, 2, 2. -/
def paired_eig : Nat → ℚ := fun i => if i < 2 then 1 else 2

/-! ## Task901 to Task905 (smith/caspt2/MSCASPT2_contract_tasks.h, MSCASPT2_contract_gen.cc) -/

namespace SMITH

/-- Modelled from the spec: the class `Index` (indexrange.h is not among the sources), one
block of an index range. -/
structure Index where
  /-- first orbital of the block -/
  offset : Nat
  /-- number of orbitals of the block -/
  size : Nat
  /-- the key of the block -/
  key : Nat
  deriving DecidableEq, Repr

/-- Modelled from the spec: the class `IndexRange` (indexrange.h is not among the sources):
the blocks of the range in the order in which `for (auto& b : range)` visits them. -/
structure IndexRange where
  /-- the blocks -/
  range_ : List Index
  deriving DecidableEq, Repr

/-- Modelled from the spec: `IndexRange::nblock()`, the number of blocks. -/
def IndexRange.nblock (r : IndexRange) : Nat := r.range_.length

namespace MSCASPT2

/-- The nested class `Task901::Task_local`, a `SubTask<1,2>`: one block index, two input
tensors, the output tensor, and the four index ranges.  Tensors are given by address. -/
structure Task901.Task_local where
  /-- the block index tuple -/
  block : Index
  /-- the input tensors -/
  in_ : Nat × Nat
  /-- the output tensor -/
  out : Nat
  /-- the member `range_` -/
  range_ : Fin 4 → IndexRange

/-- The members of `Task901` (MSCASPT2_contract_tasks.h, lines 56-90). -/
structure Task901 where
  /-- the output tensor -/
  out_ : Nat
  /-- the ordered input tensors -/
  in_ : Nat × Nat
  /-- the subtasks, in the order of `push_back` -/
  subtasks_ : List Task901.Task_local

/-- The constructor `Task901::Task901` (MSCASPT2_contract_gen.cc, lines 41-50).
`is_local p b` is `Tensor::is_local(b)` of the tensor at address `p` (tensor.h is not among
the sources).  A list with fewer than three tensors, for which `t[2]` does not exist, gives
`none`. -/
def Task901.ctor (is_local : Nat → Index → Bool) (t : List Nat) (range : Fin 4 → IndexRange) :
    Option Task901 :=
  match t with
  | t0 :: t1 :: t2 :: _ =>
    some
      { out_ := t0
        in_ := (t1, t2)
        subtasks_ := (range 3).range_.foldl
          (fun subtasks_ ci0 =>
            if is_local t0 ci0 then
              subtasks_ ++ [{ block := ci0, in_ := (t1, t2), out := t0, range_ := range }]
            else subtasks_)
          [] }
  | _ => none

/-- The constructor `Task902::Task902` (MSCASPT2_contract_gen.cc, lines 52-61); the class
`Task902` has the members of `Task901`. -/
def Task902.ctor (is_local : Nat → Index → Bool) (t : List Nat) (range : Fin 4 → IndexRange) :
    Option Task901 :=
  match t with
  | t0 :: t1 :: t2 :: _ =>
    some
      { out_ := t0
        in_ := (t1, t2)
        subtasks_ := (range 3).range_.foldl
          (fun subtasks_ ci0 =>
            if is_local t0 ci0 then
              subtasks_ ++ [{ block := ci0, in_ := (t1, t2), out := t0, range_ := range }]
            else subtasks_)
          [] }
  | _ => none

/-- The constructor `Task903::Task903` (MSCASPT2_contract_gen.cc, lines 63-72); the class
`Task903` has the members of `Task901`. -/
def Task903.ctor (is_local : Nat → Index → Bool) (t : List Nat) (range : Fin 4 → IndexRange) :
    Option Task901 :=
  match t with
  | t0 :: t1 :: t2 :: _ =>
    some
      { out_ := t0
        in_ := (t1, t2)
        subtasks_ := (range 3).range_.foldl
          (fun subtasks_ ci0 =>
            if is_local t0 ci0 then
              subtasks_ ++ [{ block := ci0, in_ := (t1, t2), out := t0, range_ := range }]
            else subtasks_)
          [] }
  | _ => none

/-- The constructor `Task904::Task904` (MSCASPT2_contract_gen.cc, lines 74-83); the class
`Task904` has the members of `Task901`. -/
def Task904.ctor (is_local : Nat → Index → Bool) (t : List Nat) (range : Fin 4 → IndexRange) :
    Option Task901 :=
  match t with
  | t0 :: t1 :: t2 :: _ =>
    some
      { out_ := t0
        in_ := (t1, t2)
        subtasks_ := (range 3).range_.foldl
          (fun subtasks_ ci0 =>
            if is_local t0 ci0 then
              subtasks_ ++ [{ block := ci0, in_ := (t1, t2), out := t0, range_ := range }]
            else subtasks_)
          [] }
  | _ => none

/-- The constructor `Task905::Task905` (MSCASPT2_contract_gen.cc, lines 85-94); the class
`Task905` has the members of `Task901`. -/
def Task905.ctor (is_local : Nat → Index → Bool) (t : List Nat) (range : Fin 4 → IndexRange) :
    Option Task901 :=
  match t with
  | t0 :: t1 :: t2 :: _ =>
    some
      { out_ := t0
        in_ := (t1, t2)
        subtasks_ := (range 3).range_.foldl
          (fun subtasks_ ci0 =>
            if is_local t0 ci0 then
              subtasks_ ++ [{ block := ci0, in_ := (t1, t2), out := t0, range_ := range }]
            else subtasks_)
          [] }
  | _ => none

end MSCASPT2

namespace CASPT2

/-! ### The passes of `CASPT2::do_rdm_deriv` -/

/-- `CASPT2::do_rdm_deriv` (CASPT2.cc, lines 59-98): the arguments `(ioffset, isize)` of the
successive calls of `feed_rdm_deriv_3`, for `ndet = ci_deriv_->data(0)->size()` and
`nact = info_->nact()`.  The type `size_t` is taken as 64 bits wide and its arithmetic is
modulo `2^64`; the counter `ipass` is assumed to stay within `int`. -/
def do_rdm_deriv (ndet nact : Nat) : List (Nat × Nat) :=
  let norb2 := nact * nact % 2 ^ 64
  let ijmax := 635040001
  let ijnum := ndet * norb2 % 2 ^ 64 * norb2 % 2 ^ 64
  let npass := (ijnum + 2 ^ 64 - 1) % 2 ^ 64 / ijmax + 1
  let nsize := (ndet + 2 ^ 64 - 1) % 2 ^ 64 / npass + 1
  (List.range npass).map fun ipass =>
    let ioffset := ipass * nsize % 2 ^ 64
    let isize := if ipass ≠ npass - 1 then nsize else (ndet + 2 ^ 64 - ioffset) % 2 ^ 64
    (ioffset, isize)

end CASPT2
end SMITH

/-! ## `MOFile::create_Jiiii` (src/fci/mofile.cc) -/

/-- The value that an `int` of 32 bits holds after an operation whose exact result is `x`:
two's complement, wrapping around. -/
def wrap_int (x : Int) : Int := (x + 2 ^ 31) % 2 ^ 32 - 2 ^ 31

/-- The state of a loop that fills an array entry by entry: the array, the running position
(the `int` `ijkl` or `ij`), and the record of the writes made, each as the position written
with the index read. -/
structure PackState (R : Type) where
  /-- the array written, by index -/
  data : Int → R
  /-- the running position, an `int` -/
  pos : Int
  /-- the writes made so far: position written, index read -/
  log : List (Int × Int)

/-- One store `array[pos] = v; ++pos`, where `v` was read at index `r`. -/
def PackState.put {R : Type} (st : PackState R) (v : R) (r : Int) : PackState R :=
  { data := Function.update st.data st.pos v
    pos := wrap_int (st.pos + 1)
    log := st.log ++ [(st.pos, r)] }

/-- Line 80 of mofile.cc: `const int ijo = (j + i*nocc)*nocc*nocc`, every operation in `int`. -/
def MOFile.ijo (nocc i j : Nat) : Int :=
  wrap_int (wrap_int (wrap_int ((j : Int) + wrap_int ((i : Int) * (nocc : Int)))
    * (nocc : Int)) * (nocc : Int))

/-- Line 83 of mofile.cc: the index `l+k*nocc+ijo`, every operation in `int`. -/
def MOFile.read_index (nocc i j k l : Nat) : Int :=
  wrap_int (wrap_int ((l : Int) + wrap_int ((k : Int) * (nocc : Int))) + MOFile.ijo nocc i j)

/-- Lines 78-85 of mofile.cc, the packing of `mo2e_`:
`ijo = (j + i*nocc)*nocc*nocc` and `mo2e_[ijkl] = buf2e[l+k*nocc+ijo]` for `i`, `j <= i`, `k`,
`l <= k`, with `ijkl` counted up.  `nocc` is the value of the `int` `nocc`, not negative;
`mo2e0` is the content of the new array; arrays are given by index. -/
def MOFile.pack_mo2e {R : Type} (nocc : Nat) (buf2e : Int → R) (mo2e0 : Int → R) :
    PackState R :=
  (List.range nocc).foldl
    (fun st i => (List.range (i + 1)).foldl
      (fun st j =>
        (List.range nocc).foldl
          (fun st k => (List.range (k + 1)).foldl
            (fun (st : PackState R) l =>
              st.put (buf2e (MOFile.read_index nocc i j k l)) (MOFile.read_index nocc i j k l))
            st)
          st)
      st)
    { data := mo2e0, pos := 0, log := [] }

/-- Line 91 of mofile.cc: the index `j+i*nocc` of `mo1e_`, every operation in `int`. -/
def MOFile.mo1e_index (nocc i j : Nat) : Int :=
  wrap_int ((j : Int) + wrap_int ((i : Int) * (nocc : Int)))

/-- Line 93 of mofile.cc: the index `(k+j*nocc)*nocc*nocc+(k+i*nocc)` of `buf2e`, every
operation in `int`. -/
def MOFile.buf3_index (nocc i j k : Nat) : Int :=
  wrap_int (wrap_int (wrap_int (wrap_int ((k : Int) + wrap_int ((j : Int) * (nocc : Int)))
      * (nocc : Int)) * (nocc : Int))
    + wrap_int ((k : Int) + wrap_int ((i : Int) * (nocc : Int))))

/-- Lines 91-94 of mofile.cc, the value left in `buf3[ij]` for the pair `(i, j)`:
`buf3[ij] = mo1e_[j+i*nocc]`, then `buf3[ij] -= 0.5*buf2e[(k+j*nocc)*nocc*nocc+(k+i*nocc)]`
for every `k`. -/
def MOFile.buf3_entry {R : Type} [Field R] (nocc : Nat) (mo1e_ buf2e : Int → R) (i j : Nat) :
    R :=
  (List.range nocc).foldl
    (fun x k => x - 1 / 2 * buf2e (MOFile.buf3_index nocc i j k))
    (mo1e_ (MOFile.mo1e_index nocc i j))

/-- Lines 88-96 of mofile.cc: the array `buf3`, which becomes the new `mo1e_`. -/
def MOFile.pack_mo1e {R : Type} [Field R] (nocc : Nat) (mo1e_ buf2e : Int → R)
    (buf3_0 : Int → R) : PackState R :=
  (List.range nocc).foldl
    (fun st i => (List.range (i + 1)).foldl
      (fun (st : PackState R) j =>
        st.put (MOFile.buf3_entry nocc mo1e_ buf2e i j) (MOFile.mo1e_index nocc i j))
      st)
    { data := buf3_0, pos := 0, log := [] }

/-- The pairs `(i, j)` with `j <= i < n`, in the order of the loops
`for (i = 0; i != n; ++i) for (j = 0; j <= i; ++j)`. -/
def triangle_pairs (n : Nat) : List (Nat × Nat) :=
  (List.range n).flatMap fun i => (List.range (i + 1)).map fun j => (i, j)

/-- The indices of `buf2e` read by the packing loop, in the order of the loop. -/
def MOFile.reads (nocc : Nat) : List Int :=
  (triangle_pairs nocc).flatMap fun ij =>
    (triangle_pairs nocc).map fun kl => MOFile.read_index nocc ij.1 ij.2 kl.1 kl.2

/-! ## `RelMOFile::rearrange_eig` (ci/zfci/relmofile.cc, lines 413-435) -/

/-- The loop of lines 424-432: the arrays `tempv` and `tempm` after the passes `i < m`.
A matrix is given by its elements `(row, column)`. -/
def RelMOFile.rearrange_loop {R C : Type} (n : Nat) (eig : Nat → R) (coeff : Nat → Nat → C)
    (tempv : Nat → R) (tempm : Nat → Nat → C) (m : Nat) : (Nat → R) × (Nat → Nat → C) :=
  (List.range m).foldl
    (fun st i =>
      let v1 := Function.update st.1 i (eig (2 * i))
      let v2 := Function.update v1 (n + i) (eig (2 * i + 1))
      let m2 := (List.range (2 * n)).foldl
        (fun (tm : Nat → Nat → C) j =>
          let a := Function.update tm j (Function.update (tm j) i (coeff j (2 * i)))
          Function.update a j (Function.update (a j) (n + i) (coeff j (2 * i + 1))))
        st.2
      (v2, m2))
    (tempv, tempm)

/-- The test of the second `assert` of `rearrange_eig` (line 418):
`*min_element(eig+n, eig+2n) - *max_element(eig, eig+n) > c*c`; false when the ranges are
empty. -/
def RelMOFile.separated {R : Type} [LinearOrderedField R] (c__ : R) (n : Nat) (eig : Nat → R) :
    Bool :=
  match ((List.range n).map fun i => eig (n + i)).min?, ((List.range n).map eig).max? with
  | some lo, some hi => decide (lo - hi > c__ * c__)
  | _, _ => false

/-- `RelMOFile::rearrange_eig` (relmofile.cc, lines 413-435) for a coefficient matrix of `ndim`
rows: the new `eig` and `coeff`, or `none` when an `assert` fails.  `tempv0` is the content of
the new vector `tempv`; `tempm` starts as `coeff->clone()`, a zero matrix. -/
def RelMOFile.rearrange_eig {R C : Type} [LinearOrderedField R] [Zero C] (c__ : R) (ndim : Nat)
    (eig : Nat → R) (coeff : Nat → Nat → C) (includes_neg : Bool) (tempv0 : Nat → R) :
    Option ((Nat → R) × (Nat → Nat → C)) :=
  let n := ndim / 2
  if 2 * n ≠ ndim then none
  else if includes_neg && !RelMOFile.separated c__ n eig then none
  else some (RelMOFile.rearrange_loop n eig coeff tempv0 (fun _ _ => 0) n)

/-- The position the entry at position `p` of the rearranged arrays comes from: `2p` for
`p < n`, `2(p - n) + 1` from `n` on. -/
def RelMOFile.source_index (n p : Nat) : Nat := if p < n then 2 * p else 2 * (p - n) + 1

/-! ## `SOECPBatch::compute` (integral/ecp/soecpbatch.cc) -/

/-- The members of `SOECPBatch` set by `common_init` (lines 141-177) that `compute` reads.
`ncontA` and `ncontC` are `basisinfo_[0]->contractions().size()` and
`basisinfo_[1]->contractions().size()`. -/
structure SOECPBatch where
  /-- angular number of the first shell -/
  ang0_ : Nat
  /-- angular number of the second shell -/
  ang1_ : Nat
  /-- number of contracted functions of the first shell -/
  cont0_ : Nat
  /-- number of contracted functions of the second shell -/
  cont1_ : Nat
  /-- the member `asize_` -/
  asize_ : Nat
  /-- the member `asize_intermediate_` -/
  asize_intermediate_ : Nat
  /-- the member `size_alloc_` -/
  size_alloc_ : Nat
  /-- number of contractions of the first shell -/
  ncontA : Nat
  /-- number of contractions of the second shell -/
  ncontC : Nat
  deriving DecidableEq, Repr

/-- `SOECPBatch::common_init` (soecpbatch.cc, lines 141-177) for shells that are already in
the order `ang0 >= ang1`: `asize_` is the sum of `(i+1)*(i+2)/2` over `i` from `amin_` to
`amax_`. -/
def SOECPBatch.common_init (ang0 ang1 cont0 cont1 ncontA ncontC : Nat) : SOECPBatch :=
  let amax_ := ang0 + ang1
  let amax1_ := amax_ + 1
  let amin_ := ang0
  let asize_ := (List.range' amin_ (amax1_ - amin_)).foldl
    (fun a i => a + (i + 1) * (i + 2) / 2) 0
  let asize_intermediate_ := (ang0 + 1) * (ang0 + 2) * (ang1 + 1) * (ang1 + 2) / 4
  { ang0_ := ang0, ang1_ := ang1, cont0_ := cont0, cont1_ := cont1, asize_ := asize_
    asize_intermediate_ := asize_intermediate_
    size_alloc_ := cont0 * cont1 * max asize_intermediate_ asize_
    ncontA := ncontA, ncontC := ncontC }

/-- What `SOECPBatch::compute` has when it calls `get_data`: the array `intermediate_c` and
the offsets in it of the pointers `current_data`, `current_data1`, `current_data2`; `writes`
records every store as the position in the array with the component of `tmp` stored. -/
structure SOECPState (R : Type) where
  /-- the array `intermediate_c`, `3*size_c` long -/
  intermediate_c : Nat → R
  /-- the running index `i` -/
  i : Nat
  /-- the stores made so far: position in `intermediate_c`, component of `tmp` -/
  writes : List (Nat × Nat)

/-- `SOECPBatch::compute` (soecpbatch.cc, lines 65-111) up to the calls of `get_data`.
`tmp lA lC contA contC` is the vector `tmp` after the loop over the atoms (lines 92-98), as
the triple of its components; `lA` and `lC` are the Cartesian exponents. -/
def SOECPBatch.compute {R : Type} [Zero R] (self : SOECPBatch)
    (tmp : Nat × Nat × Nat → Nat × Nat × Nat → Nat → Nat → R × R × R) :
    SOECPState R × Nat × Nat × Nat :=
  let size_c := self.cont0_ * self.cont1_ * self.asize_
  let current_data := 0
  let current_data1 := 0 + size_c
  let current_data2 := 0 + size_c
  let st := (List.range (self.ang0_ + 1)).foldl
    (fun st izA => (List.range (self.ang0_ - izA + 1)).foldl
      (fun st iyA =>
        let ixA := self.ang0_ - izA - iyA
        (List.range (self.ang1_ + 1)).foldl
          (fun st izC => (List.range (self.ang1_ - izC + 1)).foldl
            (fun st iyC =>
              let ixC := self.ang1_ - izC - iyC
              let st1 := (List.range self.ncontA).foldl
                (fun st contA => (List.range self.ncontC).foldl
                  (fun (st : SOECPState R) contC =>
                    let t := tmp (ixA, iyA, izA) (ixC, iyC, izC) contA contC
                    let index := st.i + contA * self.asize_intermediate_ * self.ncontC
                      + contC * self.asize_intermediate_
                    let m0 := Function.update st.intermediate_c (current_data + index) t.1
                    let m1 := Function.update m0 (current_data1 + index) t.2.1
                    let m2 := Function.update m1 (current_data2 + index) t.2.2
                    { st with
                      intermediate_c := m2
                      writes := st.writes ++ [(current_data + index, 0),
                        (current_data1 + index, 1), (current_data2 + index, 2)] })
                  st)
                st
              { st1 with i := st1.i + 1 })
            st)
          st)
      st)
    { intermediate_c := fun _ => 0, i := 0, writes := [] }
  (st, current_data, current_data1, current_data2)

/-- The first `array_size` entries from the pointer `p`, which is what `get_data(p, data)`
copies (line 119, `copy_n(intermediate, array_size, intermediate_fi)`). -/
def SOECPBatch.get_data_input {R : Type} (self : SOECPBatch) (mem : Nat → R) (p : Nat) :
    List R :=
  (List.range (self.cont0_ * self.cont1_ * self.asize_intermediate_)).map fun k => mem (p + k)

end bagel


namespace bagel
namespace SMITH

/-! ## Lemmas on the scan and on the dependency update -/

theorem first_ready_some {tasks : TaskPtr → Task} :
    ∀ (l : List TaskPtr) (i : Nat) (out : TaskPtr), first_ready tasks l = some (i, out) →
      ∃ pre post, l = pre ++ out :: post ∧ pre.length = i ∧ (tasks out).ready = true ∧
        ∀ p ∈ pre, (tasks p).ready = false := by
  intro l
  induction l with
  | nil => intro i out h; simp [first_ready] at h
  | cons p ps ih =>
    intro i out h
    unfold first_ready at h
    by_cases hp : (tasks p).ready = true
    · rw [if_pos hp] at h
      simp only [Option.some.injEq, Prod.mk.injEq] at h
      obtain ⟨h0, h1⟩ := h
      subst h0; subst h1
      exact ⟨[], ps, rfl, rfl, hp, by simp⟩
    · rw [if_neg hp] at h
      cases hr : first_ready tasks ps with
      | none => rw [hr] at h; simp at h
      | some r =>
        obtain ⟨j, q⟩ := r
        rw [hr] at h
        simp only [Option.map_some', Option.some.injEq, Prod.mk.injEq] at h
        obtain ⟨h0, h1⟩ := h
        subst h0; subst h1
        obtain ⟨pre, post, hl, hlen, hq, hpre⟩ := ih j q hr
        refine ⟨p :: pre, post, by simp [hl], by simp [hlen], hq, ?_⟩
        intro x hx
        rcases List.mem_cons.mp hx with hx | hx
        · subst hx; simpa using hp
        · exact hpre x hx

theorem first_ready_none {tasks : TaskPtr → Task} :
    ∀ (l : List TaskPtr), first_ready tasks l = none ↔ ∀ p ∈ l, (tasks p).ready = false := by
  intro l
  induction l with
  | nil => simp [first_ready]
  | cons p ps ih =>
    unfold first_ready
    by_cases hp : (tasks p).ready = true
    · simp [hp]
    · simp [hp, ih]

theorem delete_dep_idem (t : Task) (a : TaskPtr) :
    (t.delete_dep a).delete_dep a = t.delete_dep a := by
  simp [Task.delete_dep, List.filter_filter]

theorem delete_dep_all_apply (out : TaskPtr) :
    ∀ (l : List TaskPtr) (tasks : TaskPtr → Task) (p : TaskPtr),
      delete_dep_all out l tasks p = if p ∈ l then (tasks p).delete_dep out else tasks p := by
  intro l
  induction l with
  | nil => intro tasks p; simp [delete_dep_all]
  | cons j js ih =>
    intro tasks p
    rw [delete_dep_all, ih]
    by_cases hpj : p = j
    · subst hpj
      by_cases hjs : p ∈ js
      · simp [hjs, delete_dep_idem]
      · simp [hjs]
    · by_cases hjs : p ∈ js
      · simp [hjs, hpj, Function.update_noteq hpj]
      · simp [hjs, hpj, Function.update_noteq hpj]

theorem eraseIdx_append_cons {α : Type} (pre : List α) (x : α) (post : List α) :
    (pre ++ x :: post).eraseIdx pre.length = pre ++ post := by
  induction pre with
  | nil => simp
  | cons y ys ih => simpa using ih

/-- What a successful call of `next_compute` does, in terms of the split of the list at the
first ready task. -/
theorem next_compute_returned {σ : Type} (compute : TaskPtr → σ → σ) (s s' : QueueState σ)
    (T : TaskPtr) (h : next_compute compute s = Outcome.returned T s') :
    ∃ pre post, s.tasklist_ = pre ++ T :: post ∧ (s.tasks T).ready = true ∧
      (∀ p ∈ pre, (s.tasks p).ready = false) ∧
      s'.tasklist_ = pre ++ post ∧
      s'.tasks = delete_dep_all T s.tasklist_ s.tasks ∧
      s'.world = compute T s.world := by
  unfold next_compute at h
  cases hr : first_ready s.tasks s.tasklist_ with
  | none => rw [hr] at h; simp at h
  | some r =>
    obtain ⟨i, out⟩ := r
    rw [hr] at h
    simp only [Outcome.returned.injEq] at h
    obtain ⟨h0, h1⟩ := h
    subst h0; subst h1
    obtain ⟨pre, post, hl, hlen, hq, hpre⟩ := first_ready_some _ _ _ hr
    refine ⟨pre, post, hl, hq, hpre, ?_, rfl, rfl⟩
    simp only
    rw [hl, ← hlen, eraseIdx_append_cons]

theorem next_compute_assert_failed {σ : Type} (compute : TaskPtr → σ → σ) (s s' : QueueState σ)
    (h : next_compute compute s = Outcome.assert_failed s') :
    (∀ p ∈ s.tasklist_, (s.tasks p).ready = false) ∧ s' = s := by
  unfold next_compute at h
  cases hr : first_ready s.tasks s.tasklist_ with
  | none =>
    rw [hr] at h
    simp only [Outcome.assert_failed.injEq] at h
    exact ⟨(first_ready_none _).mp hr, h.symm⟩
  | some r => rw [hr] at h; simp at h

theorem mem_depend_delete_dep_all (T : TaskPtr) (l : List TaskPtr) (tasks : TaskPtr → Task)
    (a b : TaskPtr) (ha : a ∈ l) :
    b ∈ (delete_dep_all T l tasks a).depend_ ↔ b ∈ (tasks a).depend_ ∧ b ≠ T := by
  rw [delete_dep_all_apply, if_pos ha]
  simp [Task.delete_dep, List.mem_filter]

/-! ## A non-empty queue with acyclic dependencies inside the queue has a ready task -/

theorem exists_ready (l : List TaskPtr) (tasks : TaskPtr → Task) (hne : l ≠ [])
    (hac : Acyclic l tasks) (hin : DepsInQueue l tasks) :
    ∃ p ∈ l, (tasks p).ready = true := by
  classical
  let R : {p // p ∈ l} → {p // p ∈ l} → Prop := fun x y => depends l tasks y.1 x.1
  have hirr : IsIrrefl {p // p ∈ l} (Relation.TransGen R) := by
    constructor
    intro x hx
    apply hac x.1
    have hlift := Relation.TransGen.lift (p := Function.swap (depends l tasks)) Subtype.val
      (fun a b (h : R a b) => h) hx
    exact Relation.transGen_swap.mp hlift
  have hwf : WellFounded (Relation.TransGen R) := Finite.wellFounded_of_trans_of_irrefl _
  obtain ⟨x, hx⟩ := List.exists_mem_of_ne_nil l hne
  obtain ⟨m, _, hm⟩ := hwf.has_min Set.univ ⟨⟨x, hx⟩, trivial⟩
  refine ⟨m.1, m.2, ?_⟩
  cases hd : (tasks m.1).depend_ with
  | nil => simp [Task.ready, hd]
  | cons d ds =>
    have hdm : d ∈ (tasks m.1).depend_ := by simp [hd]
    have hdl := hin m.1 m.2 d hdm
    exact absurd (Relation.TransGen.single (show R ⟨d, hdl⟩ m from ⟨m.2, hdm⟩))
      (hm ⟨d, hdl⟩ trivial)

/-- A rank that decreases along every dependency shows that the dependencies are acyclic. -/
theorem acyclic_of_rank (l : List TaskPtr) (tasks : TaskPtr → Task) (rank : TaskPtr → Nat)
    (h : ∀ a ∈ l, ∀ b ∈ (tasks a).depend_, rank b < rank a) : Acyclic l tasks := by
  have key : ∀ a b, Relation.TransGen (depends l tasks) a b → rank b < rank a := by
    intro a b hab
    induction hab with
    | single hs => exact h _ hs.1 _ hs.2
    | tail _ hs ih => exact lt_trans (h _ hs.1 _ hs.2) ih
  intro a ha
  exact lt_irrefl _ (key a a ha)

theorem acyclic_perm {l l' : List TaskPtr} (tasks : TaskPtr → Task) (hp : l.Perm l')
    (hac : Acyclic l tasks) : Acyclic l' tasks := by
  intro a ha
  exact hac a (Relation.TransGen.mono (fun x y hxy => ⟨hp.mem_iff.mpr hxy.1, hxy.2⟩) ha)

theorem depsInQueue_perm {l l' : List TaskPtr} (tasks : TaskPtr → Task) (hp : l.Perm l')
    (hin : DepsInQueue l tasks) : DepsInQueue l' tasks := by
  intro a ha b hb
  exact hp.mem_iff.mp (hin a (hp.mem_iff.mpr ha) b hb)

/-! ## The drain loop -/

/-- The drain loop on a queue whose dependencies are acyclic and inside the queue: it leaves
the loop, having executed the tasks of the list, each entry once, every task after its
dependencies, and the data are those obtained by the `compute()` calls in that order. -/
theorem drain_spec {σ : Type} (compute : TaskPtr → σ → σ) :
    ∀ (fuel : Nat) (s : QueueState σ), Acyclic s.tasklist_ s.tasks →
      DepsInQueue s.tasklist_ s.tasks → s.tasklist_.length ≤ fuel →
      ∃ tr s', drain compute fuel s = DrainResult.finished tr s' ∧ tr.Perm s.tasklist_ ∧
        s'.tasklist_ = [] ∧ s'.world = tr.foldl (fun w p => compute p w) s.world ∧
        ∀ pre t post, tr = pre ++ t :: post → ∀ d ∈ (s.tasks t).depend_, d ∈ pre := by
  have hstep : ∀ (fuel : Nat) (s : QueueState σ),
      (∀ s1 : QueueState σ, Acyclic s1.tasklist_ s1.tasks → DepsInQueue s1.tasklist_ s1.tasks →
        s1.tasklist_.length ≤ fuel →
        ∃ tr s', drain compute fuel s1 = DrainResult.finished tr s' ∧ tr.Perm s1.tasklist_ ∧
          s'.tasklist_ = [] ∧ s'.world = tr.foldl (fun w p => compute p w) s1.world ∧
          ∀ pre t post, tr = pre ++ t :: post → ∀ d ∈ (s1.tasks t).depend_, d ∈ pre) →
      Acyclic s.tasklist_ s.tasks → DepsInQueue s.tasklist_ s.tasks →
      s.tasklist_.length ≤ fuel + 1 → s.tasklist_ ≠ [] →
      ∃ tr s', (match next_compute compute s with
          | Outcome.assert_failed s' => DrainResult.aborted [] s'
          | Outcome.returned out s' => (drain compute fuel s').push out)
            = DrainResult.finished tr s' ∧ tr.Perm s.tasklist_ ∧
        s'.tasklist_ = [] ∧ s'.world = tr.foldl (fun w p => compute p w) s.world ∧
        ∀ pre t post, tr = pre ++ t :: post → ∀ d ∈ (s.tasks t).depend_, d ∈ pre := by
    intro fuel s ih hac hin hlen hne
    obtain ⟨p, hpl, hpr⟩ := exists_ready s.tasklist_ s.tasks hne hac hin
    cases hnc : next_compute compute s with
    | assert_failed s1 =>
      have := (next_compute_assert_failed compute s s1 hnc).1 p hpl
      rw [hpr] at this
      exact absurd this (by simp)
    | returned T s1 =>
      obtain ⟨pre, post, hl, hT, _, hl1, ht1, hw1⟩ := next_compute_returned compute s s1 T hnc
      have hsub : ∀ x, x ∈ s1.tasklist_ → x ∈ s.tasklist_ := by
        intro x hx
        rw [hl1] at hx
        rw [hl]
        simp only [List.mem_append, List.mem_cons] at hx ⊢
        tauto
      have hac1 : Acyclic s1.tasklist_ s1.tasks := by
        intro a ha
        refine hac a (Relation.TransGen.mono ?_ ha)
        intro x y hxy
        refine ⟨hsub x hxy.1, ?_⟩
        have := hxy.2
        rw [ht1] at this
        exact ((mem_depend_delete_dep_all T _ _ x y (hsub x hxy.1)).mp this).1
      have hin1 : DepsInQueue s1.tasklist_ s1.tasks := by
        intro a ha b hb
        rw [ht1] at hb
        obtain ⟨hb1, hb2⟩ := (mem_depend_delete_dep_all T _ _ a b (hsub a ha)).mp hb
        have hbl := hin a (hsub a ha) b hb1
        rw [hl] at hbl
        rw [hl1]
        simp only [List.mem_append, List.mem_cons] at hbl ⊢
        tauto
      have hlen1 : s1.tasklist_.length ≤ fuel := by
        rw [hl] at hlen
        rw [hl1]
        simp only [List.length_append, List.length_cons] at hlen ⊢
        omega
      obtain ⟨tr, s2, hd, hperm, hnil, hworld, htopo⟩ := ih s1 hac1 hin1 hlen1
      refine ⟨T :: tr, s2, ?_, ?_, hnil, ?_, ?_⟩
      · simp only [hd, DrainResult.push]
      · rw [hl]
        refine List.Perm.trans (List.Perm.cons T (hperm.trans ?_)) List.perm_middle.symm
        rw [hl1]
      · rw [hworld, hw1]; rfl
      · intro pre' t post' hsplit d hd'
        cases pre' with
        | nil =>
          simp only [List.nil_append, List.cons.injEq] at hsplit
          obtain ⟨hTt, _⟩ := hsplit
          subst hTt
          have : (s.tasks T).depend_ = [] := by simpa [Task.ready] using hT
          rw [this] at hd'
          exact absurd hd' (by simp)
        | cons q pre'' =>
          simp only [List.cons_append, List.cons.injEq] at hsplit
          obtain ⟨hTq, htr⟩ := hsplit
          subst hTq
          by_cases hdT : d = T
          · simp [hdT]
          · have ht1mem : t ∈ s1.tasklist_ := by
              apply hperm.mem_iff.mp
              rw [htr]; simp
            have : d ∈ (s1.tasks t).depend_ := by
              rw [ht1]
              exact (mem_depend_delete_dep_all T _ _ t d (hsub t ht1mem)).mpr ⟨hd', hdT⟩
            exact List.mem_cons_of_mem _ (htopo pre'' t post' htr d this)
  intro fuel
  induction fuel with
  | zero =>
    intro s _ _ hlen
    have hnil : s.tasklist_ = [] := List.eq_nil_of_length_eq_zero (Nat.le_zero.mp hlen)
    refine ⟨[], s, ?_, ?_, hnil, rfl, ?_⟩
    · simp [drain, done, hnil]
    · rw [hnil]
    · intro pre t post h; simp at h
  | succ fuel ih =>
    intro s hac hin hlen
    by_cases hnil : s.tasklist_ = []
    · refine ⟨[], s, ?_, ?_, hnil, rfl, ?_⟩
      · simp [drain, done, hnil]
      · rw [hnil]
      · intro pre t post h; simp at h
    · have hdone : done s = false := by
        simp [done, hnil]
      obtain ⟨tr, s', h1, h2⟩ := hstep fuel s ih hac hin hlen hnil
      refine ⟨tr, s', ?_, h2⟩
      rw [drain]
      simp only [hdone]
      exact h1

theorem foldl_accumulate {α : Type} [AddCommMonoid α] (contrib : TaskPtr → α) :
    ∀ (tr : List TaskPtr) (w : α),
      tr.foldl (fun w p => accumulate contrib p w) w = w + (tr.map contrib).sum := by
  intro tr
  induction tr with
  | nil => intro w; simp
  | cons p ps ih =>
    intro w
    rw [List.foldl_cons, ih, List.map_cons, List.sum_cons, accumulate, add_assoc]

/-! ## The claims on the queue -/

/-- C1: for every queue whose tasks' dependencies are acyclic and all belong to the queue,
the drain loop `while (!done()) next_compute()` leaves the loop (given fuel for one call per
task) having executed the tasks of the list in a topological order: the sequence `tr` of the
tasks returned by the calls is an ordering of the task list; the data at the end are those
obtained from the initial data by the `compute()` of the tasks of `tr`, one call per entry, in
this order, and nothing else; and wherever a task `t` stands in `tr`, every task `d` of the
dependency list of `t` stands before it, so that `compute()` of `d` has been applied before
`compute()` of `t`.  (In the model of `Task` a task is ready exactly when its dependency list
is empty, and entries leave the list only through `delete_dep`.) -/
theorem drain_topological_order {σ : Type} (compute : TaskPtr → σ → σ) (s : QueueState σ)
    (hac : Acyclic s.tasklist_ s.tasks) (hin : DepsInQueue s.tasklist_ s.tasks)
    (fuel : Nat) (hfuel : s.tasklist_.length ≤ fuel) :
    ∃ tr s', drain compute fuel s = DrainResult.finished tr s' ∧ tr.Perm s.tasklist_ ∧
      s'.world = tr.foldl (fun w p => compute p w) s.world ∧
      (∀ pre t post, tr = pre ++ t :: post → ∀ d ∈ (s.tasks t).depend_, d ∈ pre) ∧
      (∀ pre t post, tr = pre ++ t :: post →
        s'.world = post.foldl (fun w p => compute p w)
          (compute t (pre.foldl (fun w p => compute p w) s.world))) := by
  obtain ⟨tr, s', h1, h2, _, h4, h5⟩ := drain_spec compute fuel s hac hin hfuel
  refine ⟨tr, s', h1, h2, h4, h5, ?_⟩
  intro pre t post htr
  rw [h4, htr, List.foldl_append, List.foldl_cons]

/-- Witness of C1: the queue `[3, 1, 2]` in which task 3 waits for 1 and 2, and 2 for 1. -/
theorem drain_topological_order_witness :
    Acyclic [3, 1, 2] (tasks_of [(3, [1, 2]), (2, [1])]) ∧
    DepsInQueue [3, 1, 2] (tasks_of [(3, [1, 2]), (2, [1])]) ∧
    [3, 1, 2].length ≤ 3 ∧
    ∃ tr s', drain (fun p (w : List TaskPtr) => w ++ [p]) 3
        { tasklist_ := [3, 1, 2], tasks := tasks_of [(3, [1, 2]), (2, [1])], world := [] }
          = DrainResult.finished tr s' ∧ tr.Perm [3, 1, 2] ∧
      s'.world = tr.foldl (fun w p => (fun p (w : List TaskPtr) => w ++ [p]) p w) [] ∧
      (∀ pre t post, tr = pre ++ t :: post →
        ∀ d ∈ (tasks_of [(3, [1, 2]), (2, [1])] t).depend_, d ∈ pre) ∧
      (∀ pre t post, tr = pre ++ t :: post →
        s'.world = post.foldl (fun w p => (fun p (w : List TaskPtr) => w ++ [p]) p w)
          ((fun p (w : List TaskPtr) => w ++ [p]) t
            (pre.foldl (fun w p => (fun p (w : List TaskPtr) => w ++ [p]) p w) []))) :=
  ⟨acyclic_of_rank _ _ (fun p => p) (by decide), by unfold DepsInQueue; decide, by decide,
    drain_topological_order (fun p (w : List TaskPtr) => w ++ [p])
      { tasklist_ := [3, 1, 2], tasks := tasks_of [(3, [1, 2]), (2, [1])], world := [] }
      (acyclic_of_rank _ _ (fun p => p) (by decide)) (by unfold DepsInQueue; decide) 3
      (by decide)⟩

/-- C2: execution order independence.  For a task list `d` with acyclic dependencies inside
the list, tasks that add their contribution to an accumulator (a commutative monoid: exact,
commutative, associative addition), and any two shuffles of `d` by the constructor, draining
the two queues ends with identical outputs, namely the initial value plus the sum of all
contributions. -/
theorem drain_order_independent {α : Type} [AddCommMonoid α] (contrib : TaskPtr → α)
    (shuffle1 shuffle2 : List TaskPtr → List TaskPtr) (d : List TaskPtr)
    (tasks : TaskPtr → Task) (w0 : α)
    (h1 : (shuffle1 d).Perm d) (h2 : (shuffle2 d).Perm d)
    (hac : Acyclic d tasks) (hin : DepsInQueue d tasks)
    (fuel : Nat) (hfuel : d.length ≤ fuel) :
    ∃ tr1 s1 tr2 s2,
      drain (accumulate contrib) fuel (Queue_of shuffle1 d tasks w0)
        = DrainResult.finished tr1 s1 ∧
      drain (accumulate contrib) fuel (Queue_of shuffle2 d tasks w0)
        = DrainResult.finished tr2 s2 ∧
      s1.world = s2.world ∧ s1.world = w0 + (d.map contrib).sum := by
  obtain ⟨tr1, s1, e1, p1, _, w1, _⟩ :=
    drain_spec (accumulate contrib) fuel (Queue_of shuffle1 d tasks w0)
      (acyclic_perm tasks h1.symm hac) (depsInQueue_perm tasks h1.symm hin)
      (by simpa [Queue_of, h1.length_eq] using hfuel)
  obtain ⟨tr2, s2, e2, p2, _, w2, _⟩ :=
    drain_spec (accumulate contrib) fuel (Queue_of shuffle2 d tasks w0)
      (acyclic_perm tasks h2.symm hac) (depsInQueue_perm tasks h2.symm hin)
      (by simpa [Queue_of, h2.length_eq] using hfuel)
  have q1 : s1.world = w0 + (d.map contrib).sum := by
    rw [w1, foldl_accumulate]
    exact congrArg (fun x => w0 + x) ((p1.trans h1).map contrib).sum_eq
  have q2 : s2.world = w0 + (d.map contrib).sum := by
    rw [w2, foldl_accumulate]
    exact congrArg (fun x => w0 + x) ((p2.trans h2).map contrib).sum_eq
  exact ⟨tr1, s1, tr2, s2, e1, e2, q1.trans q2.symm, q1⟩

/-- Witness of C2: the task list `[1, 2, 3]` (3 waits for 1 and 2, 2 waits for 1), shuffled
once by reversal and once by a rotation, task `p` contributing `10 * p`. -/
theorem drain_order_independent_witness :
    (List.reverse [1, 2, 3]).Perm [1, 2, 3] ∧ (List.rotate [1, 2, 3] 1).Perm [1, 2, 3] ∧
    Acyclic [1, 2, 3] (tasks_of [(3, [1, 2]), (2, [1])]) ∧
    DepsInQueue [1, 2, 3] (tasks_of [(3, [1, 2]), (2, [1])]) ∧ [1, 2, 3].length ≤ 3 ∧
    ∃ tr1 s1 tr2 s2,
      drain (accumulate (fun p => (10 * p : Int))) 3
        (Queue_of List.reverse [1, 2, 3] (tasks_of [(3, [1, 2]), (2, [1])]) 0)
        = DrainResult.finished tr1 s1 ∧
      drain (accumulate (fun p => (10 * p : Int))) 3
        (Queue_of (fun l => List.rotate l 1) [1, 2, 3] (tasks_of [(3, [1, 2]), (2, [1])]) 0)
        = DrainResult.finished tr2 s2 ∧
      s1.world = s2.world ∧
      s1.world = 0 + ([1, 2, 3].map (fun p => (10 * p : Int))).sum :=
  ⟨by decide, by decide, acyclic_of_rank _ _ (fun p => p) (by decide),
    by unfold DepsInQueue; decide, by decide,
    drain_order_independent (fun p => (10 * p : Int)) List.reverse (fun l => List.rotate l 1)
      [1, 2, 3] (tasks_of [(3, [1, 2]), (2, [1])]) 0 (by decide) (by decide)
      (acyclic_of_rank _ _ (fun p => p) (by decide)) (by unfold DepsInQueue; decide) 3
      (by decide)⟩

/-- C3: fail fast.  When no task of the list is ready (which includes the empty queue),
`next_compute` ends in the failed assertion of line 57 with the memory untouched: no task has
been executed, the task list and every dependency list are as before.  Such a queue is empty,
or has a dependency cycle, or a dependency outside the queue.  The call does not wait: the
drain loop on such a non-empty queue aborts in its first call, whatever the fuel. -/
theorem next_compute_fail_fast {σ : Type} (compute : TaskPtr → σ → σ) (s : QueueState σ)
    (h : ∀ p ∈ s.tasklist_, (s.tasks p).ready = false) :
    next_compute compute s = Outcome.assert_failed s ∧
    (s.tasklist_ = [] ∨ ¬ Acyclic s.tasklist_ s.tasks ∨ ¬ DepsInQueue s.tasklist_ s.tasks) ∧
    (s.tasklist_ ≠ [] → ∀ fuel, drain compute (fuel + 1) s = DrainResult.aborted [] s) := by
  have hnc : next_compute compute s = Outcome.assert_failed s := by
    unfold next_compute
    rw [(first_ready_none s.tasklist_).mpr h]
  refine ⟨hnc, ?_, ?_⟩
  · by_contra hcon
    push_neg at hcon
    obtain ⟨p, hp, hr⟩ := exists_ready s.tasklist_ s.tasks hcon.1 hcon.2.1 hcon.2.2
    rw [h p hp] at hr
    exact absurd hr (by simp)
  · intro hne fuel
    have hdone : done s = false := by simp [done, hne]
    rw [drain]
    simp only [hdone, hnc]
    rfl

/-- Witness of C3: the queue `[1, 2]` in which 1 waits for 2 and 2 waits for 1. -/
theorem next_compute_fail_fast_witness :
    (∀ p ∈ [1, 2], ((tasks_of [(1, [2]), (2, [1])]) p).ready = false) ∧
    (next_compute (fun p (w : List TaskPtr) => w ++ [p])
        { tasklist_ := [1, 2], tasks := tasks_of [(1, [2]), (2, [1])], world := [] }
      = Outcome.assert_failed
        { tasklist_ := [1, 2], tasks := tasks_of [(1, [2]), (2, [1])], world := [] }) :=
  ⟨by decide,
    (next_compute_fail_fast (fun p (w : List TaskPtr) => w ++ [p])
      { tasklist_ := [1, 2], tasks := tasks_of [(1, [2]), (2, [1])], world := [] }
      (by decide)).1⟩

/-- C5 as stated fails on a list that holds a task twice, which `add_task` (a `push_back`
without a test) allows: on the list `[1, 1]` of a task without dependencies the call returns
task 1 and leaves the list `[1]`, so task 1 is still on the task list. -/
theorem next_compute_duplicate_entry :
    ∃ s', next_compute (fun p (w : List TaskPtr) => w ++ [p])
        (add_task (add_task { tasklist_ := [], tasks := tasks_of [], world := [] } 1) 1)
        = Outcome.returned 1 s' ∧ s'.tasklist_ = [1] ∧ 1 ∈ s'.tasklist_ :=
  ⟨{ tasklist_ := [1], tasks := delete_dep_all 1 [1, 1] (tasks_of []), world := [1] },
    rfl, rfl, by decide⟩

/-- C5, amended: frame of a successful `next_compute` returning `T`.  The list was
`pre ++ T :: post`
and is now `pre ++ post` (one entry fewer, the remaining tasks in the same relative order);
the list holds `T` once less, so `T` is no longer on it when the list held each task once
(the tasks of a queue being distinct objects); the dependency list of every
task that was on the list is its old dependency list without `T`, every other entry kept in
place; the task objects outside the list are untouched; the data are those after
`T->compute()`. -/
theorem next_compute_frame {σ : Type} (compute : TaskPtr → σ → σ) (s s' : QueueState σ)
    (T : TaskPtr) (h : next_compute compute s = Outcome.returned T s') :
    (∃ pre post, s.tasklist_ = pre ++ T :: post ∧ s'.tasklist_ = pre ++ post) ∧
    s'.tasklist_.length + 1 = s.tasklist_.length ∧
    s'.tasklist_.count T + 1 = s.tasklist_.count T ∧
    (s.tasklist_.Nodup → T ∉ s'.tasklist_) ∧
    (∀ p ∈ s.tasklist_, (s'.tasks p).depend_ = (s.tasks p).depend_.filter (fun d => d != T)) ∧
    (∀ p ∈ s.tasklist_, T ∉ (s'.tasks p).depend_ ∧
      ∀ d, d ≠ T → (s'.tasks p).depend_.count d = (s.tasks p).depend_.count d) ∧
    (∀ p, p ∉ s.tasklist_ → s'.tasks p = s.tasks p) ∧
    s'.world = compute T s.world := by
  obtain ⟨pre, post, hl, _, _, hl1, ht1, hw1⟩ := next_compute_returned compute s s' T h
  have hdep : ∀ p ∈ s.tasklist_,
      (s'.tasks p).depend_ = (s.tasks p).depend_.filter (fun d => d != T) := by
    intro p hp
    rw [ht1, delete_dep_all_apply, if_pos hp]
    rfl
  refine ⟨⟨pre, post, hl, hl1⟩, ?_, ?_, ?_, hdep, ?_, ?_, hw1⟩
  · rw [hl, hl1]; simp only [List.length_append, List.length_cons]; omega
  · rw [hl, hl1]
    simp only [List.count_append, List.count_cons_self]
    omega
  · intro hnd hmem
    rw [hl] at hnd
    rw [hl1] at hmem
    have h1 := (List.nodup_append.mp hnd)
    have h2 := List.nodup_cons.mp h1.2.1
    rcases List.mem_append.mp hmem with hm | hm
    · exact h1.2.2 hm (List.mem_cons_self _ _)
    · exact h2.1 hm
  · intro p hp
    rw [hdep p hp]
    refine ⟨by simp [List.mem_filter], ?_⟩
    intro d hd
    rw [List.count_filter]
    simpa using hd
  · intro p hp
    rw [ht1, delete_dep_all_apply, if_neg hp]

/-- Witness of C5: on the queue `[3, 1, 2]` (3 waits for 1 and 2, 2 waits for 1) the call
returns task 1. -/
theorem next_compute_frame_witness :
    next_compute (fun p (w : List TaskPtr) => w ++ [p])
        { tasklist_ := [3, 1, 2], tasks := tasks_of [(3, [1, 2]), (2, [1])], world := [] }
      = Outcome.returned 1
        { tasklist_ := [3, 2]
          tasks := delete_dep_all 1 [3, 1, 2] (tasks_of [(3, [1, 2]), (2, [1])])
          world := [1] } ∧
    ([3, 2].length + 1 = [3, 1, 2].length ∧ ([3, 1, 2].Nodup → 1 ∉ [3, 2]) ∧
      ∀ p ∈ [3, 1, 2],
        (delete_dep_all 1 [3, 1, 2] (tasks_of [(3, [1, 2]), (2, [1])]) p).depend_
          = ((tasks_of [(3, [1, 2]), (2, [1])]) p).depend_.filter (fun d => d != 1)) :=
  ⟨rfl,
    (next_compute_frame (fun p (w : List TaskPtr) => w ++ [p])
      { tasklist_ := [3, 1, 2], tasks := tasks_of [(3, [1, 2]), (2, [1])], world := [] }
      { tasklist_ := [3, 2]
        tasks := delete_dep_all 1 [3, 1, 2] (tasks_of [(3, [1, 2]), (2, [1])])
        world := [1] } 1 rfl).2.1,
    (next_compute_frame (fun p (w : List TaskPtr) => w ++ [p])
      { tasklist_ := [3, 1, 2], tasks := tasks_of [(3, [1, 2]), (2, [1])], world := [] }
      { tasklist_ := [3, 2]
        tasks := delete_dep_all 1 [3, 1, 2] (tasks_of [(3, [1, 2]), (2, [1])])
        world := [1] } 1 rfl).2.2.2.1,
    (next_compute_frame (fun p (w : List TaskPtr) => w ++ [p])
      { tasklist_ := [3, 1, 2], tasks := tasks_of [(3, [1, 2]), (2, [1])], world := [] }
      { tasklist_ := [3, 2]
        tasks := delete_dep_all 1 [3, 1, 2] (tasks_of [(3, [1, 2]), (2, [1])])
        world := [1] } 1 rfl).2.2.2.2.1⟩

end SMITH
end bagel

namespace bagel

/-! ## Lemmas on `ax_plus_y_n` and on the block loops of the gradient routines -/

theorem ax_plus_y_n_apply {R : Type} [Add R] [Mul R] (a : R) (x : Nat → R) (xp : Nat)
    (y0 : Nat → R) (yp : Nat) :
    ∀ (n j : Nat), ax_plus_y_n a x xp n y0 yp j
      = if yp ≤ j ∧ j < yp + n then y0 j + a * x (xp + (j - yp)) else y0 j := by
  intro n
  induction n with
  | zero =>
    intro j
    have hc : ¬ (yp ≤ j ∧ j < yp + 0) := by omega
    rw [if_neg hc]
    rfl
  | succ n ih =>
    intro j
    have hunf : ax_plus_y_n a x xp (n + 1) y0 yp
        = Function.update (ax_plus_y_n a x xp n y0 yp) (yp + n)
            (ax_plus_y_n a x xp n y0 yp (yp + n) + a * x (xp + n)) := by
      simp only [ax_plus_y_n, List.range_succ, List.foldl_append, List.foldl_cons,
        List.foldl_nil]
    rw [hunf]
    by_cases hj : j = yp + n
    · subst hj
      rw [Function.update_same, ih]
      have h1 : ¬ (yp ≤ yp + n ∧ yp + n < yp + n) := by omega
      have h2 : yp ≤ yp + n ∧ yp + n < yp + (n + 1) := by omega
      rw [if_neg h1, if_pos h2]
      congr 3
      omega
    · rw [Function.update_noteq hj, ih]
      by_cases hc : yp ≤ j ∧ j < yp + n
      · have h2 : yp ≤ j ∧ j < yp + (n + 1) := by omega
        rw [if_pos hc, if_pos h2]
      · have h2 : ¬ (yp ≤ j ∧ j < yp + (n + 1)) := by omega
        rw [if_neg hc, if_neg h2]

/-- A loop over `i = 0, ..., m-1` whose body adds `c i k` to entry `k` of the block of length
`n` at `target` and then advances `target` by `n`: entry `a` of block `i` receives `c i a`,
everything outside the `m` blocks is left alone. -/
theorem foldl_blocks {R S : Type} [Add R] (dat : S → Nat → R) (tgt : S → Nat) (n : Nat)
    (c : Nat → Nat → R) (F : S → Nat → S)
    (htgt : ∀ st i, tgt (F st i) = tgt st + n)
    (hdat : ∀ st i j, dat (F st i) j
      = if tgt st ≤ j ∧ j < tgt st + n then dat st j + c i (j - tgt st) else dat st j)
    (init : S) :
    ∀ m, tgt ((List.range m).foldl F init) = tgt init + m * n ∧
      (∀ i a, a < n → dat ((List.range m).foldl F init) (tgt init + i * n + a)
        = if i < m then dat init (tgt init + i * n + a) + c i a
          else dat init (tgt init + i * n + a)) ∧
      (∀ j, j < tgt init ∨ tgt init + m * n ≤ j →
        dat ((List.range m).foldl F init) j = dat init j) := by
  intro m
  induction m with
  | zero =>
    refine ⟨by simp, ?_, ?_⟩
    · intro i a _; simp
    · intro j _; simp
  | succ m ih =>
    obtain ⟨ih1, ih2, ih3⟩ := ih
    have hunf : (List.range (m + 1)).foldl F init = F ((List.range m).foldl F init) m := by
      simp only [List.range_succ, List.foldl_append, List.foldl_cons, List.foldl_nil]
    rw [hunf]
    have hsm : (m + 1) * n = m * n + n := Nat.succ_mul m n
    refine ⟨by rw [htgt, ih1, hsm]; omega, ?_, ?_⟩
    · intro i a ha
      rw [hdat, ih1, ih2 i a ha]
      rcases Nat.lt_trichotomy i m with hlt | heq | hgt
      · have hmul : (i + 1) * n ≤ m * n := Nat.mul_le_mul_right n hlt
        rw [Nat.succ_mul] at hmul
        have hc : ¬ (tgt init + m * n ≤ tgt init + i * n + a
            ∧ tgt init + i * n + a < tgt init + m * n + n) := by omega
        have h2 : i < m + 1 := by omega
        rw [if_neg hc, if_pos hlt, if_pos h2]
      · subst heq
        have hc : tgt init + i * n ≤ tgt init + i * n + a
            ∧ tgt init + i * n + a < tgt init + i * n + n := by omega
        have h1 : ¬ i < i := lt_irrefl i
        have h2 : i < i + 1 := by omega
        have h3 : tgt init + i * n + a - (tgt init + i * n) = a := by omega
        rw [if_pos hc, if_neg h1, if_pos h2, h3]
      · have hmul : (m + 1) * n ≤ i * n := Nat.mul_le_mul_right n hgt
        rw [Nat.succ_mul] at hmul
        have hc : ¬ (tgt init + m * n ≤ tgt init + i * n + a
            ∧ tgt init + i * n + a < tgt init + m * n + n) := by omega
        have h1 : ¬ i < m := by omega
        have h2 : ¬ i < m + 1 := by omega
        rw [if_neg hc, if_neg h1, if_neg h2]
    · intro j hj
      rw [hdat, ih1]
      have hc : ¬ (tgt init + m * n ≤ j ∧ j < tgt init + m * n + n) := by omega
      rw [if_neg hc]
      exact ih3 j (by omega)

/-- The entry `(nocc + a, i)` of a matrix is the `a`-th entry from `element_ptr(nocc, i)`. -/
theorem Matrix.data_element_ptr_add {R : Type} (m : Matrix R) (r j a : Nat) :
    m.data (m.element_ptr r j + a) = m.element (r + a) j := by
  unfold Matrix.element Matrix.element_ptr
  congr 1
  omega

/-- What `grad_vc` does to the virtual-closed block: entry `a` of the block of closed orbital
`i` receives `sqrt(2) * f(nocc + a, i)`. -/
theorem grad_vc_apply {R : Type} [LinearOrderedField R] (sqrt : R → R) (self : SuperCI R)
    (f : Matrix R) (sigma : RotFile R) (i a : Nat) (hi : i < self.nclosed_)
    (ha : a < self.nvirt_) :
    (self.grad_vc sqrt f sigma).data (sigma.ptr_vc + i * self.nvirt_ + a)
      = sigma.data (sigma.ptr_vc + i * self.nvirt_ + a)
        + sqrt 2 * f.element (self.nocc_ + a) i := by
  have hcond : ¬ (self.nvirt_ = 0 ∨ self.nclosed_ = 0) := by omega
  unfold SuperCI.grad_vc
  rw [if_neg hcond]
  have key := (foldl_blocks (R := R) (S := (Nat → R) × Nat) Prod.fst Prod.snd self.nvirt_
    (fun i k => sqrt 2 * f.data (f.element_ptr self.nocc_ i + k))
    (fun st i =>
      (ax_plus_y_n (sqrt 2) f.data (f.element_ptr self.nocc_ i) self.nvirt_ st.1 st.2,
        st.2 + self.nvirt_))
    (fun _ _ => rfl) (fun st i j => ax_plus_y_n_apply _ _ _ _ _ _ _)
    (sigma.data, sigma.ptr_vc) self.nclosed_).2.1 i a ha
  simp only [if_pos hi] at key
  simp only
  rw [key, Matrix.data_element_ptr_add]

/-- What `grad_va` does to the virtual-active block: entry `a` of the block of active orbital
`i` receives `fac * fact(nocc + a, i)`. -/
theorem grad_va_apply {R : Type} [LinearOrderedField R] (sqrt : R → R) (occup_thresh : R)
    (self : SuperCI R) (fact : Matrix R) (sigma : RotFile R) (i a : Nat)
    (hi : i < self.nact_) (ha : a < self.nvirt_) :
    (self.grad_va sqrt occup_thresh fact sigma).data (sigma.ptr_va + i * self.nvirt_ + a)
      = sigma.data (sigma.ptr_va + i * self.nvirt_ + a)
        + (fac_va sqrt occup_thresh (self.occup_ i)).1 * fact.element (self.nocc_ + a) i := by
  have hcond : ¬ (self.nvirt_ = 0 ∨ self.nact_ = 0) := by omega
  unfold SuperCI.grad_va SuperCI.grad_va_log
  rw [if_neg hcond]
  have key := (foldl_blocks (R := R) (S := (Nat → R) × Nat × List (Nat × R))
    (fun st => st.1) (fun st => st.2.1) self.nvirt_
    (fun i k => (fac_va sqrt occup_thresh (self.occup_ i)).1
      * fact.data (fact.element_ptr self.nocc_ i + k))
    (fun st i =>
      (ax_plus_y_n (fac_va sqrt occup_thresh (self.occup_ i)).1 fact.data
          (fact.element_ptr self.nocc_ i) self.nvirt_ st.1 st.2.1,
        st.2.1 + self.nvirt_,
        st.2.2 ++ ((fac_va sqrt occup_thresh (self.occup_ i)).2.toList.map
          (fun den => (i, den)))))
    (fun _ _ => rfl) (fun st i j => ax_plus_y_n_apply _ _ _ _ _ _ _)
    (sigma.data, sigma.ptr_va, []) self.nact_).2.1 i a ha
  simp only [if_pos hi] at key
  simp only
  rw [key, Matrix.data_element_ptr_add]

/-- What `grad_ca` does to the closed-active block: entry `k` of the block of active orbital
`i` receives `2 * fac * f(k, nclosed + i) - fac * fact(k, i)`. -/
theorem grad_ca_apply {R : Type} [LinearOrderedField R] (sqrt : R → R) (occup_thresh : R)
    (self : SuperCI R) (f fact : Matrix R) (sigma : RotFile R) (i k : Nat)
    (hi : i < self.nact_) (hk : k < self.nclosed_) :
    (self.grad_ca sqrt occup_thresh f fact sigma).data (sigma.ptr_ca + i * self.nclosed_ + k)
      = sigma.data (sigma.ptr_ca + i * self.nclosed_ + k)
        + (2 * fac_ca sqrt occup_thresh (self.occup_ i) * f.element k (self.nclosed_ + i)
          + -(fac_ca sqrt occup_thresh (self.occup_ i)) * fact.element k i) := by
  have hcond : ¬ (self.nclosed_ = 0 ∨ self.nact_ = 0) := by omega
  unfold SuperCI.grad_ca
  rw [if_neg hcond]
  have key := (foldl_blocks (R := R) (S := (Nat → R) × Nat) Prod.fst Prod.snd self.nclosed_
    (fun i k => 2 * fac_ca sqrt occup_thresh (self.occup_ i)
        * f.data (f.element_ptr 0 (self.nclosed_ + i) + k)
      + -(fac_ca sqrt occup_thresh (self.occup_ i)) * fact.data (fact.element_ptr 0 i + k))
    (fun st i =>
      (ax_plus_y_n (-(fac_ca sqrt occup_thresh (self.occup_ i))) fact.data
          (fact.element_ptr 0 i) self.nclosed_
          (ax_plus_y_n (2 * fac_ca sqrt occup_thresh (self.occup_ i)) f.data
            (f.element_ptr 0 (self.nclosed_ + i)) self.nclosed_ st.1 st.2) st.2,
        st.2 + self.nclosed_))
    (fun _ _ => rfl)
    (fun st i j => by
      simp only [ax_plus_y_n_apply]
      by_cases hc : st.2 ≤ j ∧ j < st.2 + self.nclosed_
      · simp only [if_pos hc, add_assoc]
      · simp only [if_neg hc])
    (sigma.data, sigma.ptr_ca) self.nact_).2.1 i k hk
  simp only [if_pos hi] at key
  simp only
  rw [key, Matrix.data_element_ptr_add, Matrix.data_element_ptr_add, Nat.zero_add]

theorem grad_vc_sizes {R : Type} [LinearOrderedField R] (sqrt : R → R) (self : SuperCI R)
    (f : Matrix R) (sigma : RotFile R) :
    (self.grad_vc sqrt f sigma).nclosed_ = sigma.nclosed_ ∧
    (self.grad_vc sqrt f sigma).nact_ = sigma.nact_ ∧
    (self.grad_vc sqrt f sigma).nvirt_ = sigma.nvirt_ := by
  unfold SuperCI.grad_vc
  split <;> exact ⟨rfl, rfl, rfl⟩

theorem grad_va_sizes {R : Type} [LinearOrderedField R] (sqrt : R → R) (occup_thresh : R)
    (self : SuperCI R) (fact : Matrix R) (sigma : RotFile R) :
    (self.grad_va sqrt occup_thresh fact sigma).nclosed_ = sigma.nclosed_ ∧
    (self.grad_va sqrt occup_thresh fact sigma).nact_ = sigma.nact_ ∧
    (self.grad_va sqrt occup_thresh fact sigma).nvirt_ = sigma.nvirt_ := by
  unfold SuperCI.grad_va SuperCI.grad_va_log
  split <;> exact ⟨rfl, rfl, rfl⟩

theorem grad_ca_sizes {R : Type} [LinearOrderedField R] (sqrt : R → R) (occup_thresh : R)
    (self : SuperCI R) (f fact : Matrix R) (sigma : RotFile R) :
    (self.grad_ca sqrt occup_thresh f fact sigma).nclosed_ = sigma.nclosed_ ∧
    (self.grad_ca sqrt occup_thresh f fact sigma).nact_ = sigma.nact_ ∧
    (self.grad_ca sqrt occup_thresh f fact sigma).nvirt_ = sigma.nvirt_ := by
  unfold SuperCI.grad_ca
  split <;> exact ⟨rfl, rfl, rfl⟩

/-- Every division recorded by `grad_va` is the one of an orbital whose occupation is above
the threshold, by the square root of that occupation. -/
theorem grad_va_log_mem {R : Type} [LinearOrderedField R] (sqrt : R → R) (occup_thresh : R)
    (self : SuperCI R) (fact : Matrix R) (sigma : RotFile R) (r : Nat) (den : R)
    (h : (r, den) ∈ (self.grad_va_log sqrt occup_thresh fact sigma).2) :
    r < self.nact_ ∧ self.occup_ r > occup_thresh ∧ den = sqrt (self.occup_ r) := by
  unfold SuperCI.grad_va_log at h
  by_cases hcond : self.nvirt_ = 0 ∨ self.nact_ = 0
  · rw [if_pos hcond] at h
    simp at h
  · rw [if_neg hcond] at h
    simp only at h
    have key : ∀ m, ∀ e ∈ ((List.range m).foldl
        (fun (st : (Nat → R) × Nat × List (Nat × R)) i =>
          (ax_plus_y_n (fac_va sqrt occup_thresh (self.occup_ i)).1 fact.data
              (fact.element_ptr self.nocc_ i) self.nvirt_ st.1 st.2.1,
            st.2.1 + self.nvirt_,
            st.2.2 ++ ((fac_va sqrt occup_thresh (self.occup_ i)).2.toList.map
              (fun den => (i, den)))))
        (sigma.data, sigma.ptr_va, [])).2.2,
        e.1 < m ∧ self.occup_ e.1 > occup_thresh ∧ e.2 = sqrt (self.occup_ e.1) := by
      intro m
      induction m with
      | zero => intro e he; simp at he
      | succ m ih =>
        intro e he
        simp only [List.range_succ, List.foldl_append, List.foldl_cons, List.foldl_nil,
          List.mem_append] at he
        rcases he with he | he
        · obtain ⟨h1, h2⟩ := ih e he
          exact ⟨by omega, h2⟩
        · unfold fac_va at he
          by_cases hocc : self.occup_ m > occup_thresh
          · rw [if_pos hocc] at he
            simp only [Option.toList_some, List.map_cons, List.map_nil,
              List.mem_singleton] at he
            subst he
            exact ⟨by simp, hocc, rfl⟩
          · rw [if_neg hocc] at he
            simp at he
    exact key self.nact_ (r, den) h

/-! ## The claims on the gradient vectors -/

/-- C6: zero-occupation guard.  For an active orbital `r` whose occupation is not greater than
`occup_thresh` (in particular occupation exactly 0 with `occup_thresh >= 0`), `grad_va` adds
exactly 0 to the virtual-active element `(a, r)`, at position `a + r*nvirt` of the block,
whatever the active Fock matrix, the rotation vector and the square-root function are; and
no division is evaluated for that orbital. -/
theorem grad_va_zero_occupation {R : Type} [LinearOrderedField R] (sqrt : R → R)
    (occup_thresh : R) (self : SuperCI R) (fact : Matrix R) (sigma : RotFile R) (r a : Nat)
    (hr : r < self.nact_) (ha : a < self.nvirt_)
    (hocc0 : self.occup_ r = 0 ∧ 0 ≤ occup_thresh ∨ self.occup_ r ≤ occup_thresh) :
    (self.grad_va sqrt occup_thresh fact sigma).data (sigma.ptr_va + (a + r * self.nvirt_))
      = sigma.data (sigma.ptr_va + (a + r * self.nvirt_)) + 0 ∧
    (fac_va sqrt occup_thresh (self.occup_ r)).1 = 0 ∧
    ∀ den, (r, den) ∉ (self.grad_va_log sqrt occup_thresh fact sigma).2 := by
  have hocc : self.occup_ r ≤ occup_thresh := by
    rcases hocc0 with h | h
    · rw [h.1]; exact h.2
    · exact h
  have hfac : fac_va sqrt occup_thresh (self.occup_ r) = (0, none) := by
    unfold fac_va
    rw [if_neg (not_lt.mpr hocc)]
  have hpos : sigma.ptr_va + (a + r * self.nvirt_) = sigma.ptr_va + r * self.nvirt_ + a := by
    omega
  refine ⟨?_, by rw [hfac], ?_⟩
  · rw [hpos, grad_va_apply sqrt occup_thresh self fact sigma r a hr ha, hfac, zero_mul]
  · intro den hmem
    exact absurd (grad_va_log_mem sqrt occup_thresh self fact sigma r den hmem).2.1
      (not_lt.mpr hocc)

/-- Witness of C6: active orbital 0 of `demo_superci` has occupation exactly 0, the threshold
is `10^-10`, and the rotation vector holds 7 everywhere. -/
theorem grad_va_zero_occupation_witness :
    0 < demo_superci.nact_ ∧ 1 < demo_superci.nvirt_ ∧
    (demo_superci.occup_ 0 = 0 ∧ (0 : ℚ) ≤ 1 / 10 ^ 10) ∧
    ((demo_superci.grad_va (fun x => x) (1 / 10 ^ 10) demo_fock
        { nclosed_ := 1, nact_ := 2, nvirt_ := 2, data := fun _ => 7 }).data
          ((RotFile.mk 1 2 2 (fun _ => (7 : ℚ))).ptr_va + (1 + 0 * demo_superci.nvirt_))
      = (7 : ℚ) + 0) :=
  ⟨by decide, by decide, by norm_num [demo_superci],
    (grad_va_zero_occupation (fun x => x) (1 / 10 ^ 10) demo_superci demo_fock
      { nclosed_ := 1, nact_ := 2, nvirt_ := 2, data := fun _ => 7 } 0 1 (by decide)
      (by decide) (Or.inl (by norm_num [demo_superci]))).1⟩

/-- C7: virtual-closed gradient.  After `grad_vc` on a freshly created (all-zero) rotation
vector, for every closed orbital `i` and virtual orbital `a` (so `nclosed > 0`, `nvirt > 0`)
the virtual-closed element `(a, i)`, at position `a + i*nvirt` of the block, equals
`sqrt(2) * f(nocc + a, i)`. -/
theorem grad_vc_fresh {R : Type} [LinearOrderedField R] (sqrt : R → R) (self : SuperCI R)
    (f : Matrix R) (i a : Nat) (hi : i < self.nclosed_) (ha : a < self.nvirt_) :
    (self.grad_vc sqrt f (RotFile.fresh self.nclosed_ self.nact_ self.nvirt_)).ele_vc a i
      = sqrt 2 * f.element (self.nocc_ + a) i ∧
    (self.grad_vc sqrt f (RotFile.fresh self.nclosed_ self.nact_ self.nvirt_)).data
        ((RotFile.fresh (R := R) self.nclosed_ self.nact_ self.nvirt_).ptr_vc
          + (a + i * self.nvirt_))
      = sqrt 2 * f.element (self.nocc_ + a) i := by
  have key := grad_vc_apply sqrt self f (RotFile.fresh self.nclosed_ self.nact_ self.nvirt_)
    i a hi ha
  have hz : (RotFile.fresh (R := R) self.nclosed_ self.nact_ self.nvirt_).data
      ((RotFile.fresh (R := R) self.nclosed_ self.nact_ self.nvirt_).ptr_vc
        + i * self.nvirt_ + a) = 0 := rfl
  rw [hz, zero_add] at key
  obtain ⟨s1, s2, s3⟩ := grad_vc_sizes sqrt self f
    (RotFile.fresh self.nclosed_ self.nact_ self.nvirt_)
  constructor
  · unfold RotFile.ele_vc
    rw [← key]
    congr 1
    unfold RotFile.ptr_vc
    rw [s1, s2, s3]
    simp only [RotFile.fresh]
    omega
  · rw [← key]
    congr 1
    omega

/-- Witness of C7: closed orbital 0 and virtual orbital 1 of `demo_superci`. -/
theorem grad_vc_fresh_witness :
    0 < demo_superci.nclosed_ ∧ 1 < demo_superci.nvirt_ ∧
    (demo_superci.grad_vc (fun x => x) demo_fock
        (RotFile.fresh demo_superci.nclosed_ demo_superci.nact_ demo_superci.nvirt_)).ele_vc 1 0
      = (fun x : ℚ => x) 2 * demo_fock.element (demo_superci.nocc_ + 1) 0 :=
  ⟨by decide, by decide,
    (grad_vc_fresh (fun x => x) demo_superci demo_fock 0 1 (by decide) (by decide)).1⟩

/-- C8: virtual-active gradient.  After `grad_va` on a freshly created (all-zero) rotation
vector, for every active orbital `r` and virtual orbital `a` the virtual-active element
`(a, r)`, at position `a + r*nvirt` of the block, equals `fact(nocc + a, r) / sqrt(occup[r])`
when `occup[r] > occup_thresh`, and 0 otherwise. -/
theorem grad_va_fresh {R : Type} [LinearOrderedField R] (sqrt : R → R) (occup_thresh : R)
    (self : SuperCI R) (fact : Matrix R) (r a : Nat) (hr : r < self.nact_)
    (ha : a < self.nvirt_) :
    (self.grad_va sqrt occup_thresh fact
        (RotFile.fresh self.nclosed_ self.nact_ self.nvirt_)).ele_va a r
      = (if self.occup_ r > occup_thresh
          then fact.element (self.nocc_ + a) r / sqrt (self.occup_ r) else 0) ∧
    (self.grad_va sqrt occup_thresh fact
        (RotFile.fresh self.nclosed_ self.nact_ self.nvirt_)).data
        ((RotFile.fresh (R := R) self.nclosed_ self.nact_ self.nvirt_).ptr_va
          + (a + r * self.nvirt_))
      = (if self.occup_ r > occup_thresh
          then fact.element (self.nocc_ + a) r / sqrt (self.occup_ r) else 0) := by
  have key := grad_va_apply sqrt occup_thresh self fact
    (RotFile.fresh self.nclosed_ self.nact_ self.nvirt_) r a hr ha
  have hz : (RotFile.fresh (R := R) self.nclosed_ self.nact_ self.nvirt_).data
      ((RotFile.fresh (R := R) self.nclosed_ self.nact_ self.nvirt_).ptr_va
        + r * self.nvirt_ + a) = 0 := rfl
  rw [hz, zero_add] at key
  have hval : (fac_va sqrt occup_thresh (self.occup_ r)).1 * fact.element (self.nocc_ + a) r
      = (if self.occup_ r > occup_thresh
          then fact.element (self.nocc_ + a) r / sqrt (self.occup_ r) else 0) := by
    unfold fac_va
    by_cases hocc : self.occup_ r > occup_thresh
    · rw [if_pos hocc, if_pos hocc]
      ring
    · rw [if_neg hocc, if_neg hocc, zero_mul]
  rw [hval] at key
  obtain ⟨s1, s2, s3⟩ := grad_va_sizes sqrt occup_thresh self fact
    (RotFile.fresh self.nclosed_ self.nact_ self.nvirt_)
  constructor
  · unfold RotFile.ele_va
    rw [← key]
    congr 1
    unfold RotFile.ptr_va
    rw [s1, s2, s3]
    simp only [RotFile.fresh]
    omega
  · rw [← key]
    congr 1
    omega

/-- Witness of C8: active orbital 1 (occupation 1) and virtual orbital 1 of `demo_superci`. -/
theorem grad_va_fresh_witness :
    1 < demo_superci.nact_ ∧ 1 < demo_superci.nvirt_ ∧
    (demo_superci.grad_va (fun x => x) (1 / 10 ^ 10) demo_fock
        (RotFile.fresh demo_superci.nclosed_ demo_superci.nact_ demo_superci.nvirt_)).ele_va 1 1
      = (if demo_superci.occup_ 1 > (1 / 10 ^ 10 : ℚ)
          then demo_fock.element (demo_superci.nocc_ + 1) 1
            / (fun x : ℚ => x) (demo_superci.occup_ 1) else 0) :=
  ⟨by decide, by decide,
    (grad_va_fresh (fun x => x) (1 / 10 ^ 10) demo_superci demo_fock 1 1 (by decide)
      (by decide)).1⟩

/-- C9: closed-active gradient.  After `grad_ca` on a freshly created (all-zero) rotation
vector, for every active orbital `r` and closed orbital `i` the closed-active element
`(i, r)`, at position `i + r*nclosed` of the block, equals
`(2*f(i, nclosed + r) - fact(i, r)) / sqrt(2 - occup[r])` when `2 - occup[r] > occup_thresh`,
and exactly 0 otherwise. -/
theorem grad_ca_fresh {R : Type} [LinearOrderedField R] (sqrt : R → R) (occup_thresh : R)
    (self : SuperCI R) (f fact : Matrix R) (r i : Nat) (hr : r < self.nact_)
    (hi : i < self.nclosed_) :
    (self.grad_ca sqrt occup_thresh f fact
        (RotFile.fresh self.nclosed_ self.nact_ self.nvirt_)).ele_ca i r
      = (if 2 - self.occup_ r > occup_thresh
          then (2 * f.element i (self.nclosed_ + r) - fact.element i r)
            / sqrt (2 - self.occup_ r)
          else 0) ∧
    (self.grad_ca sqrt occup_thresh f fact
        (RotFile.fresh self.nclosed_ self.nact_ self.nvirt_)).data
        ((RotFile.fresh (R := R) self.nclosed_ self.nact_ self.nvirt_).ptr_ca
          + (i + r * self.nclosed_))
      = (if 2 - self.occup_ r > occup_thresh
          then (2 * f.element i (self.nclosed_ + r) - fact.element i r)
            / sqrt (2 - self.occup_ r)
          else 0) := by
  have key := grad_ca_apply sqrt occup_thresh self f fact
    (RotFile.fresh self.nclosed_ self.nact_ self.nvirt_) r i hr hi
  have hz : (RotFile.fresh (R := R) self.nclosed_ self.nact_ self.nvirt_).data
      ((RotFile.fresh (R := R) self.nclosed_ self.nact_ self.nvirt_).ptr_ca
        + r * self.nclosed_ + i) = 0 := rfl
  rw [hz, zero_add] at key
  have hval : 2 * fac_ca sqrt occup_thresh (self.occup_ r) * f.element i (self.nclosed_ + r)
        + -(fac_ca sqrt occup_thresh (self.occup_ r)) * fact.element i r
      = (if 2 - self.occup_ r > occup_thresh
          then (2 * f.element i (self.nclosed_ + r) - fact.element i r)
            / sqrt (2 - self.occup_ r)
          else 0) := by
    unfold fac_ca
    by_cases hocc : 2 - self.occup_ r > occup_thresh
    · rw [if_pos hocc, if_pos hocc]
      ring
    · rw [if_neg hocc, if_neg hocc]
      ring
  rw [hval] at key
  obtain ⟨s1, s2, s3⟩ := grad_ca_sizes sqrt occup_thresh self f fact
    (RotFile.fresh self.nclosed_ self.nact_ self.nvirt_)
  constructor
  · unfold RotFile.ele_ca
    rw [← key]
    congr 1
    unfold RotFile.ptr_ca
    rw [s1]
    simp only [RotFile.fresh]
    omega
  · rw [← key]
    congr 1
    omega

/-- Witness of C9: active orbital 1 (occupation 1) and closed orbital 0 of `demo_superci`. -/
theorem grad_ca_fresh_witness :
    1 < demo_superci.nact_ ∧ 0 < demo_superci.nclosed_ ∧
    (demo_superci.grad_ca (fun x => x) (1 / 10 ^ 10) demo_fock demo_fock
        (RotFile.fresh demo_superci.nclosed_ demo_superci.nact_ demo_superci.nvirt_)).ele_ca 0 1
      = (if 2 - demo_superci.occup_ 1 > (1 / 10 ^ 10 : ℚ)
          then (2 * demo_fock.element 0 (demo_superci.nclosed_ + 1) - demo_fock.element 0 1)
            / (fun x : ℚ => x) (2 - demo_superci.occup_ 1)
          else 0) :=
  ⟨by decide, by decide,
    (grad_ca_fresh (fun x => x) (1 / 10 ^ 10) demo_superci demo_fock demo_fock 1 0
      (by decide) (by decide)).1⟩

end bagel

namespace bagel
namespace SMITH
namespace CASPT2

/-! ## Lemmas on the phases of an iteration -/

theorem foldl_preserves {α β : Type} (P : α → Prop) (f : α → β → α)
    (h : ∀ a b, P a → P (f a b)) : ∀ (l : List β) (a : α), P a → P (l.foldl f a) := by
  intro l
  induction l with
  | nil => intro a ha; exact ha
  | cons b bs ih => intro a ha; exact ih (f a b) (h a b ha)

/-- The residual phase does not write `energy_`. -/
theorem residual_phase_energy {MT R Solver : Type} [LinearOrderedField R]
    (ops : Ops MT R Solver) (i : Nat) (st : LoopState MT R Solver) :
    (residual_phase ops i st).self.energy_ = st.self.energy_ := by
  unfold residual_phase
  simp only
  apply foldl_preserves (fun self : CASPT2 MT R => self.energy_ = st.self.energy_)
  · intro self jst hself
    apply foldl_preserves (fun self : CASPT2 MT R => self.energy_ = st.self.energy_)
    · intro self1 ist hself1
      split
      · exact hself1
      · exact hself1
    · exact hself
  · rfl

/-! ## The claims on `solve_linear` -/

/-- C10: Hylleraas energy.  At the end of every iteration of `solve_linear` for state `i`,
`energy_[i]` equals `Re<s_i|t_i> + Re<r_i|t_i>`, where `r_i` is the residual returned by
`solver->compute_residual` and `t_i` the amplitude returned by `solver->civec()` in that same
iteration, the dot products being `dot_product_transpose` over the whole collections; the
residual kept in `rall_[i]` is that `r_i`, and the energies of the other states are not
touched. -/
theorem iteration_hylleraas_energy {MT R Solver : Type} [LinearOrderedField R]
    (ops : Ops MT R Solver) (s : Nat → MT) (i : Nat) (iter : Int)
    (st : LoopState MT R Solver) :
    (iteration ops s i iter st).self.energy_ i
      = detail_real (ops.dot_product_transpose (s i)
          (ops.civec (ops.compute_residual (residual_phase ops i st).solver
            ((residual_phase ops i st).t i) ((residual_phase ops i st).self.rall_ i)).1))
        + detail_real (ops.dot_product_transpose
          (ops.compute_residual (residual_phase ops i st).solver
            ((residual_phase ops i st).t i) ((residual_phase ops i st).self.rall_ i)).2
          (ops.civec (ops.compute_residual (residual_phase ops i st).solver
            ((residual_phase ops i st).t i) ((residual_phase ops i st).self.rall_ i)).1)) ∧
    (iteration ops s i iter st).self.rall_ i
      = (ops.compute_residual (residual_phase ops i st).solver
          ((residual_phase ops i st).t i) ((residual_phase ops i st).self.rall_ i)).2 ∧
    ∀ k, k ≠ i → (iteration ops s i iter st).self.energy_ k = st.self.energy_ k := by
  refine ⟨?_, ?_, ?_⟩
  · simp only [iteration, convergence_phase, energy_phase, solver_phase, Function.update_same]
  · simp only [iteration, convergence_phase, energy_phase, solver_phase, Function.update_same]
  · intro k hk
    simp only [iteration, convergence_phase, energy_phase, solver_phase,
      Function.update_noteq hk]
    exact congrFun (residual_phase_energy ops i st) k

end CASPT2
end SMITH
end bagel

namespace bagel
namespace SMITH
namespace CASPT2

/-! ## Lemmas on the iteration loop and on the loop over the states -/

theorem same_options_refl {MT R : Type} (a : CASPT2 MT R) : same_options a a :=
  ⟨rfl, rfl, rfl, rfl, rfl, rfl⟩

theorem same_options_trans {MT R : Type} {a b c : CASPT2 MT R} (h1 : same_options a b)
    (h2 : same_options b c) : same_options a c :=
  ⟨h1.1.trans h2.1, h1.2.1.trans h2.2.1, h1.2.2.1.trans h2.2.2.1,
    h1.2.2.2.1.trans h2.2.2.2.1, h1.2.2.2.2.1.trans h2.2.2.2.2.1,
    h1.2.2.2.2.2.trans h2.2.2.2.2.2⟩

/-- The residual phase keeps the options and prints nothing. -/
theorem residual_phase_options {MT R Solver : Type} [LinearOrderedField R]
    (ops : Ops MT R Solver) (i : Nat) (st : LoopState MT R Solver) :
    same_options (residual_phase ops i st).self st.self ∧
      (residual_phase ops i st).self.output = st.self.output := by
  unfold residual_phase
  simp only
  apply foldl_preserves
    (fun self : CASPT2 MT R => same_options self st.self ∧ self.output = st.self.output)
  · intro self jst hself
    apply foldl_preserves
      (fun self : CASPT2 MT R => same_options self st.self ∧ self.output = st.self.output)
    · intro self1 ist hself1
      split
      · exact hself1
      · exact hself1
    · exact hself
  · exact ⟨same_options_refl _, rfl⟩

/-- One execution of the loop body keeps the options, prints one line, and leaves in `conv`
the outcome of the test of the residual RMS, which it leaves in `rall_[i]`, against `thresh`. -/
theorem iteration_facts {MT R Solver : Type} [LinearOrderedField R] (ops : Ops MT R Solver)
    (s : Nat → MT) (i : Nat) (iter : Int) (st : LoopState MT R Solver) :
    same_options (iteration ops s i iter st).self st.self ∧
    (∃ e r, (iteration ops s i iter st).self.output
      = st.self.output ++ [Printed.iteration iter e r]) ∧
    (iteration ops s i iter st).conv
      = decide (ops.rms ((iteration ops s i iter st).self.rall_ i) < st.self.thresh) := by
  obtain ⟨h1, h2⟩ := residual_phase_options ops i st
  refine ⟨?_, ?_, ?_⟩
  · simp only [iteration, convergence_phase, energy_phase, solver_phase]
    exact h1
  · simp only [iteration, convergence_phase, energy_phase, solver_phase]
    rw [h2]
    exact ⟨_, _, rfl⟩
  · simp only [iteration, convergence_phase, energy_phase, solver_phase]
    simp only [h1.2.2.2.2.2]

/-- The iteration loop with `iter <= maxiter` and fuel for the remaining `maxiter - iter`
executions: it ends, after at most `maxiter - iter` executions of the body, each of which has
printed one line. -/
theorem iterate_spec {MT R Solver : Type} [LinearOrderedField R] (ops : Ops MT R Solver)
    (s : Nat → MT) (i : Nat) :
    ∀ (fuel : Nat) (iter : Int) (st : LoopState MT R Solver), iter ≤ st.self.maxiter →
      (st.self.maxiter - iter).toNat ≤ fuel →
      ∃ st' lines, iterate ops s i fuel iter st = some st' ∧
        same_options st'.self st.self ∧
        st'.self.output = st.self.output ++ lines ∧
        (lines.length : Int) ≤ st.self.maxiter - iter ∧
        (∀ p ∈ lines, ∃ k e r, p = Printed.iteration k e r) ∧
        ((lines = [] ∧ st' = st) ∨
          (lines ≠ [] ∧
            st'.conv = decide (ops.rms (st'.self.rall_ i) < st.self.thresh))) := by
  intro fuel
  induction fuel with
  | zero =>
    intro iter st h1 h2
    have heq : iter = st.self.maxiter := by omega
    refine ⟨st, [], ?_, same_options_refl _, by simp, by simp; omega, by simp, Or.inl ⟨rfl, rfl⟩⟩
    simp [iterate, heq]
  | succ fuel ih =>
    intro iter st h1 h2
    by_cases heq : iter = st.self.maxiter
    · refine ⟨st, [], ?_, same_options_refl _, by simp, by simp; omega, by simp,
        Or.inl ⟨rfl, rfl⟩⟩
      simp [iterate, heq]
    · obtain ⟨f1, ⟨e, r, f2⟩, f3⟩ := iteration_facts ops s i iter st
      by_cases hconv : (iteration ops s i iter st).conv = true
      · refine ⟨iteration ops s i iter st, [Printed.iteration iter e r], ?_, f1, f2, ?_, ?_,
          Or.inr ⟨by simp, f3⟩⟩
        · rw [iterate]
          simp only [if_neg heq, hconv, if_true]
        · simp only [List.length_singleton]
          omega
        · intro p hp
          exact ⟨iter, e, r, by simpa using hp⟩
      · have hm : (iteration ops s i iter st).self.maxiter = st.self.maxiter := f1.2.2.2.2.1
        obtain ⟨st', lines, g1, g2, g3, g4, g5, g6⟩ :=
          ih (iter + 1) (iteration ops s i iter st) (by rw [hm]; omega) (by rw [hm]; omega)
        refine ⟨st', Printed.iteration iter e r :: lines, ?_, same_options_trans g2 f1, ?_, ?_,
          ?_, Or.inr ⟨by simp, ?_⟩⟩
        · rw [iterate]
          simp only [if_neg heq, hconv]
          exact g1
        · rw [g3, f2]
          simp
        · rw [hm] at g4
          simp only [List.length_cons]
          push_cast
          omega
        · intro p hp
          rcases List.mem_cons.mp hp with hp | hp
          · exact ⟨iter, e, r, hp⟩
          · exact g5 p hp
        · rcases g6 with ⟨_, g6⟩ | ⟨_, g6⟩
          · rw [g6]
            exact f3
          · rw [g6, f1.2.2.2.2.2]

/-- The turn of one state in `solve_linear`, for `maxiter >= 0` and fuel for `maxiter`
executions of the body: it ends; a state with a zero source leaves `converged` alone, any other
state is iterated at most `maxiter` times and `converged &= conv` is applied. -/
theorem solve_state_spec {MT R Solver : Type} [LinearOrderedField R] (ops : Ops MT R Solver)
    (s : Nat → MT) (fuel : Nat) (acc : CASPT2 MT R × (Nat → MT) × Bool) (i : Nat)
    (hmax : 0 ≤ acc.1.maxiter) (hfuel : acc.1.maxiter.toNat ≤ fuel) :
    ∃ acc', solve_state ops s fuel acc i = some acc' ∧ same_options acc'.1 acc.1 ∧
      (ops.rms (s i) < 1 / 10 ^ 15 → acc'.2.2 = acc.2.2) ∧
      (¬ ops.rms (s i) < 1 / 10 ^ 15 →
        ∃ st lines, iterate ops s i fuel 0 (state_start ops s acc i) = some st ∧
          acc' = (st.self, st.t, acc.2.2 && st.conv) ∧
          st.self.output = acc.1.output ++ lines ∧
          (lines.length : Int) ≤ acc.1.maxiter ∧
          (∀ p ∈ lines, ∃ k e r, p = Printed.iteration k e r) ∧
          (st.conv = true ↔ lines ≠ [] ∧ ops.rms (st.self.rall_ i) < acc.1.thresh)) := by
  by_cases h : ops.rms (s i) < 1 / 10 ^ 15
  · refine ⟨({ acc.1 with
        e0_ := acc.1.e0all_ i - acc.1.shift
        energy_ := Function.update acc.1.energy_ i 0
        output := acc.1.output ++ [Printed.iteration 0 0 0] },
      Function.update acc.2.1 i (ops.zero (acc.2.1 i)), acc.2.2), ?_, ?_, fun _ => rfl,
      fun h' => absurd h h'⟩
    · unfold solve_state
      simp only [if_pos h]
    · exact ⟨rfl, rfl, rfl, rfl, rfl, rfl⟩
  · obtain ⟨st, lines, g1, g2, g3, g4, g5, g6⟩ :=
      iterate_spec ops s i fuel 0 (state_start ops s acc i) hmax (by simpa using hfuel)
    have hso : same_options (state_start ops s acc i).self acc.1 := ⟨rfl, rfl, rfl, rfl, rfl, rfl⟩
    refine ⟨(st.self, st.t, acc.2.2 && st.conv), ?_, same_options_trans g2 hso,
      fun h' => absurd h' h, fun _ => ⟨st, lines, g1, rfl, g3, by simpa using g4, g5, ?_⟩⟩
    · have g1' := g1
      unfold state_start at g1'
      unfold solve_state
      simp only [if_neg h]
      rw [g1']
    · rcases g6 with ⟨h1, h2⟩ | ⟨h1, h2⟩
      · rw [h2, h1]
        simp [state_start]
      · rw [h2]
        simp only [decide_eq_true_eq]
        exact ⟨fun hx => ⟨h1, hx⟩, fun hx => hx.2⟩

theorem states_upto_succ {MT R Solver : Type} [LinearOrderedField R] (ops : Ops MT R Solver)
    (self : CASPT2 MT R) (s t : Nat → MT) (fuel : Nat) (k : Nat) :
    states_upto ops self s t fuel (k + 1)
      = (states_upto ops self s t fuel k).bind (fun a => solve_state ops s fuel a k) := by
  unfold states_upto
  rw [List.range_succ, List.foldlM_append]
  cases (List.range k).foldlM (solve_state ops s fuel) (self, t, true) with
  | none => rfl
  | some a =>
    simp only [List.foldlM_cons, List.foldlM_nil, Option.bind_eq_bind, Option.some_bind]
    cases solve_state ops s fuel a k <;> rfl

/-- For `maxiter >= 0` and enough fuel the loop over the states reaches every state. -/
theorem states_upto_total {MT R Solver : Type} [LinearOrderedField R] (ops : Ops MT R Solver)
    (self : CASPT2 MT R) (s t : Nat → MT) (fuel : Nat)
    (hmax : 0 ≤ self.maxiter) (hfuel : self.maxiter.toNat ≤ fuel) :
    ∀ k, ∃ a, states_upto ops self s t fuel k = some a ∧ same_options a.1 self := by
  intro k
  induction k with
  | zero => exact ⟨(self, t, true), rfl, same_options_refl _⟩
  | succ k ih =>
    obtain ⟨a, ha, hso⟩ := ih
    have hm : a.1.maxiter = self.maxiter := hso.2.2.2.2.1
    obtain ⟨a', h1, h2, _⟩ := solve_state_spec ops s fuel a k (by rw [hm]; exact hmax)
      (by rw [hm]; exact hfuel)
    refine ⟨a', ?_, same_options_trans h2 hso⟩
    rw [states_upto_succ, ha]
    exact h1

/-- The flag `converged` after the first `k` states: it is still true iff every iterated state
among them ended with `conv` true. -/
theorem states_upto_flag {MT R Solver : Type} [LinearOrderedField R] (ops : Ops MT R Solver)
    (self : CASPT2 MT R) (s t : Nat → MT) (fuel : Nat)
    (hmax : 0 ≤ self.maxiter) (hfuel : self.maxiter.toNat ≤ fuel) :
    ∀ k a, states_upto ops self s t fuel k = some a →
      (a.2.2 = true ↔ ∀ j, j < k → ¬ ops.rms (s j) < 1 / 10 ^ 15 →
        ∀ b st, states_upto ops self s t fuel j = some b →
          iterate ops s j fuel 0 (state_start ops s b j) = some st → st.conv = true) := by
  intro k
  induction k with
  | zero =>
    intro a ha
    have : a = (self, t, true) := by
      have h0 : states_upto ops self s t fuel 0 = some (self, t, true) := rfl
      rw [h0] at ha
      exact (Option.some.inj ha).symm
    subst this
    simp
  | succ k ih =>
    intro a ha
    obtain ⟨b, hb, hso⟩ := states_upto_total ops self s t fuel hmax hfuel k
    have hm : b.1.maxiter = self.maxiter := hso.2.2.2.2.1
    obtain ⟨a', h1, _, h3, h4⟩ := solve_state_spec ops s fuel b k (by rw [hm]; exact hmax)
      (by rw [hm]; exact hfuel)
    have haa : a = a' := by
      rw [states_upto_succ, hb] at ha
      have : some a' = some a := h1.symm.trans ha
      exact (Option.some.inj this).symm
    subst haa
    have ihb := ih b hb
    by_cases hz : ops.rms (s k) < 1 / 10 ^ 15
    · rw [h3 hz, ihb]
      constructor
      · intro hall j hj hnz
        rcases Nat.lt_succ_iff_lt_or_eq.mp hj with hlt | heq
        · exact hall j hlt hnz
        · subst heq
          exact absurd hz hnz
      · intro hall j hj hnz
        exact hall j (Nat.lt_succ_of_lt hj) hnz
    · obtain ⟨st, lines, g1, g2, _⟩ := h4 hz
      have hflag : a.2.2 = (b.2.2 && st.conv) := by rw [g2]
      rw [hflag, Bool.and_eq_true, ihb]
      constructor
      · rintro ⟨hall, hc⟩ j hj hnz
        rcases Nat.lt_succ_iff_lt_or_eq.mp hj with hlt | heq
        · exact hall j hlt hnz
        · subst heq
          intro b' st' hb' hst'
          rw [hb] at hb'
          have hbb : b = b' := Option.some.inj hb'
          subst hbb
          rw [g1] at hst'
          have hss : st = st' := Option.some.inj hst'
          subst hss
          exact hc
      · intro hall
        refine ⟨fun j hj hnz => hall j (Nat.lt_succ_of_lt hj) hnz, ?_⟩
        exact hall k (Nat.lt_succ_self k) hz b st hb g1

/-! ## Further claims on `solve_linear` -/

/-- C11 as stated fails for a negative `maxiter`: with `maxiter = -1` the loop condition
`iter != maxiter` holds at `iter = 0`, and the run below executes two iterations (the second
one converges), more than `maxiter`. -/
theorem solve_linear_negative_maxiter :
    (demo_caspt2 (-1)).maxiter = -1 ∧
    (solve_linear demo_ops (demo_caspt2 (-1)) (fun _ => 5) (fun _ => 5) 2).map
        (fun r => r.1.output.filterMap Printed.iter_of) = some [0, 1] ∧
    ¬ ((([0, 1] : List Int).length : Int) ≤ (demo_caspt2 (-1)).maxiter) := by
  refine ⟨rfl, ?_, by simp [demo_caspt2]⟩
  norm_num [solve_linear, solve_state, iterate, iteration, convergence_phase, energy_phase,
    solver_phase, residual_phase, demo_ops, demo_caspt2, List.range_succ, Printed.iter_of,
    Function.update, List.filterMap]

/-- C11, amended: for every input with `maxiter >= 0` (and fuel for `maxiter` executions of
the loop body), `solve_linear` returns the amplitudes, without exception; every iterated state
(source RMS not below `1.0e-15`) runs at most `maxiter` iterations, one printed line each, and
ends with `conv` true iff it ran an iteration and its last residual RMS is below `thresh`; and
the argument `!converged` of the closing `print_iteration` is true iff some iterated state
ended with `conv` false. -/
theorem solve_linear_reports_nonconvergence {MT R Solver : Type} [LinearOrderedField R]
    (ops : Ops MT R Solver) (self : CASPT2 MT R) (s t : Nat → MT) (fuel : Nat)
    (hmax : 0 ≤ self.maxiter) (hfuel : self.maxiter.toNat ≤ fuel) :
    (∃ a, states_upto ops self s t fuel self.nstates_ = some a ∧
      solve_linear ops self s t fuel
        = some ({ a.1 with output := a.1.output ++ [Printed.summary (!a.2.2)] }, a.2.1) ∧
      ((!a.2.2) = true ↔ ∃ i, i < self.nstates_ ∧ ¬ ops.rms (s i) < 1 / 10 ^ 15 ∧
        ∃ b st, states_upto ops self s t fuel i = some b ∧
          iterate ops s i fuel 0 (state_start ops s b i) = some st ∧ st.conv = false)) ∧
    (∀ i, i < self.nstates_ → ¬ ops.rms (s i) < 1 / 10 ^ 15 →
      ∃ b st lines, states_upto ops self s t fuel i = some b ∧
        iterate ops s i fuel 0 (state_start ops s b i) = some st ∧
        states_upto ops self s t fuel (i + 1) = some (st.self, st.t, b.2.2 && st.conv) ∧
        st.self.output = b.1.output ++ lines ∧
        (lines.length : Int) ≤ self.maxiter ∧
        (∀ p ∈ lines, ∃ k e r, p = Printed.iteration k e r) ∧
        (st.conv = true ↔ lines ≠ [] ∧ ops.rms (st.self.rall_ i) < self.thresh)) := by
  have hper : ∀ i, ¬ ops.rms (s i) < 1 / 10 ^ 15 →
      ∃ b st lines, states_upto ops self s t fuel i = some b ∧
        iterate ops s i fuel 0 (state_start ops s b i) = some st ∧
        states_upto ops self s t fuel (i + 1) = some (st.self, st.t, b.2.2 && st.conv) ∧
        st.self.output = b.1.output ++ lines ∧
        (lines.length : Int) ≤ self.maxiter ∧
        (∀ p ∈ lines, ∃ k e r, p = Printed.iteration k e r) ∧
        (st.conv = true ↔ lines ≠ [] ∧ ops.rms (st.self.rall_ i) < self.thresh) := by
    intro i hnz
    obtain ⟨b, hb, hso⟩ := states_upto_total ops self s t fuel hmax hfuel i
    have hm : b.1.maxiter = self.maxiter := hso.2.2.2.2.1
    have ht : b.1.thresh = self.thresh := hso.2.2.2.2.2
    obtain ⟨a', h1, _, _, h4⟩ := solve_state_spec ops s fuel b i (by rw [hm]; exact hmax)
      (by rw [hm]; exact hfuel)
    obtain ⟨st, lines, g1, g2, g3, g4, g5, g6⟩ := h4 hnz
    refine ⟨b, st, lines, hb, g1, ?_, g3, by rw [← hm]; exact g4, g5, by rw [← ht]; exact g6⟩
    rw [states_upto_succ, hb, ← g2]
    exact h1
  refine ⟨?_, fun i _ hnz => hper i hnz⟩
  obtain ⟨a, ha, _⟩ := states_upto_total ops self s t fuel hmax hfuel self.nstates_
  refine ⟨a, ha, ?_, ?_⟩
  · have ha' := ha
    unfold states_upto at ha'
    unfold solve_linear
    rw [ha']
  · have hflag := states_upto_flag ops self s t fuel hmax hfuel self.nstates_ a ha
    constructor
    · intro hneg
      have hfalse : ¬ a.2.2 = true := by
        intro h
        rw [h] at hneg
        exact absurd hneg (by simp)
      rw [hflag] at hfalse
      push_neg at hfalse
      obtain ⟨j, hj, hnz, b, st, hb, hst, hc⟩ := hfalse
      exact ⟨j, hj, not_lt.mpr hnz, b, st, hb, hst, by simpa using hc⟩
    · rintro ⟨j, hj, hnz, b, st, hb, hst, hc⟩
      have hfalse : ¬ a.2.2 = true := by
        intro h
        have := hflag.mp h j hj hnz b st hb hst
        rw [hc] at this
        exact absurd this (by simp)
      simpa using hfalse

/-- Witness of the amended C11: one state, `maxiter = 3`, fuel 3. -/
theorem solve_linear_reports_nonconvergence_witness :
    0 ≤ (demo_caspt2 3).maxiter ∧ (demo_caspt2 3).maxiter.toNat ≤ 3 ∧
    ∃ a, states_upto demo_ops (demo_caspt2 3) (fun _ => 5) (fun _ => 5) 3
        (demo_caspt2 3).nstates_ = some a ∧
      solve_linear demo_ops (demo_caspt2 3) (fun _ => 5) (fun _ => 5) 3
        = some ({ a.1 with output := a.1.output ++ [Printed.summary (!a.2.2)] }, a.2.1) ∧
      ((!a.2.2) = true ↔ ∃ i, i < (demo_caspt2 3).nstates_ ∧
        ¬ demo_ops.rms ((fun _ => 5) i) < 1 / 10 ^ 15 ∧
        ∃ b st, states_upto demo_ops (demo_caspt2 3) (fun _ => 5) (fun _ => 5) 3 i = some b ∧
          iterate demo_ops (fun _ => 5) i 3 0 (state_start demo_ops (fun _ => 5) b i) = some st ∧
          st.conv = false) :=
  ⟨by decide, by decide,
    (solve_linear_reports_nonconvergence demo_ops (demo_caspt2 3) (fun _ => 5) (fun _ => 5) 3
      (by decide) (by decide)).1⟩

/-- C18: convergence test of `solve_linear`.  In every iteration `conv` is true iff the RMS
of the residual returned by the solver is strictly below `thresh`.  When it is, the loop stops
with the state of that iteration and `t[i]` is the amplitude returned by `solver->civec()`;
when it is not, `t[i]` is `update_amplitude` applied to the zeroed amplitude and the residual,
and the loop goes on with `iter + 1`. -/
theorem iteration_convergence_test {MT R Solver : Type} [LinearOrderedField R]
    (ops : Ops MT R Solver) (s : Nat → MT) (i : Nat) (iter : Int)
    (st : LoopState MT R Solver) :
    ((iteration ops s i iter st).conv = true
      ↔ ops.rms (ops.compute_residual (residual_phase ops i st).solver
          ((residual_phase ops i st).t i) ((residual_phase ops i st).self.rall_ i)).2
        < st.self.thresh) ∧
    ((iteration ops s i iter st).conv = true →
      (iteration ops s i iter st).t i
        = ops.civec (ops.compute_residual (residual_phase ops i st).solver
            ((residual_phase ops i st).t i) ((residual_phase ops i st).self.rall_ i)).1 ∧
      ∀ fuel, iter ≠ st.self.maxiter →
        iterate ops s i (fuel + 1) iter st = some (iteration ops s i iter st)) ∧
    ((iteration ops s i iter st).conv = false →
      (iteration ops s i iter st).t i
        = ops.update_amplitude
            (ops.zero (ops.civec (ops.compute_residual (residual_phase ops i st).solver
              ((residual_phase ops i st).t i) ((residual_phase ops i st).self.rall_ i)).1))
            (ops.compute_residual (residual_phase ops i st).solver
              ((residual_phase ops i st).t i) ((residual_phase ops i st).self.rall_ i)).2 ∧
      ∀ fuel, iter ≠ st.self.maxiter →
        iterate ops s i (fuel + 1) iter st
          = iterate ops s i fuel (iter + 1) (iteration ops s i iter st)) := by
  have hth : (residual_phase ops i st).self.thresh = st.self.thresh :=
    (residual_phase_options ops i st).1.2.2.2.2.2
  have hconv : (iteration ops s i iter st).conv
      = decide (ops.rms (ops.compute_residual (residual_phase ops i st).solver
          ((residual_phase ops i st).t i) ((residual_phase ops i st).self.rall_ i)).2
        < st.self.thresh) := by
    simp only [iteration, convergence_phase, energy_phase, solver_phase, Function.update_same,
      hth]
  refine ⟨by rw [hconv, decide_eq_true_eq], ?_, ?_⟩
  · intro hc
    constructor
    · have hc' := hc
      rw [hconv, decide_eq_true_eq] at hc'
      simp only [iteration, convergence_phase, energy_phase, solver_phase,
        Function.update_same, hth, hc', decide_True, if_true]
    · intro fuel hne
      rw [iterate]
      simp only [if_neg hne, hc, if_true]
  · intro hc
    constructor
    · have hc' := hc
      rw [hconv, decide_eq_false_iff_not] at hc'
      simp only [iteration, convergence_phase, energy_phase, solver_phase,
        Function.update_same, hth, hc', decide_False]
      simp
    · intro fuel hne
      rw [iterate]
      simp only [if_neg hne, hc]
      simp

/-! ## Lemmas on the loops of the constructor and of `solve()` -/

theorem flatMap_ite_singleton {α β : Type} (c : α → Bool) (e : α → β) (l : List α) :
    l.flatMap (fun b => if c b then [] else [e b]) = (l.filter (fun b => !c b)).map e := by
  induction l with
  | nil => rfl
  | cons a as ih =>
    rw [List.flatMap_cons, ih]
    cases hc : c a <;> simp [List.filter_cons, hc]

/-- A loop each of whose steps keeps an invariant and appends `F b` to a record. -/
theorem foldl_log {S E β : Type} (P : S → Prop) (log : S → List E) (f : S → β → S)
    (F : β → List E) :
    ∀ (l : List β), (∀ s b, b ∈ l → P s → P (f s b) ∧ log (f s b) = log s ++ F b) →
      ∀ s, P s → P (l.foldl f s) ∧ log (l.foldl f s) = log s ++ l.flatMap F := by
  intro l
  induction l with
  | nil => intro _ s hs; exact ⟨hs, by simp⟩
  | cons b bs ih =>
    intro h s hs
    obtain ⟨h1, h2⟩ := h s b (List.mem_cons_self _ _) hs
    obtain ⟨h3, h4⟩ := ih (fun s' b' hb' => h s' b' (List.mem_cons_of_mem _ hb')) (f s b) h1
    refine ⟨h3, ?_⟩
    rw [List.foldl_cons, h4, h2, List.flatMap_cons, List.append_assoc]

/-- A loop that may fail, each of whose steps succeeds under an invariant, keeps it, and
appends `F b` to a record. -/
theorem foldlM_log {S E β : Type} (P : S → Prop) (log : S → List E) (f : S → β → Option S)
    (F : β → List E) :
    ∀ (l : List β),
      (∀ s b, b ∈ l → P s → ∃ s', f s b = some s' ∧ P s' ∧ log s' = log s ++ F b) →
      ∀ s, P s → ∃ s', l.foldlM f s = some s' ∧ P s' ∧ log s' = log s ++ l.flatMap F := by
  intro l
  induction l with
  | nil => intro _ s hs; exact ⟨s, rfl, hs, by simp⟩
  | cons b bs ih =>
    intro h s hs
    obtain ⟨s1, h0, h1, h2⟩ := h s b (List.mem_cons_self _ _) hs
    obtain ⟨s2, h3, h4, h5⟩ :=
      ih (fun s' b' hb' => h s' b' (List.mem_cons_of_mem _ hb')) s1 h1
    refine ⟨s2, ?_, h4, ?_⟩
    · rw [List.foldlM_cons, h0]
      exact h3
    · rw [h5, h2, List.flatMap_cons, List.append_assoc]

/-- The tensors the inner loop of the constructor allocates for state `i`. -/
theorem ctor_inner {T R : Type} [Zero R] (sssr : Bool) (a r : T) (i : Nat) :
    ∀ m j, (((List.range m).foldl
        (fun (p : MultiTensor T R × MultiTensor T R) j =>
          if !sssr || i == j then (p.1.set j a, p.2.set j r) else p)
        (MultiTensor.empty, MultiTensor.empty)).1.tensors_ j
          = if j < m ∧ (!sssr || i == j) = true then some a else none) ∧
      (((List.range m).foldl
        (fun (p : MultiTensor T R × MultiTensor T R) j =>
          if !sssr || i == j then (p.1.set j a, p.2.set j r) else p)
        (MultiTensor.empty, MultiTensor.empty)).2.tensors_ j
          = if j < m ∧ (!sssr || i == j) = true then some r else none) := by
  intro m
  induction m with
  | zero => intro j; simp [MultiTensor.empty]
  | succ m ih =>
    intro j
    rw [List.range_succ, List.foldl_append, List.foldl_cons, List.foldl_nil]
    generalize (List.range m).foldl _ _ = G at ih ⊢
    obtain ⟨ih1, ih2⟩ := ih j
    by_cases hj : j = m
    · subst hj
      by_cases hc : (!sssr || i == j) = true
      · rw [if_pos hc]
        simp [MultiTensor.set, hc]
      · rw [if_neg hc, ih1, ih2]
        simp [hc]
    · have hlt : j < m + 1 ↔ j < m := by omega
      by_cases hc : (!sssr || i == m) = true
      · rw [if_pos hc]
        simp only [MultiTensor.set, Function.update_noteq hj, ih1, ih2, hlt]
        exact ⟨trivial, trivial⟩
      · rw [if_neg hc, ih1, ih2]
        simp only [hlt]
        exact ⟨trivial, trivial⟩

/-- The outer loop of the constructor: entry `i` of each vector is what the turn of `i` made. -/
theorem ctor_outer {T R : Type} [Zero R]
    (tm : Nat → MultiTensor T R × MultiTensor T R)
    (clone : MultiTensor T R → MultiTensor T R) (i : Nat) :
    ∀ k, (((List.range k).foldl
        (fun (acc : (Nat → MultiTensor T R) × (Nat → MultiTensor T R)
            × (Nat → MultiTensor T R)) i =>
          (Function.update acc.1 i (tm i).1, Function.update acc.2.1 i (tm i).2,
            Function.update acc.2.2 i (clone (tm i).2)))
        (fun _ => MultiTensor.empty, fun _ => MultiTensor.empty,
          fun _ => MultiTensor.empty)).1 i
          = if i < k then (tm i).1 else MultiTensor.empty) ∧
      (((List.range k).foldl
        (fun (acc : (Nat → MultiTensor T R) × (Nat → MultiTensor T R)
            × (Nat → MultiTensor T R)) i =>
          (Function.update acc.1 i (tm i).1, Function.update acc.2.1 i (tm i).2,
            Function.update acc.2.2 i (clone (tm i).2)))
        (fun _ => MultiTensor.empty, fun _ => MultiTensor.empty,
          fun _ => MultiTensor.empty)).2.1 i
          = if i < k then (tm i).2 else MultiTensor.empty) := by
  intro k
  induction k with
  | zero => simp
  | succ k ih =>
    rw [List.range_succ, List.foldl_append, List.foldl_cons, List.foldl_nil]
    generalize (List.range k).foldl _ _ = G at ih ⊢
    obtain ⟨ih1, ih2⟩ := ih
    by_cases hi : i = k
    · subst hi
      simp
    · have hlt : i < k + 1 ↔ i < k := by omega
      simp only [Function.update_noteq hi, ih1, ih2, hlt]
      exact ⟨trivial, trivial⟩

/-- The tensors the constructor allocates: amplitude and source tensor `(i, j)` exist exactly
for `i, j < nstates` with SS-SR off or `i = j`. -/
theorem ctor_tensors_alloc {T R : Type} [Zero R] (n : Nat) (sssr : Bool) (a r : T)
    (clone : MultiTensor T R → MultiTensor T R) (i j : Nat) :
    (((ctor_tensors n sssr a r clone).1 i).tensors_ j
      = if i < n ∧ j < n ∧ (!sssr || i == j) = true then some a else none) ∧
    (((ctor_tensors n sssr a r clone).2.1 i).tensors_ j
      = if i < n ∧ j < n ∧ (!sssr || i == j) = true then some r else none) := by
  have ho := ctor_outer (fun i => (List.range n).foldl
      (fun (p : MultiTensor T R × MultiTensor T R) j =>
        if !sssr || i == j then (p.1.set j a, p.2.set j r) else p)
      (MultiTensor.empty, MultiTensor.empty)) clone i n
  have h1 : (ctor_tensors n sssr a r clone).1 i
      = if i < n then ((List.range n).foldl
          (fun (p : MultiTensor T R × MultiTensor T R) j =>
            if !sssr || i == j then (p.1.set j a, p.2.set j r) else p)
          (MultiTensor.empty, MultiTensor.empty)).1 else MultiTensor.empty := ho.1
  have h2 : (ctor_tensors n sssr a r clone).2.1 i
      = if i < n then ((List.range n).foldl
          (fun (p : MultiTensor T R × MultiTensor T R) j =>
            if !sssr || i == j then (p.1.set j a, p.2.set j r) else p)
          (MultiTensor.empty, MultiTensor.empty)).2 else MultiTensor.empty := ho.2
  rw [h1, h2]
  by_cases hi : i < n
  · rw [if_pos hi, if_pos hi, (ctor_inner sssr a r i n j).1, (ctor_inner sssr a r i n j).2]
    simp only [hi, true_and]
  · rw [if_neg hi, if_neg hi]
    simp [hi, MultiTensor.empty]

/-- One step of the source-building loop on allocated sources: it does not fail, and records
the source queue unless SS-SR skips the pair. -/
theorem source_step_spec {T R : Type} (sops : SolveOps T R)
    (base0 : CASPT2 (MultiTensor T R) R) (istate jst : Nat) (st : SolveState T R)
    (hi : istate < base0.nstates_) (hj : jst < base0.nstates_)
    (hb : st.base = base0) (hal : sources_allocated st) :
    ∃ st', source_step sops istate st jst = some st' ∧
      (st'.base = base0 ∧ sources_allocated st') ∧
      st'.runs = st.runs
        ++ (if base0.sssr && (jst != istate) then [] else [QueueRun.source jst istate false]) := by
  subst hb
  unfold source_step
  by_cases hc : (st.base.sssr && (jst != istate)) = true
  · rw [if_pos hc, if_pos hc]
    exact ⟨st, rfl, ⟨rfl, hal⟩, by simp⟩
  · rw [if_neg hc, if_neg hc]
    have hneed : (!st.base.sssr || istate == jst) = true := by
      cases hs : st.base.sssr
      · simp
      · rw [hs] at hc
        simp only [Bool.true_and, bne_iff_ne, ne_eq, not_not] at hc
        simp [hc]
    have hsome := hal istate jst hi hj hneed
    cases htj : (st.sall_ istate).tensors_ jst with
    | none => rw [htj] at hsome; simp at hsome
    | some s0 =>
      refine ⟨_, rfl, ⟨rfl, ?_⟩, rfl⟩
      intro i j hi' hj' hij
      have h0 := hal i j hi' hj' hij
      simp only
      by_cases hii : i = istate
      · subst hii
        rw [Function.update_same]
        simp only [MultiTensor.set]
        by_cases hjj : j = jst
        · subst hjj
          simp
        · rw [Function.update_noteq hjj]
          exact h0
      · rw [Function.update_noteq hii]
        exact h0

/-- The source-building loop on allocated sources: it does not fail and drains the source
queues `source_runs`. -/
theorem source_loop_spec {T R : Type} [Zero R] (sops : SolveOps T R) (st : SolveState T R)
    (hal : sources_allocated st) :
    ∃ st', source_loop sops st = some st' ∧ st'.base = st.base ∧ sources_allocated st' ∧
      st'.runs = st.runs ++ source_runs st.base.nstates_ st.base.sssr := by
  obtain ⟨st', h1, h2, h3⟩ := foldlM_log
    (fun s : SolveState T R => s.base = st.base ∧ sources_allocated s)
    (fun s => s.runs)
    (fun (s : SolveState T R) istate =>
      (List.range s.base.nstates_).foldlM (source_step sops istate)
        { s with
          t2all_ := Function.update s.t2all_ istate ((s.t2all_ istate).set_fac istate 0)
          sall_ := Function.update s.sall_ istate ((s.sall_ istate).set_fac istate 0) })
    (fun istate =>
      ((List.range st.base.nstates_).filter (fun jst => !(st.base.sssr && (jst != istate)))).map
        (fun jst => QueueRun.source jst istate false))
    (List.range st.base.nstates_)
    (by
      intro s istate hmem hP
      have hi : istate < st.base.nstates_ := List.mem_range.mp hmem
      obtain ⟨hb, hs⟩ := hP
      have hP1 : ({ s with
          t2all_ := Function.update s.t2all_ istate ((s.t2all_ istate).set_fac istate 0)
          sall_ := Function.update s.sall_ istate ((s.sall_ istate).set_fac istate 0) }
            : SolveState T R).base = st.base ∧
          sources_allocated ({ s with
            t2all_ := Function.update s.t2all_ istate ((s.t2all_ istate).set_fac istate 0)
            sall_ := Function.update s.sall_ istate ((s.sall_ istate).set_fac istate 0) }
              : SolveState T R) := by
        refine ⟨hb, ?_⟩
        intro i j hi' hj' hij
        have h0 := hs i j hi' hj' hij
        simp only
        by_cases hii : i = istate
        · subst hii
          rw [Function.update_same]
          exact h0
        · rw [Function.update_noteq hii]
          exact h0
      obtain ⟨s', g1, g2, g3⟩ := foldlM_log
        (fun s : SolveState T R => s.base = st.base ∧ sources_allocated s)
        (fun s => s.runs) (source_step sops istate)
        (fun jst =>
          if st.base.sssr && (jst != istate) then [] else [QueueRun.source jst istate false])
        (List.range st.base.nstates_)
        (fun s2 jst hmem2 hP2 =>
          source_step_spec sops st.base istate jst s2 hi (List.mem_range.mp hmem2) hP2.1 hP2.2)
        _ hP1
      refine ⟨s', ?_, g2, ?_⟩
      · have hn : s.base.nstates_ = st.base.nstates_ := by rw [hb]
        show (List.range s.base.nstates_).foldlM (source_step sops istate) _ = some s'
        rw [hn]
        exact g1
      · show s'.runs = s.runs ++ _
        rw [g3, flatMap_ite_singleton])
    st ⟨rfl, hal⟩
  exact ⟨st', h1, h2.1, h2.2, h3⟩

/-- The loop that collects the sources of the ket `ist`, in closed form. -/
theorem sist_fold {T R : Type} (sops : SolveOps T R) (ist : Nat) (st : SolveState T R)
    (m0 : MultiTensor T R) :
    ∀ k, (List.range k).foldl (sist_step sops ist) (st, m0)
      = ({ st with
            runs := st.runs ++ ((List.range k).filter
              (fun jst => ((st.sall_ ist).tensors_ jst).isNone)).map
                (fun jst => QueueRun.source jst ist true) },
          { m0 with
            tensors_ := fun jst =>
              if jst < k then
                some (match (st.sall_ ist).tensors_ jst with
                  | some x => x
                  | none => sops.source_queue jst ist sops.init_residual)
              else m0.tensors_ jst }) := by
  intro k
  induction k with
  | zero => simp
  | succ k ih =>
    rw [List.range_succ, List.foldl_append, ih, List.foldl_cons, List.foldl_nil]
    have hfun : ∀ v : T, Function.update
        (fun jst => if jst < k then
            some (match (st.sall_ ist).tensors_ jst with
              | some x => x
              | none => sops.source_queue jst ist sops.init_residual)
          else m0.tensors_ jst) k (some v)
        = fun jst => if jst < k + 1 then
            some (if jst = k then v else
              match (st.sall_ ist).tensors_ jst with
              | some x => x
              | none => sops.source_queue jst ist sops.init_residual)
          else m0.tensors_ jst := by
      intro v
      funext jst
      by_cases hj : jst = k
      · subst hj
        simp
      · have hlt : jst < k + 1 ↔ jst < k := by omega
        rw [Function.update_noteq hj]
        simp only [hlt, hj, if_false]
    unfold sist_step
    simp only
    cases hk : (st.sall_ ist).tensors_ k with
    | some x =>
      refine Prod.ext ?_ ?_
      · simp [List.filter_append, hk]
      · simp only [MultiTensor.set, hfun]
        congr 1
        funext jst
        by_cases hj : jst = k
        · subst hj
          simp [hk]
        · simp [hj]
    | none =>
      refine Prod.ext ?_ ?_
      · simp [List.filter_append, hk]
      · simp only [MultiTensor.set, hfun]
        congr 1
        funext jst
        by_cases hj : jst = k
        · subst hj
          simp [hk]
        · simp [hj]

/-- The loop that fills column `ist` of `heff_`, in closed form. -/
theorem heff_fold {T R Solver : Type} [LinearOrderedField R]
    (ops : Ops (MultiTensor T R) R Solver) (ist : Nat) (sist : MultiTensor T R)
    (st : SolveState T R) :
    ∀ m, (List.range m).foldl (heff_step ops ist sist) st
      = { st with
          heff_ := fun j i =>
            if i = ist ∧ j < m then
              (if ist = j then st.pt2energy_ ist
                else ops.dot_product_transpose sist (st.t2all_ j) + st.eref_ j ist)
            else st.heff_ j i } := by
  intro m
  induction m with
  | zero => simp
  | succ m ih =>
    rw [List.range_succ, List.foldl_append, ih, List.foldl_cons, List.foldl_nil]
    unfold heff_step
    simp only
    by_cases hm : ist = m
    · subst hm
      rw [if_pos rfl]
      congr 1
      funext j i
      by_cases hj : j = ist
      · subst hj
        by_cases hi : i = j
        · subst hi
          simp
        · simp [Function.update_noteq hi, hi]
      · have hlt : j < ist + 1 ↔ j < ist := by omega
        simp [Function.update_noteq hj, hlt]
    · rw [if_neg hm]
      congr 1
      funext j i
      by_cases hj : j = m
      · subst hj
        by_cases hi : i = ist
        · subst hi
          simp [hm]
        · simp [Function.update_noteq hi, hi]
      · have hlt : j < m + 1 ↔ j < m := by omega
        simp [Function.update_noteq hj, hlt]

/-- The turn of the ket `ist` in the multi-state part of `solve()`, in closed form: the source
queues of the pairs not allocated are drained, and column `ist` of `heff_` is filled. -/
theorem heff_outer_step {T R Solver : Type} [LinearOrderedField R]
    (ops : Ops (MultiTensor T R) R Solver) (sops : SolveOps T R) (st : SolveState T R)
    (ist : Nat) :
    (List.range ((List.range st.base.nstates_).foldl (sist_step sops ist)
          (st, MultiTensor.empty)).1.base.nstates_).foldl
        (heff_step ops ist ((List.range st.base.nstates_).foldl (sist_step sops ist)
          (st, MultiTensor.empty)).2)
        ((List.range st.base.nstates_).foldl (sist_step sops ist) (st, MultiTensor.empty)).1
      = { st with
          runs := st.runs ++ ((List.range st.base.nstates_).filter
            (fun jst => ((st.sall_ ist).tensors_ jst).isNone)).map
              (fun jst => QueueRun.source jst ist true)
          heff_ := fun j i =>
            if i = ist ∧ j < st.base.nstates_ then heff_raw ops sops st j i
            else st.heff_ j i } := by
  rw [sist_fold, heff_fold]
  simp only
  congr 1
  funext j i
  by_cases hc : i = ist ∧ j < st.base.nstates_
  · obtain ⟨hi, hj⟩ := hc
    subst hi
    simp only [hj, and_self, if_true, heff_raw]
    rfl
  · rw [if_neg hc, if_neg hc]

/-- The loop over the kets of the multi-state part of `solve()`, in closed form. -/
theorem heff_loop {T R Solver : Type} [LinearOrderedField R]
    (ops : Ops (MultiTensor T R) R Solver) (sops : SolveOps T R) (st : SolveState T R) :
    ∀ k, (List.range k).foldl
        (fun (st : SolveState T R) ist =>
          let acc := (List.range st.base.nstates_).foldl (sist_step sops ist)
            (st, MultiTensor.empty)
          (List.range acc.1.base.nstates_).foldl (heff_step ops ist acc.2) acc.1)
        st
      = { st with
          runs := st.runs ++ (List.range k).flatMap (fun ist =>
            ((List.range st.base.nstates_).filter
              (fun jst => ((st.sall_ ist).tensors_ jst).isNone)).map
                (fun jst => QueueRun.source jst ist true))
          heff_ := fun j i =>
            if i < k ∧ j < st.base.nstates_ then heff_raw ops sops st j i
            else st.heff_ j i } := by
  intro k
  induction k with
  | zero => simp
  | succ k ih =>
    rw [List.range_succ, List.foldl_append, ih, List.foldl_cons, List.foldl_nil]
    simp only
    rw [heff_outer_step]
    simp only [List.flatMap_append, List.flatMap_cons, List.flatMap_nil, List.append_nil,
      List.append_assoc]
    congr 1
    funext j i
    by_cases hi : i = k
    · subst hi
      by_cases hj : j < st.base.nstates_
      · simp [hj, heff_raw]
      · simp [hj]
    · have hlt : i < k + 1 ↔ i < k := by omega
      simp only [hi, false_and, if_false, hlt]

/-- The multi-state part of `solve()` up to `symmetrize()`, in closed form. -/
theorem heff_build_eq {T R Solver : Type} [LinearOrderedField R]
    (ops : Ops (MultiTensor T R) R Solver) (sops : SolveOps T R) (st : SolveState T R) :
    heff_build ops sops st
      = { st with
          runs := st.runs ++ ms_source_runs st.base.nstates_ st.sall_
          heff_ := symmetrize st.base.nstates_ (fun j i =>
            if i < st.base.nstates_ ∧ j < st.base.nstates_ then heff_raw ops sops st j i
            else 0) } := by
  unfold heff_build
  simp only
  rw [heff_loop]
  rfl

theorem mem_source_runs (n : Nat) (sssr : Bool) (jst istate : Nat) (fresh : Bool) :
    QueueRun.source jst istate fresh ∈ source_runs n sssr
      ↔ fresh = false ∧ istate < n ∧ jst < n ∧ (!sssr || istate == jst) = true := by
  unfold source_runs
  simp only [List.mem_flatMap, List.mem_map, List.mem_filter, List.mem_range,
    QueueRun.source.injEq]
  constructor
  · rintro ⟨a, ha, b, ⟨hb, hc⟩, h1, h2, h3⟩
    subst h1; subst h2
    refine ⟨h3.symm, ha, hb, ?_⟩
    cases sssr
    · simp
    · simp only [Bool.true_and, Bool.not_eq_true', bne_eq_false_iff_eq] at hc
      simp [hc]
  · rintro ⟨h0, h1, h2, h3⟩
    refine ⟨istate, h1, jst, ⟨h2, ?_⟩, rfl, rfl, h0.symm⟩
    cases sssr
    · simp
    · simp only [Bool.not_true, Bool.false_or, beq_iff_eq] at h3
      simp [h3]

theorem mem_ms_source_runs {T R : Type} (n : Nat) (sall_ : Nat → MultiTensor T R)
    (jst ist : Nat) (fresh : Bool) :
    QueueRun.source jst ist fresh ∈ ms_source_runs n sall_
      ↔ fresh = true ∧ ist < n ∧ jst < n ∧ (sall_ ist).tensors_ jst = none := by
  unfold ms_source_runs
  simp only [List.mem_flatMap, List.mem_map, List.mem_filter, List.mem_range,
    QueueRun.source.injEq, Option.isNone_iff_eq_none]
  constructor
  · rintro ⟨a, ha, b, ⟨hb, hc⟩, h1, h2, h3⟩
    subst h1; subst h2
    exact ⟨h3.symm, ha, hb, hc⟩
  · rintro ⟨h0, h1, h2, h3⟩
    exact ⟨ist, h1, jst, ⟨h2, h3⟩, rfl, rfl, h0.symm⟩

theorem filter_beq_range (i : Nat) :
    ∀ n, (List.range n).filter (fun j => !(true && (j != i))) = if i < n then [i] else [] := by
  intro n
  induction n with
  | zero => simp
  | succ n ih =>
    rw [List.range_succ, List.filter_append, ih]
    by_cases hi : i = n
    · subst hi
      simp
    · have hlt : i < n + 1 ↔ i < n := by omega
      have hne : (n != i) = true := by simpa using fun h => hi h.symm
      simp only [hlt, List.filter_cons, List.filter_nil, Bool.true_and, hne, Bool.not_true]
      simp

theorem flatMap_congr_mem {α β : Type} (f g : α → List β) :
    ∀ (l : List α), (∀ a ∈ l, f a = g a) → l.flatMap f = l.flatMap g := by
  intro l
  induction l with
  | nil => intro _; rfl
  | cons a as ih =>
    intro h
    rw [List.flatMap_cons, List.flatMap_cons, h a (List.mem_cons_self _ _),
      ih (fun b hb => h b (List.mem_cons_of_mem _ hb))]

theorem flatMap_singleton_map {α β : Type} (e : α → β) (l : List α) :
    l.flatMap (fun a => [e a]) = l.map e := by
  induction l with
  | nil => rfl
  | cons a as ih => rw [List.flatMap_cons, ih]; rfl

theorem length_flatMap_map_range {α β : Type} (n : Nat) (g : α → Nat → β) (l : List α) :
    (l.flatMap (fun a => (List.range n).map (g a))).length = l.length * n := by
  induction l with
  | nil => simp
  | cons a as ih =>
    rw [List.flatMap_cons, List.length_append, ih, List.length_map, List.length_range,
      List.length_cons, Nat.succ_mul, Nat.add_comm]

/-- With SS-SR off the source-building loop drains the queues of all ordered pairs. -/
theorem source_runs_off (n : Nat) :
    source_runs n false
      = (List.range n).flatMap (fun istate =>
          (List.range n).map (fun jst => QueueRun.source jst istate false)) := by
  unfold source_runs
  apply flatMap_congr_mem
  intro istate _
  congr 1
  simp

/-- With SS-SR on the source-building loop drains the queues of the diagonal pairs. -/
theorem source_runs_on (n : Nat) :
    source_runs n true = (List.range n).map (fun i => QueueRun.source i i false) := by
  unfold source_runs
  rw [← flatMap_singleton_map]
  apply flatMap_congr_mem
  intro istate hmem
  rw [filter_beq_range, if_pos (List.mem_range.mp hmem)]
  rfl

/-! ## The claims on `solve()` -/

/-- C12 as stated fails in multi-state mode: with SS-SR on, two states and the multi-state
option on, `solve()` drains the source queues of the two diagonal pairs in the source-building
loop and then, in the multi-state part, those of the off-diagonal pairs (bra 1, ket 0) and
(bra 0, ket 1) as well. -/
theorem solve_sssr_ms_source_runs :
    (demo_solve_state 2 true true 0).base.sssr = true ∧
    (solve demo_mt_ops demo_sops 5 (demo_solve_state 2 true true 0)).map (fun st => st.runs)
      = some [QueueRun.source 0 0 false, QueueRun.source 1 1 false,
          QueueRun.source 1 0 true, QueueRun.source 0 1 true] := by
  refine ⟨rfl, ?_⟩
  norm_num [solve, source_loop, source_step, linear_phase, solve_linear, solve_state,
    energy_loop, energy_step, ms_phase, heff_build, sist_step, heff_step, energy_copy,
    demo_solve_state, demo_mt_ops, demo_sops, ctor_tensors, List.range_succ, Function.update,
    MultiTensor.set, MultiTensor.set_fac, MultiTensor.empty]

/-- C12, amended: on the tensors the constructor made, the source-building loop of `solve()`
(lines 105-118) does not meet a null source tensor and drains a source queue, on
`sall_[istate]->at(jst)`, for exactly the pairs for which the constructor allocated the
amplitude and the source tensor: all `nstates^2` ordered pairs with SS-SR off, the `nstates`
diagonal pairs with SS-SR on.  The multi-state part of `solve()` (lines 161-174) drains one
more source queue, on a fresh tensor, for every pair of states whose source tensor is not
allocated. -/
theorem solve_source_pairs {T R Solver : Type} [LinearOrderedField R]
    (ops : Ops (MultiTensor T R) R Solver) (sops : SolveOps T R) (st : SolveState T R)
    (a r : T) (clone : MultiTensor T R → MultiTensor T R)
    (hs : st.sall_ = (ctor_tensors st.base.nstates_ st.base.sssr a r clone).2.1) :
    (∃ st', source_loop sops st = some st' ∧
      st'.runs = st.runs ++ source_runs st.base.nstates_ st.base.sssr) ∧
    (∀ istate jst, QueueRun.source jst istate false
        ∈ source_runs st.base.nstates_ st.base.sssr
      ↔ (((ctor_tensors st.base.nstates_ st.base.sssr a r clone).2.1 istate).tensors_
            jst).isSome = true ∧
        (((ctor_tensors st.base.nstates_ st.base.sssr a r clone).1 istate).tensors_
            jst).isSome = true) ∧
    (st.base.sssr = false →
      source_runs st.base.nstates_ st.base.sssr
        = (List.range st.base.nstates_).flatMap (fun istate =>
            (List.range st.base.nstates_).map (fun jst => QueueRun.source jst istate false)) ∧
      (source_runs st.base.nstates_ st.base.sssr).length
        = st.base.nstates_ * st.base.nstates_) ∧
    (st.base.sssr = true →
      source_runs st.base.nstates_ st.base.sssr
        = (List.range st.base.nstates_).map (fun i => QueueRun.source i i false) ∧
      (source_runs st.base.nstates_ st.base.sssr).length = st.base.nstates_) ∧
    (∀ st2 : SolveState T R,
      (heff_build ops sops st2).runs
        = st2.runs ++ ms_source_runs st2.base.nstates_ st2.sall_ ∧
      ∀ ist jst, QueueRun.source jst ist true ∈ ms_source_runs st2.base.nstates_ st2.sall_
        ↔ ist < st2.base.nstates_ ∧ jst < st2.base.nstates_ ∧
          (st2.sall_ ist).tensors_ jst = none) := by
  have hal : sources_allocated st := by
    intro i j hi hj hij
    rw [hs, (ctor_tensors_alloc _ _ a r clone i j).2, if_pos ⟨hi, hj, hij⟩]
    rfl
  refine ⟨?_, ?_, ?_, ?_, ?_⟩
  · obtain ⟨st', h1, _, _, h4⟩ := source_loop_spec sops st hal
    exact ⟨st', h1, h4⟩
  · intro istate jst
    rw [mem_source_runs, (ctor_tensors_alloc _ _ a r clone istate jst).1,
      (ctor_tensors_alloc _ _ a r clone istate jst).2]
    by_cases hc : istate < st.base.nstates_ ∧ jst < st.base.nstates_
        ∧ (!st.base.sssr || istate == jst) = true
    · rw [if_pos hc, if_pos hc]
      simp only [Option.isSome_some, and_self, iff_true]
      exact ⟨trivial, hc⟩
    · rw [if_neg hc, if_neg hc]
      simp only [Option.isSome_none, Bool.false_eq_true, and_self, iff_false]
      exact fun h => hc h.2
  · intro hoff
    rw [hoff, source_runs_off]
    exact ⟨rfl, by rw [length_flatMap_map_range, List.length_range]⟩
  · intro hon
    rw [hon, source_runs_on]
    exact ⟨rfl, by rw [List.length_map, List.length_range]⟩
  · intro st2
    refine ⟨by rw [heff_build_eq], ?_⟩
    intro ist jst
    rw [mem_ms_source_runs]
    simp

/-- Witness of the amended C12: two states with SS-SR on, as the constructor leaves them. -/
theorem solve_source_pairs_witness :
    (demo_solve_state 2 true true 0).sall_
      = (ctor_tensors (demo_solve_state 2 true true 0).base.nstates_
          (demo_solve_state 2 true true 0).base.sssr 0 0 (fun m => m)).2.1 ∧
    ∃ st', source_loop demo_sops (demo_solve_state 2 true true 0) = some st' ∧
      st'.runs = (demo_solve_state 2 true true 0).runs
        ++ source_runs (demo_solve_state 2 true true 0).base.nstates_
            (demo_solve_state 2 true true 0).base.sssr :=
  ⟨rfl, (solve_source_pairs demo_mt_ops demo_sops (demo_solve_state 2 true true 0) 0 0
    (fun m => m) rfl).1⟩

/-- C13: multi-state effective Hamiltonian.  With the multi-state option on and more than one
state, the matrix `heff_` that `solve()` diagonalises is symmetric; its diagonal element
`(i, i)` is the single-state energy `pt2energy_[i]`; its off-diagonal element `(j, i)` is the
average of `<s_i|t_j> + eref(j, i)` and `<s_j|t_i> + eref(i, j)`, where `s_i` is the source
collection `sist` of the ket `i` (the allocated tensors of `sall_[i]`) and `t_j = t2all_[j]`;
afterwards `pt2energy_` holds the eigenvalues that `diagonalize` returned for that matrix, and
`energy_` is a copy of `pt2energy_`. -/
theorem ms_effective_hamiltonian {T R Solver : Type} [LinearOrderedField R]
    (ops : Ops (MultiTensor T R) R Solver) (sops : SolveOps T R) (st : SolveState T R)
    (hms : st.do_ms = true) (hn : 1 < st.base.nstates_) :
    (∀ i j, (heff_build ops sops st).heff_ i j = (heff_build ops sops st).heff_ j i) ∧
    (∀ i, i < st.base.nstates_ → (heff_build ops sops st).heff_ i i = st.pt2energy_ i) ∧
    (∀ i j, i < st.base.nstates_ → j < st.base.nstates_ → i ≠ j →
      (heff_build ops sops st).heff_ j i
        = ((ops.dot_product_transpose (sist_of sops st.base.nstates_ st.sall_ i) (st.t2all_ j)
              + st.eref_ j i)
            + (ops.dot_product_transpose (sist_of sops st.base.nstates_ st.sall_ j)
                (st.t2all_ i) + st.eref_ i j)) / 2) ∧
    (∀ i jst x, jst < st.base.nstates_ → (st.sall_ i).tensors_ jst = some x →
      (sist_of sops st.base.nstates_ st.sall_ i).tensors_ jst = some x) ∧
    (∀ i, i < st.base.nstates_ →
      (ms_phase ops sops st).pt2energy_ i
        = (sops.diagonalize st.base.nstates_ (heff_build ops sops st).heff_).2 i) ∧
    (energy_copy (ms_phase ops sops st)).pt2energy_ = (ms_phase ops sops st).pt2energy_ ∧
    (energy_copy (ms_phase ops sops st)).base.energy_ = (ms_phase ops sops st).pt2energy_ := by
  have hh : (heff_build ops sops st).heff_
      = symmetrize st.base.nstates_ (fun j i =>
          if i < st.base.nstates_ ∧ j < st.base.nstates_ then heff_raw ops sops st j i
          else 0) := by
    rw [heff_build_eq]
  have hbase : (heff_build ops sops st).base.nstates_ = st.base.nstates_ := by
    rw [heff_build_eq]
  refine ⟨?_, ?_, ?_, ?_, ?_, rfl, rfl⟩
  · intro i j
    rw [hh]
    unfold symmetrize
    by_cases hc : i < st.base.nstates_ ∧ j < st.base.nstates_ ∧ i ≠ j
    · have hc' : j < st.base.nstates_ ∧ i < st.base.nstates_ ∧ j ≠ i :=
        ⟨hc.2.1, hc.1, fun h => hc.2.2 h.symm⟩
      rw [if_pos hc, if_pos hc', add_comm]
    · have hc' : ¬ (j < st.base.nstates_ ∧ i < st.base.nstates_ ∧ j ≠ i) :=
        fun h => hc ⟨h.2.1, h.1, fun e => h.2.2 e.symm⟩
      rw [if_neg hc, if_neg hc']
      by_cases hij : i = j
      · subst hij
        rfl
      · have h1 : ¬ (j < st.base.nstates_ ∧ i < st.base.nstates_) :=
          fun h => hc ⟨h.2, h.1, hij⟩
        have h2 : ¬ (i < st.base.nstates_ ∧ j < st.base.nstates_) :=
          fun h => hc ⟨h.1, h.2, hij⟩
        beta_reduce
        rw [if_neg h1, if_neg h2]
  · intro i hi
    rw [hh]
    unfold symmetrize
    have hc : ¬ (i < st.base.nstates_ ∧ i < st.base.nstates_ ∧ i ≠ i) := fun h => h.2.2 rfl
    rw [if_neg hc]
    beta_reduce
    rw [if_pos ⟨hi, hi⟩]
    simp [heff_raw]
  · intro i j hi hj hij
    rw [hh]
    unfold symmetrize
    have hc : j < st.base.nstates_ ∧ i < st.base.nstates_ ∧ j ≠ i :=
      ⟨hj, hi, fun h => hij h.symm⟩
    rw [if_pos hc]
    beta_reduce
    rw [if_pos ⟨hi, hj⟩, if_pos ⟨hj, hi⟩]
    unfold heff_raw
    rw [if_neg hij, if_neg (fun h => hij h.symm)]
  · intro i jst x hj hx
    unfold sist_of
    simp only [hj, if_true, hx]
  · intro i hi
    unfold ms_phase
    have hcond : (st.do_ms && decide (1 < st.base.nstates_)) = true := by
      simp [hms, hn]
    rw [if_pos hcond]
    simp only [hbase, hi, if_true]

/-- Witness of C13: two states with SS-SR on and the multi-state option on. -/
theorem ms_effective_hamiltonian_witness :
    (demo_solve_state 2 true true 0).do_ms = true ∧
    1 < (demo_solve_state 2 true true 0).base.nstates_ ∧
    (∀ i j, (heff_build demo_mt_ops demo_sops (demo_solve_state 2 true true 0)).heff_ i j
      = (heff_build demo_mt_ops demo_sops (demo_solve_state 2 true true 0)).heff_ j i) :=
  ⟨rfl, by decide,
    (ms_effective_hamiltonian demo_mt_ops demo_sops (demo_solve_state 2 true true 0) rfl
      (by decide)).1⟩

/-! ## Lemmas on the energy loop of `solve()` and on the zeroth-order energy -/

/-- The loop over the kets `ist` of the norm loops, for the bra `jst`, in closed form. -/
theorem norm_inner_fold {T R : Type} [LinearOrderedField R] (sops : SolveOps T R)
    (istate jst : Nat) (st : SolveState T R) (acc : T × R) :
    ∀ k, (List.range k).foldl (norm_step sops istate jst) (st, acc)
      = ({ st with
            runs := st.runs ++ ((List.range k).filter
              (fun ist => !(st.base.sssr && (jst != istate || ist != istate)))).map
                (fun ist => QueueRun.norm jst ist istate) },
          (((List.range k).filter
              (fun ist => !(st.base.sssr && (jst != istate || ist != istate)))).map
                (fun ist => (jst, ist))).foldl (norm_acc sops (st.t2all_ istate)) acc) := by
  intro k
  induction k with
  | zero => simp
  | succ k ih =>
    rw [List.range_succ, List.foldl_append, ih, List.foldl_cons, List.foldl_nil]
    unfold norm_step
    simp only
    by_cases hc : (st.base.sssr && (jst != istate || k != istate)) = true
    · rw [if_pos hc]
      generalize hC : (fun ist => !(st.base.sssr && (jst != istate || ist != istate))) = C
      have hCk : C k = false := by
        rw [← hC]
        simp only [hc, Bool.not_true]
      rw [List.filter_append, List.filter_cons, List.filter_nil]
      simp [hCk]
    · rw [if_neg hc]
      have hc' : (st.base.sssr && (jst != istate || k != istate)) = false :=
        Bool.eq_false_iff.mpr hc
      generalize hC : (fun ist => !(st.base.sssr && (jst != istate || ist != istate))) = C
      have hCk : C k = true := by
        rw [← hC]
        simp only [hc', Bool.not_false]
      rw [List.filter_append, List.filter_cons, List.filter_nil]
      simp [hCk, List.foldl_append, norm_acc]

/-- The two norm loops of the turn of state `istate`, in closed form. -/
theorem norm_outer_fold {T R : Type} [LinearOrderedField R] (sops : SolveOps T R)
    (istate : Nat) (st : SolveState T R) (acc : T × R) :
    ∀ k, (List.range k).foldl
        (fun (a : SolveState T R × T × R) jst =>
          (List.range a.1.base.nstates_).foldl (norm_step sops istate jst) a)
        (st, acc)
      = ({ st with
            runs := st.runs ++ (List.range k).flatMap (fun jst =>
              ((List.range st.base.nstates_).filter
                (fun ist => !(st.base.sssr && (jst != istate || ist != istate)))).map
                  (fun ist => QueueRun.norm jst ist istate)) },
          ((List.range k).flatMap (fun jst =>
              ((List.range st.base.nstates_).filter
                (fun ist => !(st.base.sssr && (jst != istate || ist != istate)))).map
                  (fun ist => (jst, ist)))).foldl (norm_acc sops (st.t2all_ istate)) acc) := by
  intro k
  induction k with
  | zero => simp
  | succ k ih =>
    rw [List.range_succ, List.foldl_append, ih, List.foldl_cons, List.foldl_nil]
    simp only
    rw [norm_inner_fold]
    simp only [List.flatMap_append, List.flatMap_cons, List.flatMap_nil, List.append_nil,
      List.append_assoc, List.foldl_append]

/-- The turn of state `istate` in the energy loop of `solve()`, in closed form. -/
theorem energy_step_eq {T R : Type} [LinearOrderedField R] (sops : SolveOps T R)
    (st : SolveState T R) (istate : Nat) :
    energy_step sops st istate
      = { st with
          runs := st.runs ++ (if st.base.shift = 0 then []
            else (norm_pairs st.base.nstates_ st.base.sssr istate).map
              (fun p => QueueRun.norm p.1 p.2 istate))
          pt2energy_ := Function.update st.pt2energy_ istate
            (st.base.energy_ istate + st.eref_ istate istate
              - st.base.shift * norm_sum sops st istate) } := by
  unfold energy_step
  by_cases hs : st.base.shift = 0
  · rw [if_pos hs, if_pos hs, hs]
    simp
  · rw [if_neg hs, if_neg hs]
    simp only
    rw [norm_outer_fold]
    simp only [norm_sum, norm_pairs, List.map_flatMap, List.map_map]
    rfl

/-- A loop run with two step functions that agree on the states of an invariant. -/
theorem foldl_congr_inv {S β : Type} (P : S → Prop) (f g : S → β → S)
    (hfg : ∀ s b, P s → f s b = g s b) (hP : ∀ s b, P s → P (g s b)) :
    ∀ (l : List β) (s : S), P s → l.foldl f s = l.foldl g s := by
  intro l
  induction l with
  | nil => intro s _; rfl
  | cons b bs ih =>
    intro s hs
    rw [List.foldl_cons, List.foldl_cons, hfg s b hs]
    exact ih (g s b) (hP s b hs)

/-- The residual phase of state `i` calls the residual queues with the zeroth-order energy
`e0all_[i] - shift` only: replacing the queues by others that do the same at this energy
changes nothing. -/
theorem residual_phase_e0 {MT R Solver : Type} [LinearOrderedField R]
    (ops : Ops MT R Solver) (rp : Nat → Nat → R → MT → MT → MT) (i : Nat)
    (st : LoopState MT R Solver)
    (h : ∀ jst ist t r, rp jst ist (st.self.e0all_ i - st.self.shift) t r
      = ops.residual_pair jst ist (st.self.e0all_ i - st.self.shift) t r) :
    residual_phase { ops with residual_pair := rp } i st = residual_phase ops i st := by
  unfold residual_phase
  simp only
  congr 1
  apply foldl_congr_inv
    (fun self : CASPT2 MT R => self.e0all_ = st.self.e0all_ ∧ self.shift = st.self.shift)
  · intro self jst hself
    apply foldl_congr_inv
      (fun self : CASPT2 MT R => self.e0all_ = st.self.e0all_ ∧ self.shift = st.self.shift)
    · intro self1 ist hself1
      by_cases hc : (self1.sssr && (jst != i || ist != i)) = true
      · rw [if_pos hc, if_pos hc]
      · rw [if_neg hc, if_neg hc, hself1.1, hself1.2, h]
    · intro self1 ist hself1
      split
      · exact hself1
      · exact hself1
    · exact hself
  · intro self jst hself
    apply foldl_preserves
      (fun self : CASPT2 MT R => self.e0all_ = st.self.e0all_ ∧ self.shift = st.self.shift)
    · intro self1 ist hself1
      split
      · exact hself1
      · exact hself1
    · exact hself
  · exact ⟨rfl, rfl⟩

/-- The energy loop of `solve()`, in closed form. -/
theorem energy_loop_fold {T R : Type} [LinearOrderedField R] (sops : SolveOps T R)
    (st : SolveState T R) :
    ∀ k, (List.range k).foldl (energy_step sops) st
      = { st with
          runs := st.runs ++ (List.range k).flatMap (fun istate =>
            if st.base.shift = 0 then []
            else (norm_pairs st.base.nstates_ st.base.sssr istate).map
              (fun p => QueueRun.norm p.1 p.2 istate))
          pt2energy_ := fun i =>
            if i < k then
              st.base.energy_ i + st.eref_ i i - st.base.shift * norm_sum sops st i
            else st.pt2energy_ i } := by
  intro k
  induction k with
  | zero => simp
  | succ k ih =>
    rw [List.range_succ, List.foldl_append, ih, List.foldl_cons, List.foldl_nil,
      energy_step_eq]
    simp only [List.flatMap_append, List.flatMap_cons, List.flatMap_nil, List.append_nil,
      List.append_assoc]
    congr 1
    funext i
    by_cases hi : i = k
    · subst hi
      simp [norm_sum]
    · have hlt : i < k + 1 ↔ i < k := by omega
      simp only [Function.update_noteq hi, hlt]

theorem mem_norm_pairs (n : Nat) (sssr : Bool) (istate jst ist : Nat) :
    (jst, ist) ∈ norm_pairs n sssr istate
      ↔ jst < n ∧ ist < n ∧ (sssr = true → jst = istate ∧ ist = istate) := by
  unfold norm_pairs
  simp only [List.mem_flatMap, List.mem_map, List.mem_filter, List.mem_range, Prod.mk.injEq]
  constructor
  · rintro ⟨a, ha, b, ⟨hb, hc⟩, h1, h2⟩
    subst h1; subst h2
    refine ⟨ha, hb, ?_⟩
    intro hs
    rw [hs] at hc
    simpa using hc
  · rintro ⟨h1, h2, h3⟩
    refine ⟨jst, h1, ist, ⟨h2, ?_⟩, rfl, rfl⟩
    cases hs : sssr
    · simp
    · have := h3 hs
      simp [this.1, this.2]

/-- C19: level shift.  In `solve_linear` the zeroth-order energy of state `i` is
`e0all_[i] - shift`: `e0_` is set to it before the iterations, and the residual queues are
called with this value only.  In `solve()` the single-state energy `pt2energy_[i]` of every
state `i` is `energy_[i] + eref(i,i) - shift * norm_i`, where `norm_i` is the sum of
`<n|t_i[bra]>` over the processed (bra, ket) pairs of states (all pairs with SS-SR off, the
pair `(i, i)` with SS-SR on), one norm queue being drained for each of them; for `shift = 0`
the energy is exactly `energy_[i] + eref(i,i)` and no norm queue is drained. -/
theorem level_shift {T R Solver : Type} [LinearOrderedField R]
    (ops : Ops (MultiTensor T R) R Solver) (sops : SolveOps T R) :
    (∀ (s : Nat → MultiTensor T R) (acc : CASPT2 (MultiTensor T R) R
        × (Nat → MultiTensor T R) × Bool) (i : Nat),
      (state_start ops s acc i).self.e0_ = acc.1.e0all_ i - acc.1.shift) ∧
    (∀ (rp : Nat → Nat → R → MultiTensor T R → MultiTensor T R → MultiTensor T R) (i : Nat)
        (st : LoopState (MultiTensor T R) R Solver),
      (∀ jst ist t r, rp jst ist (st.self.e0all_ i - st.self.shift) t r
        = ops.residual_pair jst ist (st.self.e0all_ i - st.self.shift) t r) →
      residual_phase { ops with residual_pair := rp } i st = residual_phase ops i st) ∧
    (∀ (st : SolveState T R) (i : Nat), i < st.base.nstates_ →
      (energy_loop sops st).pt2energy_ i
        = st.base.energy_ i + st.eref_ i i - st.base.shift * norm_sum sops st i) ∧
    (∀ (st : SolveState T R), st.base.shift = 0 →
      (energy_loop sops st).runs = st.runs ∧
      ∀ i, i < st.base.nstates_ →
        (energy_loop sops st).pt2energy_ i = st.base.energy_ i + st.eref_ i i) ∧
    (∀ (st : SolveState T R), st.base.shift ≠ 0 →
      (energy_loop sops st).runs
        = st.runs ++ (List.range st.base.nstates_).flatMap (fun istate =>
            (norm_pairs st.base.nstates_ st.base.sssr istate).map
              (fun p => QueueRun.norm p.1 p.2 istate))) ∧
    (∀ (n : Nat) (sssr : Bool) (istate jst ist : Nat),
      (jst, ist) ∈ norm_pairs n sssr istate
        ↔ jst < n ∧ ist < n ∧ (sssr = true → jst = istate ∧ ist = istate)) := by
  refine ⟨fun _ _ _ => rfl, fun rp i st h => residual_phase_e0 ops rp i st h, ?_, ?_, ?_,
    mem_norm_pairs⟩
  · intro st i hi
    unfold energy_loop
    rw [energy_loop_fold]
    simp only [hi, if_true]
  · intro st hs
    unfold energy_loop
    rw [energy_loop_fold]
    refine ⟨?_, ?_⟩
    · simp [hs]
    · intro i hi
      simp only [hi, if_true, hs, zero_mul, sub_zero]
  · intro st hs
    unfold energy_loop
    rw [energy_loop_fold]
    simp only [hs, if_false]

/-! ## The XMS coupling matrix -/

/-- One pass of the body for the pair `(i, j)`: the elements `(j, i)` and `(i, j)` receive the
same value, the others are kept. -/
theorem wmn_step_apply {R : Type} [LinearOrderedField R] (e0all_ : Nat → R)
    (dot : Nat → Nat → R) (i j : Nat) (hji : j ≠ i)
    (acc : (Nat → Nat → R) × List (Nat × Nat × R)) (a b : Nat) :
    (wmn_step e0all_ dot i acc j).1 a b
      = if (a = j ∧ b = i) ∨ (a = i ∧ b = j) then wmn_value e0all_ dot j i else acc.1 a b := by
  have hij : i ≠ j := fun h => hji h.symm
  unfold wmn_step wmn_value
  simp only [Function.update_apply]
  by_cases ha : a = i
  · subst ha
    by_cases hb : b = j
    · subst hb
      simp [hij, hji]
    · simp [hij, hb]
  · by_cases ha2 : a = j
    · subst ha2
      by_cases hb : b = i
      · subst hb
        simp [ha]
      · simp [ha, hb]
    · simp [ha, ha2]

/-- The loop over `j < i` for a fixed `i`: it writes the elements `(j, i)` and `(i, j)`. -/
theorem wmn_inner {R : Type} [LinearOrderedField R] (e0all_ : Nat → R) (dot : Nat → Nat → R)
    (i : Nat) (acc : (Nat → Nat → R) × List (Nat × Nat × R)) :
    ∀ m, m ≤ i → ∀ a b, ((List.range m).foldl (wmn_step e0all_ dot i) acc).1 a b
      = if b = i ∧ a < m then wmn_value e0all_ dot a i
        else if a = i ∧ b < m then wmn_value e0all_ dot b i
        else acc.1 a b := by
  intro m
  induction m with
  | zero => intro _ a b; simp
  | succ m ih =>
    intro hm a b
    have hmi : m ≠ i := by omega
    rw [List.range_succ, List.foldl_append, List.foldl_cons, List.foldl_nil,
      wmn_step_apply e0all_ dot i m hmi, ih (by omega)]
    by_cases h1 : a = m ∧ b = i
    · obtain ⟨h1a, h1b⟩ := h1
      subst h1a h1b
      simp
    · by_cases h2 : a = i ∧ b = m
      · obtain ⟨h2a, h2b⟩ := h2
        subst h2a h2b
        have h3 : ¬ b = a := hmi
        simp [h3]
      · rw [if_neg (not_or.mpr ⟨h1, h2⟩)]
        have e1 : (b = i ∧ a < m + 1) ↔ (b = i ∧ a < m) := by omega
        have e2 : (a = i ∧ b < m + 1) ↔ (a = i ∧ b < m) := by omega
        simp only [e1, e2]

/-- The matrix `wmn` after the loops over `i < k`: the off-diagonal elements with both indices
below `k` are set, symmetrically, all others are zero. -/
theorem wmn_outer {R : Type} [LinearOrderedField R] (e0all_ : Nat → R) (dot : Nat → Nat → R) :
    ∀ k a b, ((List.range k).foldl
        (fun acc i => (List.range i).foldl (wmn_step e0all_ dot i) acc)
        ((fun _ _ => 0, []) : (Nat → Nat → R) × List (Nat × Nat × R))).1 a b
      = if a < k ∧ b < k ∧ a ≠ b then
          (if a < b then wmn_value e0all_ dot a b else wmn_value e0all_ dot b a)
        else 0 := by
  intro k
  induction k with
  | zero => intro a b; simp
  | succ k ih =>
    intro a b
    rw [List.range_succ, List.foldl_append, List.foldl_cons, List.foldl_nil,
      wmn_inner e0all_ dot k _ k (le_refl k), ih]
    by_cases hb : b = k
    · subst hb
      by_cases ha : a < b
      · have h1 : a < b + 1 ∧ b < b + 1 ∧ a ≠ b := ⟨by omega, by omega, by omega⟩
        simp [ha, h1]
      · by_cases hab : a = b
        · subst hab
          simp
        · have h1 : ¬ (a < b + 1 ∧ b < b + 1 ∧ a ≠ b) := by omega
          have h2 : ¬ (a < b ∧ b < b ∧ a ≠ b) := by omega
          have h3 : ¬ a < b + 1 := by omega
          simp [ha, hab, h3]
    · by_cases ha : a = k
      · subst ha
        by_cases hlt : b < a
        · have h1 : a < a + 1 ∧ b < a + 1 ∧ a ≠ b := ⟨by omega, by omega, by omega⟩
          have h2 : ¬ a < b := by omega
          simp [hb, hlt, h1, h2]
        · have h3 : ¬ b < a + 1 := by omega
          simp [hb, hlt, h3]
      · have h1 : (a < k + 1 ∧ b < k + 1 ∧ a ≠ b) ↔ (a < k ∧ b < k ∧ a ≠ b) := by omega
        simp [hb, ha, h1]

/-- Every division recorded by the loops for `wmn` has a denominator
`e0all_[j] - e0all_[i]` of absolute value above `1.0e-12`. -/
theorem wmn_log {R : Type} [LinearOrderedField R] (nstates_ : Nat) (e0all_ : Nat → R)
    (dot : Nat → Nat → R) :
    ∀ e ∈ (solve_deriv_wmn nstates_ e0all_ dot).2,
      abs e.2.2 > 1 / 10 ^ 12 ∧ e.2.2 = e0all_ e.1 - e0all_ e.2.1 := by
  unfold solve_deriv_wmn
  apply foldl_preserves (fun acc : (Nat → Nat → R) × List (Nat × Nat × R) =>
    ∀ e ∈ acc.2, abs e.2.2 > 1 / 10 ^ 12 ∧ e.2.2 = e0all_ e.1 - e0all_ e.2.1)
  · intro acc i hacc
    apply foldl_preserves (fun acc : (Nat → Nat → R) × List (Nat × Nat × R) =>
      ∀ e ∈ acc.2, abs e.2.2 > 1 / 10 ^ 12 ∧ e.2.2 = e0all_ e.1 - e0all_ e.2.1)
    · intro acc1 j hacc1 e he
      unfold wmn_step at he
      simp only [List.mem_append] at he
      rcases he with he | he
      · exact hacc1 e he
      · by_cases hc : abs (e0all_ j - e0all_ i) > 1 / 10 ^ 12
        · rw [if_pos hc] at he
          simp only [List.mem_singleton] at he
          subst he
          exact ⟨hc, rfl⟩
        · rw [if_neg hc] at he
          simp at he
    · exact hacc
  · intro e he
    simp at he

/-- C20: near-degeneracy guard in the XMS coupling matrix of `solve_deriv`.  For all states
`i != j` the matrix is symmetric, `wmn(i,j) = wmn(j,i)`; for `j < i` (the order of the loops)
`wmn(j,i)` is exactly 0 whenever `|e0all_[j] - e0all_[i]| <= 1.0e-12`, no division being
evaluated for the pair, and equals `-0.5 * cy / (e0all_[j] - e0all_[i])` otherwise, with
`cy = dot(j,i) - dot(i,j)`; every division that is evaluated has a denominator different from
zero. -/
theorem wmn_near_degeneracy_guard {R : Type} [LinearOrderedField R] (nstates_ : Nat)
    (e0all_ : Nat → R) (dot : Nat → Nat → R) :
    (∀ i j, i < nstates_ → j < nstates_ → i ≠ j →
      (solve_deriv_wmn nstates_ e0all_ dot).1 i j
        = (solve_deriv_wmn nstates_ e0all_ dot).1 j i) ∧
    (∀ i j, j < i → i < nstates_ →
      (solve_deriv_wmn nstates_ e0all_ dot).1 j i
        = (if abs (e0all_ j - e0all_ i) > 1 / 10 ^ 12 then
            -(1 / 2) * (dot j i - dot i j) / (e0all_ j - e0all_ i)
          else 0)) ∧
    (∀ i j, j < i → i < nstates_ → abs (e0all_ j - e0all_ i) ≤ 1 / 10 ^ 12 →
      (solve_deriv_wmn nstates_ e0all_ dot).1 j i = 0 ∧
      ∀ d, (j, i, d) ∉ (solve_deriv_wmn nstates_ e0all_ dot).2) ∧
    (∀ e ∈ (solve_deriv_wmn nstates_ e0all_ dot).2,
      e.2.2 ≠ 0 ∧ e.2.2 = e0all_ e.1 - e0all_ e.2.1) := by
  have hW : ∀ a b, (solve_deriv_wmn nstates_ e0all_ dot).1 a b
      = if a < nstates_ ∧ b < nstates_ ∧ a ≠ b then
          (if a < b then wmn_value e0all_ dot a b else wmn_value e0all_ dot b a)
        else 0 := wmn_outer e0all_ dot nstates_
  have hji : ∀ i j, j < i → i < nstates_ →
      (solve_deriv_wmn nstates_ e0all_ dot).1 j i = wmn_value e0all_ dot j i := by
    intro i j hj hi
    have c1 : j < nstates_ ∧ i < nstates_ ∧ j ≠ i := ⟨by omega, hi, by omega⟩
    rw [hW j i, if_pos c1, if_pos hj]
  refine ⟨?_, ?_, ?_, ?_⟩
  · intro i j hi hj hij
    have c1 : i < nstates_ ∧ j < nstates_ ∧ i ≠ j := ⟨hi, hj, hij⟩
    have c2 : j < nstates_ ∧ i < nstates_ ∧ j ≠ i := ⟨hj, hi, fun h => hij h.symm⟩
    rw [hW i j, hW j i, if_pos c1, if_pos c2]
    by_cases hlt : i < j
    · have h2 : ¬ j < i := by omega
      rw [if_pos hlt, if_neg h2]
    · have h2 : j < i := by omega
      rw [if_neg hlt, if_pos h2]
  · intro i j hj hi
    rw [hji i j hj hi]
    rfl
  · intro i j hj hi hle
    refine ⟨?_, ?_⟩
    · rw [hji i j hj hi]
      unfold wmn_value
      rw [if_neg (not_lt.mpr hle)]
    · intro d hmem
      obtain ⟨h1, h2⟩ := wmn_log nstates_ e0all_ dot (j, i, d) hmem
      simp only at h1 h2
      rw [h2] at h1
      exact absurd h1 (not_lt.mpr hle)
  · intro e he
    obtain ⟨h1, h2⟩ := wmn_log nstates_ e0all_ dot e he
    refine ⟨?_, h2⟩
    intro hz
    rw [hz, abs_zero] at h1
    have hpos : (0 : R) < 1 / 10 ^ 12 := by positivity
    exact absurd h1 (not_lt.mpr (le_of_lt hpos))

end CASPT2

namespace MSCASPT2

/-- C17: explicit reset flag.  A `Task900` constructed from the tensor list `t` and the flag
`reset` keeps `t[0]` as `deci_`; executing it sets every element of the tensor `deci_` to
zero when `reset` is true (all other tensors are left alone), and leaves the memory unchanged
when `reset` is false. -/
theorem task900_reset {R : Type} [Zero R] (t : List Nat) (reset : Bool) (task : Task900)
    (h : Task900.ctor t reset = some task) (mem : Nat → Nat → R) :
    task.reset_ = reset ∧ t.head? = some task.deci_ ∧
    (reset = true →
      (∀ k, task.compute_ mem task.deci_ k = 0) ∧
      ∀ p, p ≠ task.deci_ → task.compute_ mem p = mem p) ∧
    (reset = false → task.compute_ mem = mem) := by
  cases t with
  | nil => simp [Task900.ctor] at h
  | cons t0 ts =>
    simp only [Task900.ctor, Option.some.injEq] at h
    subst h
    refine ⟨rfl, rfl, ?_, ?_⟩
    · intro hr
      subst hr
      refine ⟨fun k => ?_, fun p hp => ?_⟩
      · simp [Task900.compute_, Tensor_zero]
      · simp [Task900.compute_, Function.update_noteq hp]
    · intro hr
      subst hr
      simp [Task900.compute_]

/-- Witness of C17: the task made from the tensors at addresses 3 and 4 with `reset = true`,
on a memory holding 7 everywhere. -/
theorem task900_reset_witness :
    Task900.ctor [3, 4] true = some { deci_ := 3, reset_ := true } ∧
    (true = true →
      (∀ k, (Task900.mk 3 true).compute_ (fun _ _ => (7 : Int)) (Task900.mk 3 true).deci_ k = 0) ∧
      ∀ p, p ≠ (Task900.mk 3 true).deci_ →
        (Task900.mk 3 true).compute_ (fun _ _ => (7 : Int)) p = (fun _ _ => (7 : Int)) p) :=
  ⟨rfl, (task900_reset [3, 4] true { deci_ := 3, reset_ := true } rfl
    (fun _ _ => (7 : Int))).2.2.1⟩

end MSCASPT2
end SMITH

/-! ## The calls of `DistABTask::compute` -/

theorem foldl_skip_append {α β : Type} (c : α → Bool) (e : α → β) :
    ∀ (l : List α) (init : List β),
      l.foldl (fun calls i => if c i then calls else calls ++ [e i]) init
        = init ++ (l.filter (fun i => !c i)).map e := by
  intro l
  induction l with
  | nil => intro init; simp
  | cons a as ih =>
    intro init
    rw [List.foldl_cons, ih]
    cases hc : c a <;> simp [List.filter_cons, hc]

theorem length_filter_not (c : Nat → Bool) (l : List Nat) :
    (l.filter (fun i => !c i)).length = l.length - (l.filter c).length := by
  induction l with
  | nil => rfl
  | cons a as ih =>
    have hle : (as.filter c).length ≤ as.length := List.length_filter_le _ _
    cases hc : c a
    · simp [List.filter_cons, hc, ih]
      omega
    · simp [List.filter_cons, hc, ih]

theorem filter_range_of_zero_above (b : Nat → Bool) (norb : Nat)
    (h : ∀ i, norb ≤ i → b i = false) :
    ∀ nbit, norb ≤ nbit → (List.range nbit).filter b = (List.range norb).filter b := by
  intro nbit hle
  induction nbit, hle using Nat.le_induction with
  | base => rfl
  | succ m hm ih =>
    rw [List.range_succ, List.filter_append, ih]
    simp [List.filter_cons, h m hm]

/-- C16: accumulate then flush.  One `DistABTask::compute` calls `accumulate_bstring_buf` once
for each orbital `i < norb` that is unoccupied in `astring`, in increasing order of `i`, the
call of `i` being addressed to the string obtained from `astring` by setting bit `i`; it makes
no such call for an occupied orbital; and it ends with one `flush_accumulate`, after the last
accumulate.  The number of accumulate calls is `norb` minus the number of occupied orbitals,
which is `norb - astring.count()` for a string without bits at or above `norb`. -/
theorem distab_accumulate_then_flush {B : Type} (lexical : (Nat → Bool) → Nat)
    (bcolumn : Nat → B) (self : DistABTask) :
    self.compute lexical bcolumn
      = ((List.range self.norb_).filter (fun i => !self.astring i)).map
          (fun i => SigmaCall.accumulate_bstring_buf (bcolumn i)
            (lexical (bitset_set self.astring i)))
        ++ [SigmaCall.flush_accumulate] ∧
    (((List.range self.norb_).filter (fun i => !self.astring i)).map
        (fun i => SigmaCall.accumulate_bstring_buf (bcolumn i)
          (lexical (bitset_set self.astring i)))).length
      = self.norb_ - ((List.range self.norb_).filter self.astring).length ∧
    (∀ nbit, self.norb_ ≤ nbit → (∀ i, self.norb_ ≤ i → self.astring i = false) →
      (((List.range self.norb_).filter (fun i => !self.astring i)).map
          (fun i => SigmaCall.accumulate_bstring_buf (bcolumn i)
            (lexical (bitset_set self.astring i)))).length
        = self.norb_ - bitset_count nbit self.astring) ∧
    (∀ i, i < self.norb_ → bitset_set self.astring i i = true ∧
      ∀ k, k ≠ i → bitset_set self.astring i k = self.astring k) := by
  have hlen : (((List.range self.norb_).filter (fun i => !self.astring i)).map
        (fun i => SigmaCall.accumulate_bstring_buf (bcolumn i)
          (lexical (bitset_set self.astring i)))).length
      = self.norb_ - ((List.range self.norb_).filter self.astring).length := by
    rw [List.length_map, length_filter_not, List.length_range]
  refine ⟨?_, hlen, ?_, ?_⟩
  · unfold DistABTask.compute
    rw [foldl_skip_append]
    simp
  · intro nbit hle hz
    rw [hlen]
    unfold bitset_count
    rw [filter_range_of_zero_above self.astring self.norb_ hz nbit hle]
  · intro i _
    refine ⟨by simp [bitset_set], fun k hk => by simp [bitset_set, Function.update_noteq hk]⟩

end bagel

namespace bagel

/-! ## `RelMOFile::compress_and_set` -/

theorem KTag.transpose_middle_twice (t : KTag) :
    t.transpose_middle.transpose_middle = t := by
  cases t; rfl

theorem KTag.transpose_middle_inj {s t : KTag}
    (h : s.transpose_middle = t.transpose_middle) : s = t := by
  rw [← KTag.transpose_middle_twice s, h, KTag.transpose_middle_twice]

theorem KTag.all_nodup : KTag.all.Nodup := by decide

theorem KTag.mem_all (t : KTag) : t ∈ KTag.all := by
  obtain ⟨b0, b1, b2, b3⟩ := t
  cases b0 <;> cases b1 <;> cases b2 <;> cases b3 <;> decide

theorem KTag.all_transpose_perm : (KTag.all.map KTag.transpose_middle).Perm KTag.all := by
  decide

/-- The loop of `compress_and_set` over a list of distinct tags: the block of the tag `u`
of the input is found, transposed, under the tag `u.transpose_middle`. -/
theorem compress_fold {C : Type} [Field C] (nocc_ : Nat) (buf2e : Kramers4 C) :
    ∀ (l : List KTag) (acc : Kramers4 C), l.Nodup →
      (∀ t ∈ l, acc t.transpose_middle = none) →
      ∀ u, l.foldl
          (fun mo2e_ t =>
            match buf2e t with
            | none => mo2e_
            | some mat => RelMOFile.compress_step nocc_ mo2e_ t mat) acc u
        = if u.transpose_middle ∈ l then
            (buf2e u.transpose_middle).map
              (fun mat => sort_indices_0213 mat (ZMatrix_clone mat) nocc_)
          else acc u := by
  intro l
  induction l with
  | nil => intro acc _ _ u; simp
  | cons a l ih =>
    intro acc hnd hacc u
    have hal : a ∉ l := (List.nodup_cons.mp hnd).1
    have hl : l.Nodup := (List.nodup_cons.mp hnd).2
    have ha : acc a.transpose_middle = none := hacc a (List.mem_cons_self _ _)
    rw [List.foldl_cons]
    cases hb : buf2e a with
    | none =>
      simp only []
      rw [ih acc hl (fun t ht => hacc t (List.mem_cons_of_mem _ ht))]
      by_cases hu : u.transpose_middle ∈ l
      · rw [if_pos hu, if_pos (List.mem_cons_of_mem _ hu)]
      · rw [if_neg hu]
        by_cases hua : u.transpose_middle = a
        · have hu2 : u = a.transpose_middle := by
            rw [← hua, KTag.transpose_middle_twice]
          rw [if_pos (by rw [hua]; exact List.mem_cons_self _ _), hua, hb, hu2, ha]
          rfl
        · rw [if_neg (by
            intro hmem
            rcases List.mem_cons.mp hmem with h | h
            · exact hua h
            · exact hu h)]
    | some mat =>
      simp only []
      have hstep : RelMOFile.compress_step nocc_ acc a mat
          = Function.update acc a.transpose_middle
              (some (sort_indices_0213 mat (ZMatrix_clone mat) nocc_)) := by
        unfold RelMOFile.compress_step Kramers4.emplace
        simp [ha]
      rw [hstep, ih _ hl (by
        intro t ht
        have hne : t.transpose_middle ≠ a.transpose_middle := by
          intro h
          exact hal (KTag.transpose_middle_inj h ▸ ht)
        rw [Function.update_noteq hne]
        exact hacc t (List.mem_cons_of_mem _ ht))]
      by_cases hu : u.transpose_middle ∈ l
      · rw [if_pos hu, if_pos (List.mem_cons_of_mem _ hu)]
      · rw [if_neg hu]
        by_cases hua : u.transpose_middle = a
        · have hu2 : u = a.transpose_middle := by
            rw [← hua, KTag.transpose_middle_twice]
          rw [if_pos (by rw [hua]; exact List.mem_cons_self _ _), hua, hb, hu2,
            Function.update_same]
          rfl
        · have hne : u ≠ a.transpose_middle := by
            intro h
            apply hua
            rw [h, KTag.transpose_middle_twice]
          rw [if_neg (by
            intro hmem
            rcases List.mem_cons.mp hmem with h | h
            · exact hua h
            · exact hu h), Function.update_noteq hne]

/-- The new `mo2e_` of `compress_and_set`, tag by tag. -/
theorem compress_and_set_apply {C B : Type} [Field C] (nocc_ : Nat) (buf1e : B)
    (buf2e : Kramers4 C) (u : KTag) :
    (RelMOFile.compress_and_set nocc_ buf1e buf2e).2 u
      = (buf2e u.transpose_middle).map
          (fun mat => sort_indices_0213 mat (ZMatrix_clone mat) nocc_) := by
  unfold RelMOFile.compress_and_set
  simp only []
  rw [compress_fold nocc_ buf2e KTag.all (fun _ => none) KTag.all_nodup (fun _ _ => rfl),
    if_pos (KTag.mem_all _)]

theorem sort_indices_0213_apply {C : Type} [Field C] (mat : Tensor4 C) (n i j k l : Nat)
    (hi : i < n) (hj : j < n) (hk : k < n) (hl : l < n) :
    sort_indices_0213 mat (ZMatrix_clone mat) n i k j l = mat i j k l := by
  unfold sort_indices_0213 ZMatrix_clone
  rw [if_pos ⟨hi, hk, hj, hl⟩]
  simp

/-- The number of entries is kept by a map that moves the entry of `t.transpose_middle`
to `t`. -/
theorem Kramers4.size_transpose {C : Type} (m m2 : Kramers4 C)
    (h : ∀ u, (m2 u).isSome = (m u.transpose_middle).isSome) : m2.size = m.size := by
  unfold Kramers4.size
  have h1 : (KTag.all.filter fun t => (m2 t).isSome).length
      = KTag.all.countP (fun t => (m t.transpose_middle).isSome) := by
    rw [List.countP_eq_length_filter]
    congr 2
    funext t
    exact h t
  have h2 : KTag.all.countP (fun t => (m t.transpose_middle).isSome)
      = (KTag.all.map KTag.transpose_middle).countP (fun t => (m t).isSome) := by
    rw [List.countP_map]
    rfl
  rw [h1, h2, KTag.all_transpose_perm.countP_eq, List.countP_eq_length_filter]

/-- C14: Harrison ordering.  For every tag `(b0,b1,b2,b3)` present in `buf2e`,
`compress_and_set` stores under the tag `(b0,b2,b1,b3)` a block whose element `(i,k,j,l)` is
the element `(i,j,k,l)` of the input block, for all `i,j,k,l < nocc_` (factor 1, nothing
added to it); a tag is present in `mo2e_` only if it comes from a tag of the input; `mo2e_`
has as many entries as `buf2e`; applying `compress_and_set` to its own result gives back, tag
by tag, the elements of the input; and `mo1e_` is `buf1e`. -/
theorem compress_and_set_harrison {C B : Type} [Field C] (nocc_ : Nat) (buf1e : B)
    (buf2e : Kramers4 C) :
    (∀ b0 b1 b2 b3 mat, buf2e (KTag.mk b0 b1 b2 b3) = some mat →
      ∃ tmp, (RelMOFile.compress_and_set nocc_ buf1e buf2e).2 (KTag.mk b0 b2 b1 b3) = some tmp ∧
        ∀ i j k l, i < nocc_ → j < nocc_ → k < nocc_ → l < nocc_ →
          tmp i k j l = mat i j k l) ∧
    (∀ b0 b1 b2 b3, buf2e (KTag.mk b0 b1 b2 b3) = none →
      (RelMOFile.compress_and_set nocc_ buf1e buf2e).2 (KTag.mk b0 b2 b1 b3) = none) ∧
    (RelMOFile.compress_and_set nocc_ buf1e buf2e).2.size = buf2e.size ∧
    (∀ t mat, buf2e t = some mat →
      ∃ back, (RelMOFile.compress_and_set nocc_ buf1e
          (RelMOFile.compress_and_set nocc_ buf1e buf2e).2).2 t = some back ∧
        ∀ i j k l, i < nocc_ → j < nocc_ → k < nocc_ → l < nocc_ →
          back i j k l = mat i j k l) ∧
    (∀ t, buf2e t = none →
      (RelMOFile.compress_and_set nocc_ buf1e
        (RelMOFile.compress_and_set nocc_ buf1e buf2e).2).2 t = none) ∧
    (RelMOFile.compress_and_set nocc_ buf1e buf2e).1 = buf1e := by
  refine ⟨?_, ?_, ?_, ?_, ?_, rfl⟩
  · intro b0 b1 b2 b3 mat hmat
    refine ⟨sort_indices_0213 mat (ZMatrix_clone mat) nocc_, ?_, ?_⟩
    · rw [compress_and_set_apply]
      show (buf2e (KTag.mk b0 b1 b2 b3)).map _ = _
      rw [hmat]
      rfl
    · intro i j k l hi hj hk hl
      exact sort_indices_0213_apply mat nocc_ i j k l hi hj hk hl
  · intro b0 b1 b2 b3 hnone
    rw [compress_and_set_apply]
    show (buf2e (KTag.mk b0 b1 b2 b3)).map _ = _
    rw [hnone]
    rfl
  · apply Kramers4.size_transpose
    intro u
    rw [compress_and_set_apply]
    cases buf2e u.transpose_middle <;> rfl
  · intro t mat hmat
    refine ⟨sort_indices_0213 (sort_indices_0213 mat (ZMatrix_clone mat) nocc_)
      (ZMatrix_clone (sort_indices_0213 mat (ZMatrix_clone mat) nocc_)) nocc_, ?_, ?_⟩
    · rw [compress_and_set_apply, compress_and_set_apply, KTag.transpose_middle_twice, hmat]
      rfl
    · intro i j k l hi hj hk hl
      rw [sort_indices_0213_apply _ nocc_ i k j l hi hk hj hl,
        sort_indices_0213_apply mat nocc_ i j k l hi hj hk hl]
  · intro t hnone
    rw [compress_and_set_apply, compress_and_set_apply, KTag.transpose_middle_twice, hnone]
    rfl

/-- Example for C14: the block stored by `demo_buf2e` under `(false, true, false, false)` is
found under `(false, false, true, false)`, and its element `(1, 0, 2, 1)` is the element
`(1, 2, 0, 1)` of the input. -/
theorem compress_and_set_harrison_witness :
    ∃ tmp, (RelMOFile.compress_and_set 3 () demo_buf2e).2 (KTag.mk false false true false)
        = some tmp ∧ tmp 1 0 2 1 = (1 : ℚ) + 10 * 2 + 100 * 0 + 1000 * 1 := by
  obtain ⟨tmp, h1, h2⟩ := (compress_and_set_harrison 3 () demo_buf2e).1 false true false false
    (fun i j k l => (i : ℚ) + 10 * j + 100 * k + 1000 * l) (by simp [demo_buf2e])
  refine ⟨tmp, h1, ?_⟩
  rw [h2 1 2 0 1 (by decide) (by decide) (by decide) (by decide)]
  norm_num

end bagel

namespace bagel

/-! ## The exceptions of `RelMOFile::kramers` -/

theorem kramers_loop_succ {R : Type} [LinearOrderedField R] (eig : Nat → R) (mdim k : Nat) :
    RelMOFile.kramers_loop eig mdim (k + 1)
      = match RelMOFile.kramers_loop eig mdim k with
        | .error e => .error e
        | .ok st => RelMOFile.kramers_step eig mdim st k := by
  unfold RelMOFile.kramers_loop
  rw [List.range_succ, List.foldlM_append]
  cases List.foldlM (RelMOFile.kramers_step eig mdim) { done := [], blocks := [] }
      (List.range k) with
  | error e => rfl
  | ok st =>
    show List.foldlM (RelMOFile.kramers_step eig mdim) st [k]
      = RelMOFile.kramers_step eig mdim st k
    rw [List.foldlM_cons]
    generalize RelMOFile.kramers_step eig mdim st k = r
    cases r <;> rfl

/-- An exception thrown in the loop ends the loop. -/
theorem kramers_loop_error {R : Type} [LinearOrderedField R] (eig : Nat → R) (mdim k : Nat)
    (e : KramersError) (h : RelMOFile.kramers_loop eig mdim k = .error e) :
    ∀ m, k ≤ m → RelMOFile.kramers_loop eig mdim m = .error e := by
  intro m hm
  induction m, hm using Nat.le_induction with
  | base => exact h
  | succ m _ ih => rw [kramers_loop_succ, ih]

/-- The list `done` has an even number of entries after every pass. -/
theorem kramers_loop_even {R : Type} [LinearOrderedField R] (eig : Nat → R) (mdim : Nat) :
    ∀ k st, RelMOFile.kramers_loop eig mdim k = .ok st → st.done.length % 2 = 0 := by
  intro k
  induction k with
  | zero =>
    intro st h
    have h2 : st = { done := [], blocks := [] } := by
      unfold RelMOFile.kramers_loop at h
      simp only [List.range_zero, List.foldlM_nil] at h
      exact (Except.ok.inj h).symm
    rw [h2]
    rfl
  | succ k ih =>
    intro st h
    rw [kramers_loop_succ] at h
    cases hk : RelMOFile.kramers_loop eig mdim k with
    | error e => rw [hk] at h; exact Except.noConfusion h
    | ok s =>
      rw [hk] at h
      simp only [] at h
      have hs := ih s hk
      unfold RelMOFile.kramers_step at h
      by_cases hd : k ∈ s.done
      · rw [if_pos hd] at h
        rw [← Except.ok.inj h]
        exact hs
      · rw [if_neg hd] at h
        simp only [] at h
        by_cases hn : (RelMOFile.kramers_current eig mdim k).length % 2 ≠ 0
        · rw [if_pos hn] at h
          exact Except.noConfusion h
        · rw [if_neg hn] at h
          by_cases ha : s.done.length % 2 ≠ 0
          · rw [if_pos ha] at h
            exact Except.noConfusion h
          · rw [if_neg ha] at h
            rw [← Except.ok.inj h]
            simp only [List.length_append]
            omega

/-- The `assert` of line 188 never fails. -/
theorem kramers_loop_no_assert {R : Type} [LinearOrderedField R] (eig : Nat → R)
    (mdim : Nat) :
    ∀ k, RelMOFile.kramers_loop eig mdim k ≠ .error .assert_failed := by
  intro k
  induction k with
  | zero =>
    intro h
    unfold RelMOFile.kramers_loop at h
    simp only [List.range_zero, List.foldlM_nil] at h
    exact Except.noConfusion h
  | succ k ih =>
    intro h
    rw [kramers_loop_succ] at h
    cases hk : RelMOFile.kramers_loop eig mdim k with
    | error e =>
      rw [hk] at h
      simp only [] at h
      exact ih (hk.trans h)
    | ok s =>
      rw [hk] at h
      simp only [] at h
      have hs := kramers_loop_even eig mdim k s hk
      unfold RelMOFile.kramers_step at h
      by_cases hd : k ∈ s.done
      · rw [if_pos hd] at h
        exact Except.noConfusion h
      · rw [if_neg hd] at h
        simp only [] at h
        by_cases hn : (RelMOFile.kramers_current eig mdim k).length % 2 ≠ 0
        · rw [if_pos hn] at h
          exact absurd (Except.error.inj h) (by decide)
        · rw [if_neg hn, if_neg (not_not.mpr hs)] at h
          exact Except.noConfusion h

/-- The members of the group started at orbital `i`. -/
theorem mem_kramers_current {R : Type} [LinearOrderedField R] (eig : Nat → R)
    (mdim i j : Nat) :
    j ∈ RelMOFile.kramers_current eig mdim i ↔
      j = i ∨ (i < j ∧ j < mdim ∧ eig i ≠ 0 ∧
        abs (eig j - eig i) / abs (eig i) < 1 / 10 ^ 8) := by
  unfold RelMOFile.kramers_current RelMOFile.close_to
  simp only [List.mem_cons, List.mem_filter, List.mem_range']
  constructor
  · rintro (h | ⟨⟨m, hm, rfl⟩, hc⟩)
    · exact Or.inl h
    · right
      by_cases he : eig i = 0
      · simp [he] at hc
      · simp only [he, if_false, decide_eq_true_eq] at hc
        exact ⟨by omega, by omega, he, hc⟩
  · rintro (h | ⟨h1, h2, he, hc⟩)
    · exact Or.inl h
    · right
      refine ⟨⟨j - (i + 1), by omega, by omega⟩, ?_⟩
      simp only [he, if_false, decide_eq_true_eq]
      exact hc

/-- The exceptions of `RelMOFile::kramers` in terms of its loop: it throws `logic_error`
whenever `ndim` is not a multiple of 4, whatever the energies; for `ndim` a multiple of 4 it
throws `runtime_error` when the loop reaches an orbital `i` that is not yet in `done` and
whose list `current` (orbital `i` and the orbitals `j > i` with
`|eig[j] - eig[i]| / |eig[i]| < 1.0e-8`) has an odd number of members; a call that throws
returns no result, and the `assert` of the loop never fails. -/
theorem kramers_fatal {R : Type} [LinearOrderedField R] (ndim mdim : Nat) (eig : Nat → R) :
    (ndim % 4 ≠ 0 → RelMOFile.kramers ndim mdim eig = .error .logic_error) ∧
    (ndim % 4 = 0 → ∀ i st, i < mdim → RelMOFile.kramers_loop eig mdim i = .ok st →
      i ∉ st.done → (RelMOFile.kramers_current eig mdim i).length % 2 = 1 →
      RelMOFile.kramers ndim mdim eig = .error .runtime_error) ∧
    (∀ e, RelMOFile.kramers ndim mdim eig = .error e →
      ∀ out, RelMOFile.kramers ndim mdim eig ≠ .ok out) ∧
    RelMOFile.kramers ndim mdim eig ≠ .error .assert_failed ∧
    (∀ i j, j ∈ RelMOFile.kramers_current eig mdim i ↔
      j = i ∨ (i < j ∧ j < mdim ∧ eig i ≠ 0 ∧
        abs (eig j - eig i) / abs (eig i) < 1 / 10 ^ 8)) := by
  refine ⟨?_, ?_, ?_, ?_, mem_kramers_current eig mdim⟩
  · intro h
    unfold RelMOFile.kramers
    rw [if_pos (Or.inr h)]
  · intro h4 i st hi hloop hdone hodd
    have h2 : ¬ (ndim % 2 ≠ 0 ∨ ndim % 4 ≠ 0) := by omega
    unfold RelMOFile.kramers
    rw [if_neg h2]
    apply kramers_loop_error eig mdim (i + 1) _ _ mdim hi
    rw [kramers_loop_succ, hloop]
    simp only []
    unfold RelMOFile.kramers_step
    rw [if_neg hdone]
    simp only []
    rw [if_pos (by omega)]
  · intro e he out hout
    rw [he] at hout
    exact Except.noConfusion hout
  · unfold RelMOFile.kramers
    by_cases h : ndim % 2 ≠ 0 ∨ ndim % 4 ≠ 0
    · rw [if_pos h]
      intro h2
      exact absurd (Except.error.inj h2) (by decide)
    · rw [if_neg h]
      exact kramers_loop_no_assert eig mdim mdim

/-- Two runs that throw: with 5 rows the call throws `logic_error`; with 4 rows and the
energies 1, 1, 2 the orbitals 0 and 1 form a pair and orbital 2 is alone, and the call throws
`runtime_error`. -/
theorem kramers_fatal_witness :
    RelMOFile.kramers 5 3 demo_eig = .error .logic_error ∧
    RelMOFile.kramers 4 3 demo_eig = .error .runtime_error := by
  refine ⟨(kramers_fatal 5 3 demo_eig).1 (by decide),
    (kramers_fatal 4 3 demo_eig).2.1 (by decide) 2
      { done := [0, 1], blocks := [(0, 1, [0, 1])] } (by decide) ?_ (by decide) ?_⟩
  · rw [kramers_loop_succ, kramers_loop_succ]
    norm_num [RelMOFile.kramers_loop, RelMOFile.kramers_step, RelMOFile.kramers_current,
      RelMOFile.close_to, demo_eig, List.range', pure, Except.pure]
  · norm_num [RelMOFile.kramers_current, RelMOFile.close_to, demo_eig, List.range']

end bagel


namespace bagel
namespace SMITH

/-! ## The linear scan of `next_compute` -/

/-- The scan looks only at the dependency lists of the tasks of the list. -/
theorem first_ready_congr (t1 t2 : TaskPtr → Task) :
    ∀ (l : List TaskPtr), (∀ p ∈ l, (t2 p).depend_ = (t1 p).depend_) →
      first_ready t2 l = first_ready t1 l := by
  intro l
  induction l with
  | nil => intro _; rfl
  | cons p ps ih =>
    intro h
    have hp : (t2 p).ready = (t1 p).ready := by
      unfold Task.ready
      rw [h p (List.mem_cons_self _ _)]
    unfold first_ready
    rw [hp, ih (fun q hq => h q (List.mem_cons_of_mem _ hq))]

/-- The scan finds a task as soon as the list holds a ready one. -/
theorem first_ready_exists (tasks : TaskPtr → Task) (l : List TaskPtr)
    (h : ∃ p ∈ l, (tasks p).ready = true) : ∃ i out, first_ready tasks l = some (i, out) := by
  cases hr : first_ready tasks l with
  | none =>
    obtain ⟨p, hp, hready⟩ := h
    have := (first_ready_none l).mp hr p hp
    rw [this] at hready
    exact absurd hready (by decide)
  | some r => exact ⟨r.1, r.2, rfl⟩

/-- C22: linear scan.  On a list that holds a ready task, `next_compute` returns a task `T`
and has executed it (`compute T` applied to the data); the list was `pre ++ T :: post` with
`T` ready and no task of `pre` ready at the time of the call; and the choice is deterministic:
every queue with the same list order and the same dependency lists for the tasks of the list,
whatever its data and its `compute`, returns the same `T`. -/
theorem next_compute_linear_scan {σ : Type} (compute : TaskPtr → σ → σ) (s : QueueState σ)
    (h : ∃ p ∈ s.tasklist_, (s.tasks p).ready = true) :
    ∃ T s' pre post, next_compute compute s = Outcome.returned T s' ∧
      s.tasklist_ = pre ++ T :: post ∧ (s.tasks T).ready = true ∧
      (∀ p ∈ pre, (s.tasks p).ready = false) ∧
      s'.world = compute T s.world ∧
      ∀ (τ : Type) (compute2 : TaskPtr → τ → τ) (s2 : QueueState τ),
        s2.tasklist_ = s.tasklist_ →
        (∀ p ∈ s.tasklist_, (s2.tasks p).depend_ = (s.tasks p).depend_) →
        ∃ s2', next_compute compute2 s2 = Outcome.returned T s2' := by
  obtain ⟨i, out, hr⟩ := first_ready_exists s.tasks s.tasklist_ h
  have hret : next_compute compute s = Outcome.returned out
      { tasklist_ := s.tasklist_.eraseIdx i
        tasks := delete_dep_all out s.tasklist_ s.tasks
        world := compute out s.world } := by
    unfold next_compute
    rw [hr]
  obtain ⟨pre, post, hl, hq, hpre, _, _, hw⟩ := next_compute_returned compute s _ out hret
  refine ⟨out, _, pre, post, hret, hl, hq, hpre, hw, ?_⟩
  intro τ compute2 s2 hlist hdep
  refine ⟨{ tasklist_ := s2.tasklist_.eraseIdx i
            tasks := delete_dep_all out s2.tasklist_ s2.tasks
            world := compute2 out s2.world }, ?_⟩
  unfold next_compute
  rw [hlist, first_ready_congr s.tasks s2.tasks s.tasklist_ hdep, hr]

/-- Witness of C22: on the queue `[3, 1, 2, 4]` (3 waits for 1, the others for nothing) the
call returns task 1, the first ready task, although 2 and 4 are ready too. -/
theorem next_compute_linear_scan_witness :
    ∃ T s' pre post,
      next_compute (fun p (w : List TaskPtr) => w ++ [p])
        { tasklist_ := [3, 1, 2, 4], tasks := tasks_of [(3, [1])], world := [] }
        = Outcome.returned T s' ∧
      [3, 1, 2, 4] = pre ++ T :: post ∧ ((tasks_of [(3, [1])]) T).ready = true ∧
      (∀ p ∈ pre, ((tasks_of [(3, [1])]) p).ready = false) ∧
      s'.world = (fun p (w : List TaskPtr) => w ++ [p]) T [] ∧
      ∀ (τ : Type) (compute2 : TaskPtr → τ → τ) (s2 : QueueState τ),
        s2.tasklist_ = [3, 1, 2, 4] →
        (∀ p ∈ [3, 1, 2, 4], (s2.tasks p).depend_ = ((tasks_of [(3, [1])]) p).depend_) →
        ∃ s2', next_compute compute2 s2 = Outcome.returned T s2' :=
  next_compute_linear_scan (fun p (w : List TaskPtr) => w ++ [p])
    { tasklist_ := [3, 1, 2, 4], tasks := tasks_of [(3, [1])], world := [] }
    ⟨1, by decide, by decide⟩

end SMITH
end bagel

namespace bagel

/-! ## The gradient routines as additions to the storage -/

/-- The loop over the blocks, position by position. -/
theorem foldl_blocks_data {R S : Type} [Add R] (dat : S → Nat → R) (tgt : S → Nat) (n : Nat)
    (c : Nat → Nat → R) (F : S → Nat → S)
    (htgt : ∀ st i, tgt (F st i) = tgt st + n)
    (hdat : ∀ st i j, dat (F st i) j
      = if tgt st ≤ j ∧ j < tgt st + n then dat st j + c i (j - tgt st) else dat st j)
    (init : S) (m j : Nat) :
    dat ((List.range m).foldl F init) j
      = if tgt init ≤ j ∧ j < tgt init + m * n then
          dat init j + c ((j - tgt init) / n) ((j - tgt init) % n)
        else dat init j := by
  obtain ⟨_, h2, h3⟩ := foldl_blocks dat tgt n c F htgt hdat init m
  by_cases hin : tgt init ≤ j ∧ j < tgt init + m * n
  · rw [if_pos hin]
    have hn : 0 < n := by
      rcases Nat.eq_zero_or_pos n with h | h
      · rw [h, Nat.mul_zero] at hin
        omega
      · exact h
    have hx : (j - tgt init) / n * n + (j - tgt init) % n = j - tgt init := by
      rw [Nat.mul_comm]
      exact Nat.div_add_mod _ _
    have hj : j = tgt init + (j - tgt init) / n * n + (j - tgt init) % n := by omega
    have hi : (j - tgt init) / n < m := by
      apply Nat.div_lt_of_lt_mul
      rw [Nat.mul_comm]
      omega
    have key := h2 ((j - tgt init) / n) ((j - tgt init) % n) (Nat.mod_lt _ hn)
    rw [if_pos hi, ← hj] at key
    exact key
  · rw [if_neg hin]
    exact h3 j (by omega)

theorem grad_vc_eq {R : Type} [LinearOrderedField R] (sqrt : R → R) (self : SuperCI R)
    (f : Matrix R) (sigma : RotFile R) :
    self.grad_vc sqrt f sigma
      = { sigma with
          data := fun j => sigma.data j + self.contrib_vc sqrt f sigma.ptr_vc j } := by
  unfold SuperCI.grad_vc SuperCI.contrib_vc
  by_cases hcond : self.nvirt_ = 0 ∨ self.nclosed_ = 0
  · rw [if_pos hcond]
    have hz : self.nclosed_ * self.nvirt_ = 0 := by
      rcases hcond with h | h <;> simp [h]
    have hd : (fun j => sigma.data j + (if sigma.ptr_vc ≤ j
        ∧ j < sigma.ptr_vc + self.nclosed_ * self.nvirt_ then
          sqrt 2 * f.element (self.nocc_ + (j - sigma.ptr_vc) % self.nvirt_)
            ((j - sigma.ptr_vc) / self.nvirt_)
        else 0)) = sigma.data := by
      funext j
      have hc : ¬ (sigma.ptr_vc ≤ j ∧ j < sigma.ptr_vc + self.nclosed_ * self.nvirt_) := by
        rw [hz]
        omega
      rw [if_neg hc, add_zero]
    rw [hd]
  · rw [if_neg hcond]
    congr 1
    funext j
    have key := foldl_blocks_data (R := R) (S := (Nat → R) × Nat) Prod.fst Prod.snd self.nvirt_
      (fun i k => sqrt 2 * f.data (f.element_ptr self.nocc_ i + k))
      (fun st i =>
        (ax_plus_y_n (sqrt 2) f.data (f.element_ptr self.nocc_ i) self.nvirt_ st.1 st.2,
          st.2 + self.nvirt_))
      (fun _ _ => rfl) (fun st i j => ax_plus_y_n_apply _ _ _ _ _ _ _)
      (sigma.data, sigma.ptr_vc) self.nclosed_ j
    simp only at key
    rw [key]
    by_cases hin : sigma.ptr_vc ≤ j ∧ j < sigma.ptr_vc + self.nclosed_ * self.nvirt_
    · rw [if_pos hin, if_pos hin, Matrix.data_element_ptr_add]
    · rw [if_neg hin, if_neg hin, add_zero]

theorem grad_va_eq {R : Type} [LinearOrderedField R] (sqrt : R → R) (occup_thresh : R)
    (self : SuperCI R) (fact : Matrix R) (sigma : RotFile R) :
    self.grad_va sqrt occup_thresh fact sigma
      = { sigma with
          data := fun j => sigma.data j
            + self.contrib_va sqrt occup_thresh fact sigma.ptr_va j } := by
  unfold SuperCI.grad_va SuperCI.grad_va_log SuperCI.contrib_va
  by_cases hcond : self.nvirt_ = 0 ∨ self.nact_ = 0
  · rw [if_pos hcond]
    have hz : self.nact_ * self.nvirt_ = 0 := by
      rcases hcond with h | h <;> simp [h]
    have hd : (fun j => sigma.data j + (if sigma.ptr_va ≤ j
        ∧ j < sigma.ptr_va + self.nact_ * self.nvirt_ then
          (fac_va sqrt occup_thresh (self.occup_ ((j - sigma.ptr_va) / self.nvirt_))).1
            * fact.element (self.nocc_ + (j - sigma.ptr_va) % self.nvirt_)
              ((j - sigma.ptr_va) / self.nvirt_)
        else 0)) = sigma.data := by
      funext j
      have hc : ¬ (sigma.ptr_va ≤ j ∧ j < sigma.ptr_va + self.nact_ * self.nvirt_) := by
        rw [hz]
        omega
      rw [if_neg hc, add_zero]
    rw [hd]
  · rw [if_neg hcond]
    simp only
    congr 1
    funext j
    have key := foldl_blocks_data (R := R) (S := (Nat → R) × Nat × List (Nat × R))
      (fun st => st.1) (fun st => st.2.1) self.nvirt_
      (fun i k => (fac_va sqrt occup_thresh (self.occup_ i)).1
        * fact.data (fact.element_ptr self.nocc_ i + k))
      (fun st i =>
        (ax_plus_y_n (fac_va sqrt occup_thresh (self.occup_ i)).1 fact.data
            (fact.element_ptr self.nocc_ i) self.nvirt_ st.1 st.2.1,
          st.2.1 + self.nvirt_,
          st.2.2 ++ ((fac_va sqrt occup_thresh (self.occup_ i)).2.toList.map
            (fun den => (i, den)))))
      (fun _ _ => rfl) (fun st i j => ax_plus_y_n_apply _ _ _ _ _ _ _)
      (sigma.data, sigma.ptr_va, []) self.nact_ j
    simp only at key
    rw [key]
    by_cases hin : sigma.ptr_va ≤ j ∧ j < sigma.ptr_va + self.nact_ * self.nvirt_
    · rw [if_pos hin, if_pos hin, Matrix.data_element_ptr_add]
    · rw [if_neg hin, if_neg hin, add_zero]

theorem grad_ca_eq {R : Type} [LinearOrderedField R] (sqrt : R → R) (occup_thresh : R)
    (self : SuperCI R) (f fact : Matrix R) (sigma : RotFile R) :
    self.grad_ca sqrt occup_thresh f fact sigma
      = { sigma with
          data := fun j => sigma.data j
            + self.contrib_ca sqrt occup_thresh f fact sigma.ptr_ca j } := by
  unfold SuperCI.grad_ca SuperCI.contrib_ca
  by_cases hcond : self.nclosed_ = 0 ∨ self.nact_ = 0
  · rw [if_pos hcond]
    have hz : self.nact_ * self.nclosed_ = 0 := by
      rcases hcond with h | h <;> simp [h]
    have hd : (fun j => sigma.data j + (if sigma.ptr_ca ≤ j
        ∧ j < sigma.ptr_ca + self.nact_ * self.nclosed_ then
          2 * fac_ca sqrt occup_thresh (self.occup_ ((j - sigma.ptr_ca) / self.nclosed_))
              * f.element ((j - sigma.ptr_ca) % self.nclosed_)
                (self.nclosed_ + (j - sigma.ptr_ca) / self.nclosed_)
            + -(fac_ca sqrt occup_thresh (self.occup_ ((j - sigma.ptr_ca) / self.nclosed_)))
              * fact.element ((j - sigma.ptr_ca) % self.nclosed_)
                ((j - sigma.ptr_ca) / self.nclosed_)
        else 0)) = sigma.data := by
      funext j
      have hc : ¬ (sigma.ptr_ca ≤ j ∧ j < sigma.ptr_ca + self.nact_ * self.nclosed_) := by
        rw [hz]
        omega
      rw [if_neg hc, add_zero]
    rw [hd]
  · rw [if_neg hcond]
    congr 1
    funext j
    have key := foldl_blocks_data (R := R) (S := (Nat → R) × Nat) Prod.fst Prod.snd
      self.nclosed_
      (fun i k => 2 * fac_ca sqrt occup_thresh (self.occup_ i)
          * f.data (f.element_ptr 0 (self.nclosed_ + i) + k)
        + -(fac_ca sqrt occup_thresh (self.occup_ i)) * fact.data (fact.element_ptr 0 i + k))
      (fun st i =>
        (ax_plus_y_n (-(fac_ca sqrt occup_thresh (self.occup_ i))) fact.data
            (fact.element_ptr 0 i) self.nclosed_
            (ax_plus_y_n (2 * fac_ca sqrt occup_thresh (self.occup_ i)) f.data
              (f.element_ptr 0 (self.nclosed_ + i)) self.nclosed_ st.1 st.2) st.2,
          st.2 + self.nclosed_))
      (fun _ _ => rfl)
      (fun st i j => by
        simp only [ax_plus_y_n_apply]
        by_cases hc : st.2 ≤ j ∧ j < st.2 + self.nclosed_
        · simp only [if_pos hc, add_assoc]
        · simp only [if_neg hc])
      (sigma.data, sigma.ptr_ca) self.nact_ j
    simp only at key
    rw [key]
    by_cases hin : sigma.ptr_ca ≤ j ∧ j < sigma.ptr_ca + self.nact_ * self.nclosed_
    · rw [if_pos hin, if_pos hin, Matrix.data_element_ptr_add, Matrix.data_element_ptr_add,
        Nat.zero_add]
    · rw [if_neg hin, if_neg hin, add_zero]

end bagel


namespace bagel

/-! ## Frame and accumulation of the gradient routines -/

theorem add_contrib_comm {R : Type} [LinearOrderedField R] (sigma : RotFile R)
    (c1 c2 : Nat → R) :
    ({ ({ sigma with data := fun j => sigma.data j + c1 j } : RotFile R) with
        data := fun j => (sigma.data j + c1 j) + c2 j } : RotFile R)
      = { ({ sigma with data := fun j => sigma.data j + c2 j } : RotFile R) with
          data := fun j => (sigma.data j + c2 j) + c1 j } := by
  have h : (fun j => sigma.data j + c1 j + c2 j) = fun j => sigma.data j + c2 j + c1 j := by
    funext j
    exact add_right_comm _ _ _
  dsimp only
  rw [h]

/-- C23: block frame of the gradient routines, for a rotation vector that has the dimensions
of the CASSCF object.  The closed-active, virtual-active and virtual-closed blocks follow one
another and fill the vector; `grad_vc` leaves every position outside the virtual-closed block
as it was, `grad_va` every position outside the virtual-active block, `grad_ca` every position
outside the closed-active block, and none changes the dimensions; and each routine returns the
vector unchanged when one of its two orbital spaces is empty. -/
theorem grad_block_frame {R : Type} [LinearOrderedField R] (sqrt : R → R) (occup_thresh : R)
    (self : SuperCI R) (f fact : Matrix R) (sigma : RotFile R) (hfit : self.fits sigma) :
    (sigma.ptr_ca = 0 ∧ sigma.ptr_ca + sigma.nclosed_ * sigma.nact_ = sigma.ptr_va ∧
      sigma.ptr_va + sigma.nvirt_ * sigma.nact_ = sigma.ptr_vc ∧
      sigma.ptr_vc + sigma.nvirt_ * sigma.nclosed_ = sigma.size) ∧
    (∀ j, ¬ (sigma.ptr_vc ≤ j ∧ j < sigma.ptr_vc + sigma.nvirt_ * sigma.nclosed_) →
      (self.grad_vc sqrt f sigma).data j = sigma.data j) ∧
    (∀ j, ¬ (sigma.ptr_va ≤ j ∧ j < sigma.ptr_va + sigma.nvirt_ * sigma.nact_) →
      (self.grad_va sqrt occup_thresh fact sigma).data j = sigma.data j) ∧
    (∀ j, ¬ (sigma.ptr_ca ≤ j ∧ j < sigma.ptr_ca + sigma.nclosed_ * sigma.nact_) →
      (self.grad_ca sqrt occup_thresh f fact sigma).data j = sigma.data j) ∧
    (self.fits (self.grad_vc sqrt f sigma) ∧
      self.fits (self.grad_va sqrt occup_thresh fact sigma) ∧
      self.fits (self.grad_ca sqrt occup_thresh f fact sigma)) ∧
    (self.nvirt_ = 0 ∨ self.nclosed_ = 0 → self.grad_vc sqrt f sigma = sigma) ∧
    (self.nvirt_ = 0 ∨ self.nact_ = 0 → self.grad_va sqrt occup_thresh fact sigma = sigma) ∧
    (self.nclosed_ = 0 ∨ self.nact_ = 0 →
      self.grad_ca sqrt occup_thresh f fact sigma = sigma) := by
  obtain ⟨hc, ha, hv⟩ := hfit
  refine ⟨⟨rfl, ?_, ?_, ?_⟩, ?_, ?_, ?_, ⟨?_, ?_, ?_⟩, ?_, ?_, ?_⟩
  · simp [RotFile.ptr_ca, RotFile.ptr_va]
  · simp only [RotFile.ptr_va, RotFile.ptr_vc, Nat.add_mul]
  · simp only [RotFile.ptr_vc, RotFile.size, Nat.add_mul]
  · intro j hj
    rw [grad_vc_eq]
    simp only [SuperCI.contrib_vc]
    rw [hv, hc, Nat.mul_comm] at hj
    rw [if_neg hj, add_zero]
  · intro j hj
    rw [grad_va_eq]
    simp only [SuperCI.contrib_va]
    rw [hv, ha, Nat.mul_comm] at hj
    rw [if_neg hj, add_zero]
  · intro j hj
    rw [grad_ca_eq]
    simp only [SuperCI.contrib_ca]
    rw [hc, ha, Nat.mul_comm] at hj
    rw [if_neg hj, add_zero]
  · obtain ⟨s1, s2, s3⟩ := grad_vc_sizes sqrt self f sigma
    exact ⟨s1.trans hc, s2.trans ha, s3.trans hv⟩
  · obtain ⟨s1, s2, s3⟩ := grad_va_sizes sqrt occup_thresh self fact sigma
    exact ⟨s1.trans hc, s2.trans ha, s3.trans hv⟩
  · obtain ⟨s1, s2, s3⟩ := grad_ca_sizes sqrt occup_thresh self f fact sigma
    exact ⟨s1.trans hc, s2.trans ha, s3.trans hv⟩
  · intro h
    unfold SuperCI.grad_vc
    rw [if_pos h]
  · intro h
    unfold SuperCI.grad_va SuperCI.grad_va_log
    rw [if_pos h]
  · intro h
    unfold SuperCI.grad_ca
    rw [if_pos h]

/-- Witness of C23: `demo_superci` (one closed, two active, two virtual orbitals) and the
rotation vector of these dimensions that holds 7 everywhere; position 0 lies in the
closed-active block and is left alone by `grad_vc`. -/
theorem grad_block_frame_witness :
    demo_superci.fits { nclosed_ := 1, nact_ := 2, nvirt_ := 2, data := fun _ => (7 : ℚ) } ∧
    (demo_superci.grad_vc (fun x => x) demo_fock
      { nclosed_ := 1, nact_ := 2, nvirt_ := 2, data := fun _ => (7 : ℚ) }).data 0 = 7 :=
  ⟨⟨rfl, rfl, rfl⟩,
    (grad_block_frame (fun x => x) (1 / 10 ^ 10) demo_superci demo_fock demo_fock
      { nclosed_ := 1, nact_ := 2, nvirt_ := 2, data := fun _ => (7 : ℚ) }
      ⟨rfl, rfl, rfl⟩).2.1 0 (by decide)⟩

/-- C26: the gradient routines accumulate.  For every content of the rotation vector, after
`grad_vc` (`grad_va`, `grad_ca`) each element of the block the routine works on is its
previous value plus the contribution computed from the Fock matrices; after two calls with
the same arguments it is the previous value plus twice that contribution; and the three
routines commute with one another. -/
theorem grad_accumulate {R : Type} [LinearOrderedField R] (sqrt : R → R) (occup_thresh : R)
    (self : SuperCI R) (f fact : Matrix R) (sigma : RotFile R) :
    (∀ i a, i < self.nclosed_ → a < self.nvirt_ →
      (self.grad_vc sqrt f sigma).data (sigma.ptr_vc + i * self.nvirt_ + a)
        = sigma.data (sigma.ptr_vc + i * self.nvirt_ + a)
          + sqrt 2 * f.element (self.nocc_ + a) i ∧
      (self.grad_vc sqrt f (self.grad_vc sqrt f sigma)).data
          (sigma.ptr_vc + i * self.nvirt_ + a)
        = sigma.data (sigma.ptr_vc + i * self.nvirt_ + a)
          + 2 * (sqrt 2 * f.element (self.nocc_ + a) i)) ∧
    (∀ i a, i < self.nact_ → a < self.nvirt_ →
      (self.grad_va sqrt occup_thresh fact sigma).data (sigma.ptr_va + i * self.nvirt_ + a)
        = sigma.data (sigma.ptr_va + i * self.nvirt_ + a)
          + (fac_va sqrt occup_thresh (self.occup_ i)).1 * fact.element (self.nocc_ + a) i ∧
      (self.grad_va sqrt occup_thresh fact
          (self.grad_va sqrt occup_thresh fact sigma)).data
          (sigma.ptr_va + i * self.nvirt_ + a)
        = sigma.data (sigma.ptr_va + i * self.nvirt_ + a)
          + 2 * ((fac_va sqrt occup_thresh (self.occup_ i)).1
            * fact.element (self.nocc_ + a) i)) ∧
    (∀ i k, i < self.nact_ → k < self.nclosed_ →
      (self.grad_ca sqrt occup_thresh f fact sigma).data
          (sigma.ptr_ca + i * self.nclosed_ + k)
        = sigma.data (sigma.ptr_ca + i * self.nclosed_ + k)
          + (2 * fac_ca sqrt occup_thresh (self.occup_ i) * f.element k (self.nclosed_ + i)
            + -(fac_ca sqrt occup_thresh (self.occup_ i)) * fact.element k i) ∧
      (self.grad_ca sqrt occup_thresh f fact
          (self.grad_ca sqrt occup_thresh f fact sigma)).data
          (sigma.ptr_ca + i * self.nclosed_ + k)
        = sigma.data (sigma.ptr_ca + i * self.nclosed_ + k)
          + 2 * (2 * fac_ca sqrt occup_thresh (self.occup_ i)
              * f.element k (self.nclosed_ + i)
            + -(fac_ca sqrt occup_thresh (self.occup_ i)) * fact.element k i)) ∧
    self.grad_vc sqrt f (self.grad_va sqrt occup_thresh fact sigma)
      = self.grad_va sqrt occup_thresh fact (self.grad_vc sqrt f sigma) ∧
    self.grad_vc sqrt f (self.grad_ca sqrt occup_thresh f fact sigma)
      = self.grad_ca sqrt occup_thresh f fact (self.grad_vc sqrt f sigma) ∧
    self.grad_va sqrt occup_thresh fact (self.grad_ca sqrt occup_thresh f fact sigma)
      = self.grad_ca sqrt occup_thresh f fact (self.grad_va sqrt occup_thresh fact sigma) := by
  refine ⟨?_, ?_, ?_, ?_, ?_, ?_⟩
  · intro i a hi ha
    have h1 := grad_vc_apply sqrt self f sigma i a hi ha
    have h2 := grad_vc_apply sqrt self f (self.grad_vc sqrt f sigma) i a hi ha
    have hp : (self.grad_vc sqrt f sigma).ptr_vc = sigma.ptr_vc := by
      obtain ⟨s1, s2, s3⟩ := grad_vc_sizes sqrt self f sigma
      unfold RotFile.ptr_vc
      rw [s1, s2, s3]
    rw [hp, h1] at h2
    refine ⟨h1, ?_⟩
    rw [h2]
    ring
  · intro i a hi ha
    have h1 := grad_va_apply sqrt occup_thresh self fact sigma i a hi ha
    have h2 := grad_va_apply sqrt occup_thresh self fact
      (self.grad_va sqrt occup_thresh fact sigma) i a hi ha
    have hp : (self.grad_va sqrt occup_thresh fact sigma).ptr_va = sigma.ptr_va := by
      obtain ⟨s1, s2, s3⟩ := grad_va_sizes sqrt occup_thresh self fact sigma
      unfold RotFile.ptr_va
      rw [s1, s2]
    rw [hp, h1] at h2
    refine ⟨h1, ?_⟩
    rw [h2]
    ring
  · intro i k hi hk
    have h1 := grad_ca_apply sqrt occup_thresh self f fact sigma i k hi hk
    have h2 := grad_ca_apply sqrt occup_thresh self f fact
      (self.grad_ca sqrt occup_thresh f fact sigma) i k hi hk
    have hp : (self.grad_ca sqrt occup_thresh f fact sigma).ptr_ca = sigma.ptr_ca := rfl
    rw [hp, h1] at h2
    refine ⟨h1, ?_⟩
    rw [h2]
    ring
  · simp only [grad_vc_eq, grad_va_eq]
    exact (add_contrib_comm sigma _ _).symm
  · simp only [grad_vc_eq, grad_ca_eq]
    exact (add_contrib_comm sigma _ _).symm
  · simp only [grad_va_eq, grad_ca_eq]
    exact (add_contrib_comm sigma _ _).symm

end bagel

namespace bagel
namespace SMITH
namespace CASPT2

/-! ## The states with a zero source in `solve_linear` -/

/-- The residual phase of state `j` writes `rall_` and `t` at `j` only. -/
theorem residual_phase_frame {MT R Solver : Type} [LinearOrderedField R]
    (ops : Ops MT R Solver) (j k : Nat) (hk : k ≠ j) (st : LoopState MT R Solver) :
    (residual_phase ops j st).t k = st.t k ∧
      (residual_phase ops j st).self.rall_ k = st.self.rall_ k := by
  refine ⟨?_, ?_⟩
  · unfold residual_phase
    simp only
    rw [Function.update_noteq hk]
  · unfold residual_phase
    simp only
    apply foldl_preserves (fun self : CASPT2 MT R => self.rall_ k = st.self.rall_ k)
    · intro self jst hself
      apply foldl_preserves (fun self : CASPT2 MT R => self.rall_ k = st.self.rall_ k)
      · intro self1 ist hself1
        split
        · exact hself1
        · simp only
          rw [Function.update_noteq hk]
          exact hself1
      · exact hself
    · simp only
      rw [Function.update_noteq hk]

/-- One execution of the loop body for state `j` leaves the amplitude, the energy and the
residual of every other state alone. -/
theorem iteration_frame {MT R Solver : Type} [LinearOrderedField R] (ops : Ops MT R Solver)
    (s : Nat → MT) (j k : Nat) (hk : k ≠ j) (iter : Int) (st : LoopState MT R Solver) :
    (iteration ops s j iter st).t k = st.t k ∧
      (iteration ops s j iter st).self.energy_ k = st.self.energy_ k ∧
      (iteration ops s j iter st).self.rall_ k = st.self.rall_ k := by
  obtain ⟨h1, h2⟩ := residual_phase_frame ops j k hk st
  have h3 := residual_phase_energy ops j st
  refine ⟨?_, ?_, ?_⟩
  · simp only [iteration, convergence_phase, energy_phase, solver_phase]
    split
    · rw [Function.update_noteq hk, h1]
    · rw [Function.update_noteq hk, Function.update_noteq hk, h1]
  · simp only [iteration, convergence_phase, energy_phase, solver_phase]
    rw [Function.update_noteq hk, Function.update_noteq hk, h3]
  · simp only [iteration, convergence_phase, energy_phase, solver_phase]
    rw [Function.update_noteq hk, h2]

theorem iterate_frame {MT R Solver : Type} [LinearOrderedField R] (ops : Ops MT R Solver)
    (s : Nat → MT) (j k : Nat) (hk : k ≠ j) :
    ∀ (fuel : Nat) (iter : Int) (st st' : LoopState MT R Solver),
      iterate ops s j fuel iter st = some st' →
      st'.t k = st.t k ∧ st'.self.energy_ k = st.self.energy_ k ∧
        st'.self.rall_ k = st.self.rall_ k := by
  intro fuel
  induction fuel with
  | zero =>
    intro iter st st' h
    unfold iterate at h
    split at h
    · rw [← Option.some.inj h]
      exact ⟨rfl, rfl, rfl⟩
    · exact absurd h (by simp)
  | succ fuel ih =>
    intro iter st st' h
    unfold iterate at h
    split at h
    · rw [← Option.some.inj h]
      exact ⟨rfl, rfl, rfl⟩
    · obtain ⟨f1, f2, f3⟩ := iteration_frame ops s j k hk iter st
      simp only at h
      split at h
      · rw [← Option.some.inj h]
        exact ⟨f1, f2, f3⟩
      · obtain ⟨g1, g2, g3⟩ := ih (iter + 1) _ st' h
        exact ⟨g1.trans f1, g2.trans f2, g3.trans f3⟩

/-- The turn of a state with a zero source: the energy is set to 0, the amplitude is zeroed,
one line is printed, and nothing else happens, whatever the fuel. -/
theorem solve_state_zero {MT R Solver : Type} [LinearOrderedField R] (ops : Ops MT R Solver)
    (s : Nat → MT) (fuel : Nat) (acc : CASPT2 MT R × (Nat → MT) × Bool) (i : Nat)
    (hz : ops.rms (s i) < 1 / 10 ^ 15) :
    solve_state ops s fuel acc i
      = some ({ acc.1 with
          e0_ := acc.1.e0all_ i - acc.1.shift
          energy_ := Function.update acc.1.energy_ i 0
          output := acc.1.output ++ [Printed.iteration 0 0 0] },
        Function.update acc.2.1 i (ops.zero (acc.2.1 i)), acc.2.2) := by
  unfold solve_state
  simp only [if_pos hz]

/-- The turn of state `j` leaves the amplitude, the energy and the residual of every other
state alone. -/
theorem solve_state_frame {MT R Solver : Type} [LinearOrderedField R] (ops : Ops MT R Solver)
    (s : Nat → MT) (fuel : Nat) (acc acc' : CASPT2 MT R × (Nat → MT) × Bool) (j k : Nat)
    (hk : k ≠ j) (h : solve_state ops s fuel acc j = some acc') :
    acc'.2.1 k = acc.2.1 k ∧ acc'.1.energy_ k = acc.1.energy_ k ∧
      acc'.1.rall_ k = acc.1.rall_ k := by
  by_cases hz : ops.rms (s j) < 1 / 10 ^ 15
  · rw [solve_state_zero ops s fuel acc j hz] at h
    have h2 := Option.some.inj h
    subst h2
    exact ⟨Function.update_noteq hk _ _, Function.update_noteq hk _ _, rfl⟩
  · unfold solve_state at h
    simp only [if_neg hz] at h
    split at h
    · exact absurd h (by simp)
    · rename_i st hst
      obtain ⟨g1, g2, g3⟩ := iterate_frame ops s j k hk fuel 0 _ st hst
      rw [← Option.some.inj h]
      simp only at g1 g2 g3 ⊢
      rw [g1, g2, g3, Function.update_noteq hk, Function.update_noteq hk,
        Function.update_noteq hk]
      exact ⟨rfl, rfl, rfl⟩

/-- A state `i` with a zero source, seen from the loop over the states: before its turn its
amplitude and residual are those of the call; after its turn the amplitude is the zeroed one,
the energy is 0 and the residual is still that of the call. -/
theorem states_upto_zero_source {MT R Solver : Type} [LinearOrderedField R]
    (ops : Ops MT R Solver) (self : CASPT2 MT R) (s t : Nat → MT) (fuel : Nat) (i : Nat)
    (hz : ops.rms (s i) < 1 / 10 ^ 15) :
    ∀ m a, states_upto ops self s t fuel m = some a →
      (m ≤ i → a.2.1 i = t i ∧ a.1.rall_ i = self.rall_ i) ∧
      (i < m → a.2.1 i = ops.zero (t i) ∧ a.1.energy_ i = 0 ∧ a.1.rall_ i = self.rall_ i) := by
  intro m
  induction m with
  | zero =>
    intro a ha
    have h0 : states_upto ops self s t fuel 0 = some (self, t, true) := rfl
    rw [h0] at ha
    rw [← Option.some.inj ha]
    exact ⟨fun _ => ⟨rfl, rfl⟩, fun h => absurd h (Nat.not_lt_zero _)⟩
  | succ m ih =>
    intro a ha
    rw [states_upto_succ] at ha
    cases hb : states_upto ops self s t fuel m with
    | none => rw [hb] at ha; exact absurd ha (by simp)
    | some b =>
      rw [hb] at ha
      simp only [Option.some_bind] at ha
      obtain ⟨ih1, ih2⟩ := ih b hb
      by_cases him : i = m
      · subst him
        rw [solve_state_zero ops s fuel b i hz] at ha
        obtain ⟨e1, e2⟩ := ih1 (le_refl i)
        refine ⟨fun h => absurd h (by omega), fun _ => ?_⟩
        rw [← Option.some.inj ha]
        simp only
        rw [Function.update_same, Function.update_same, e1]
        exact ⟨rfl, rfl, e2⟩
      · obtain ⟨f1, f2, f3⟩ := solve_state_frame ops s fuel b a m i him ha
        refine ⟨fun h => ?_, fun h => ?_⟩
        · obtain ⟨e1, e2⟩ := ih1 (by omega)
          exact ⟨f1.trans e1, f3.trans e2⟩
        · obtain ⟨e1, e2, e3⟩ := ih2 (by omega)
          exact ⟨f1.trans e1, f2.trans e2, f3.trans e3⟩

/-- When every state has a zero source the loop over the states ends with `converged` still
true, whatever the fuel. -/
theorem states_upto_all_zero {MT R Solver : Type} [LinearOrderedField R]
    (ops : Ops MT R Solver) (self : CASPT2 MT R) (s t : Nat → MT) (fuel : Nat) :
    ∀ m, (∀ j, j < m → ops.rms (s j) < 1 / 10 ^ 15) →
      ∃ a, states_upto ops self s t fuel m = some a ∧ a.2.2 = true := by
  intro m
  induction m with
  | zero => intro _; exact ⟨(self, t, true), rfl, rfl⟩
  | succ m ih =>
    intro hall
    obtain ⟨b, hb, hflag⟩ := ih (fun j hj => hall j (Nat.lt_succ_of_lt hj))
    refine ⟨({ b.1 with
        e0_ := b.1.e0all_ m - b.1.shift
        energy_ := Function.update b.1.energy_ m 0
        output := b.1.output ++ [Printed.iteration 0 0 0] },
      Function.update b.2.1 m (ops.zero (b.2.1 m)), b.2.2), ?_, hflag⟩
    rw [states_upto_succ, hb]
    simp only [Option.some_bind]
    rw [solve_state_zero ops s fuel b m (hall m (Nat.lt_succ_self m))]

/-- The result of `solve_linear` in terms of the loop over the states. -/
theorem solve_linear_eq {MT R Solver : Type} [LinearOrderedField R] (ops : Ops MT R Solver)
    (self : CASPT2 MT R) (s t : Nat → MT) (fuel : Nat) :
    solve_linear ops self s t fuel
      = (states_upto ops self s t fuel self.nstates_).map (fun acc =>
          ({ acc.1 with output := acc.1.output ++ [Printed.summary (!acc.2.2)] }, acc.2.1)) := by
  unfold solve_linear states_upto
  cases (List.range self.nstates_).foldlM (solve_state ops s fuel) (self, t, true) <;> rfl

/-- C27: zero-source shortcut in `solve_linear`.  For a state `i` whose source has RMS below
`1.0e-15`: the turn of the state consists of setting `e0_` and `energy_[i] = 0`, zeroing
`t[i]` and printing one line, for every fuel (no iteration, hence no residual queue and no
solver: the turn does not depend on these operations and leaves `rall_` alone), and it leaves
the flag `converged` as it was; in the result of `solve_linear` the amplitude `t[i]` is the
zeroed one, `energy_[i]` is 0 and `rall_[i]` is untouched; with `maxiter >= 0` and enough fuel
`solve_linear` returns; and when all states have a zero source it returns with any fuel and
reports convergence. -/
theorem solve_linear_zero_source {MT R Solver : Type} [LinearOrderedField R]
    (ops : Ops MT R Solver) (self : CASPT2 MT R) (s t : Nat → MT) (fuel : Nat) (i : Nat)
    (hi : i < self.nstates_) (hz : ops.rms (s i) < 1 / 10 ^ 15) :
    (∀ acc : CASPT2 MT R × (Nat → MT) × Bool, solve_state ops s fuel acc i
      = some ({ acc.1 with
          e0_ := acc.1.e0all_ i - acc.1.shift
          energy_ := Function.update acc.1.energy_ i 0
          output := acc.1.output ++ [Printed.iteration 0 0 0] },
        Function.update acc.2.1 i (ops.zero (acc.2.1 i)), acc.2.2)) ∧
    (∀ (ops2 : Ops MT R Solver) (fuel2 : Nat), ops2.zero = ops.zero → ops2.rms = ops.rms →
      ∀ acc, solve_state ops2 s fuel2 acc i = solve_state ops s fuel acc i) ∧
    (∀ self' t', solve_linear ops self s t fuel = some (self', t') →
      t' i = ops.zero (t i) ∧ self'.energy_ i = 0 ∧ self'.rall_ i = self.rall_ i) ∧
    (0 ≤ self.maxiter → self.maxiter.toNat ≤ fuel →
      ∃ r, solve_linear ops self s t fuel = some r) ∧
    ((∀ j, j < self.nstates_ → ops.rms (s j) < 1 / 10 ^ 15) →
      ∃ self' t', solve_linear ops self s t fuel = some (self', t') ∧
        ∃ lines, self'.output = lines ++ [Printed.summary false]) := by
  refine ⟨fun acc => solve_state_zero ops s fuel acc i hz, ?_, ?_, ?_, ?_⟩
  · intro ops2 fuel2 h1 h2 acc
    have hz2 : ops2.rms (s i) < 1 / 10 ^ 15 := by rw [h2]; exact hz
    rw [solve_state_zero ops s fuel acc i hz, solve_state_zero ops2 s fuel2 acc i hz2, h1]
  · intro self' t' h
    rw [solve_linear_eq] at h
    cases ha : states_upto ops self s t fuel self.nstates_ with
    | none => rw [ha] at h; exact absurd h (by simp)
    | some a =>
      rw [ha] at h
      simp only [Option.map_some', Option.some.injEq, Prod.mk.injEq] at h
      obtain ⟨h1, h2⟩ := h
      obtain ⟨e1, e2, e3⟩ :=
        (states_upto_zero_source ops self s t fuel i hz self.nstates_ a ha).2 hi
      rw [← h1, ← h2]
      exact ⟨e1, e2, e3⟩
  · intro hmax hfuel
    obtain ⟨a, ha, _⟩ := states_upto_total ops self s t fuel hmax hfuel self.nstates_
    rw [solve_linear_eq, ha]
    exact ⟨_, rfl⟩
  · intro hall
    obtain ⟨a, ha, hflag⟩ := states_upto_all_zero ops self s t fuel self.nstates_ hall
    refine ⟨{ a.1 with output := a.1.output ++ [Printed.summary (!a.2.2)] }, a.2.1, ?_,
      a.1.output, ?_⟩
    · rw [solve_linear_eq, ha]
      rfl
    · simp only [hflag]
      rfl

/-- Witness of C27: the one-state object `demo_caspt2 3` with the source `1`, whose RMS is 0;
with no fuel at all `solve_linear` returns the zeroed amplitude and the energy 0. -/
theorem solve_linear_zero_source_witness :
    (0 < (demo_caspt2 3).nstates_ ∧ demo_ops.rms 1 < 1 / 10 ^ 15) ∧
    ∃ self' t', solve_linear demo_ops (demo_caspt2 3) (fun _ => 1) (fun _ => 9) 0
        = some (self', t') ∧
      (t' 0 = demo_ops.zero 9 ∧ self'.energy_ 0 = 0 ∧ self'.rall_ 0 = (demo_caspt2 3).rall_ 0) ∧
      ∃ lines, self'.output = lines ++ [Printed.summary false] := by
  have hz : demo_ops.rms 1 < 1 / 10 ^ 15 := by norm_num [demo_ops]
  have hi : 0 < (demo_caspt2 3).nstates_ := by decide
  have key := solve_linear_zero_source demo_ops (demo_caspt2 3) (fun _ => 1) (fun _ => 9) 0 0
    hi hz
  obtain ⟨self', t', h1, h2⟩ := key.2.2.2.2 (by
    intro j _
    exact hz)
  exact ⟨⟨hi, hz⟩, self', t', h1, key.2.2.1 self' t' h1, h2⟩

end CASPT2
end SMITH
end bagel

namespace bagel

/-- A loop that appends one entry for every element passing a test builds the list of the
entries of the elements that pass, in order. -/
theorem foldl_push_if {α β : Type} (c : α → Bool) (e : α → β) :
    ∀ (l : List α) (init : List β),
      l.foldl (fun acc x => if c x then acc ++ [e x] else acc) init
        = init ++ (l.filter c).map e := by
  intro l
  induction l with
  | nil => intro init; simp
  | cons a as ih =>
    intro init
    rw [List.foldl_cons, ih]
    cases hc : c a <;> simp [List.filter_cons, hc]

namespace SMITH
namespace MSCASPT2

/-- C21: task construction.  From a list `t` of at least three tensors `Task901` is built
with `t[0]` as output and `(t[1], t[2])` as ordered inputs; the blocks of its subtasks are
the blocks of `range[3]` for which `t[0]` is local, in range order (one subtask for each such
block, none for the others), every subtask carrying the inputs, the output and the ranges of
the task; so the number of subtasks is the number of local blocks and at most
`range[3]->nblock()`.  The constructors of `Task902` to `Task905` build the same object. -/
theorem task901_construction (is_local : Nat → Index → Bool) (t : List Nat)
    (range : Fin 4 → IndexRange) (ht : 3 ≤ t.length) :
    ∃ task, Task901.ctor is_local t range = some task ∧
      t[0]? = some task.out_ ∧ t[1]? = some task.in_.1 ∧ t[2]? = some task.in_.2 ∧
      task.subtasks_.map (fun st => st.block)
        = (range 3).range_.filter (fun ci0 => is_local task.out_ ci0) ∧
      (∀ st ∈ task.subtasks_, st.in_ = task.in_ ∧ st.out = task.out_ ∧ st.range_ = range ∧
        is_local task.out_ st.block = true) ∧
      task.subtasks_.length = (range 3).range_.countP (fun ci0 => is_local task.out_ ci0) ∧
      task.subtasks_.length ≤ (range 3).nblock ∧
      Task902.ctor is_local t range = some task ∧ Task903.ctor is_local t range = some task ∧
      Task904.ctor is_local t range = some task ∧ Task905.ctor is_local t range = some task := by
  match t, ht with
  | t0 :: t1 :: t2 :: rest, _ =>
    have hsub : (range 3).range_.foldl
        (fun subtasks_ ci0 =>
          if is_local t0 ci0 then
            subtasks_ ++ [({ block := ci0, in_ := (t1, t2), out := t0, range_ := range } :
              Task901.Task_local)]
          else subtasks_) []
        = ((range 3).range_.filter (fun ci0 => is_local t0 ci0)).map
            (fun ci0 => ({ block := ci0, in_ := (t1, t2), out := t0, range_ := range } :
              Task901.Task_local)) := by
      rw [foldl_push_if (fun ci0 => is_local t0 ci0)]
      rfl
    refine ⟨{ out_ := t0, in_ := (t1, t2)
              subtasks_ := ((range 3).range_.filter (fun ci0 => is_local t0 ci0)).map
                (fun ci0 => ({ block := ci0, in_ := (t1, t2), out := t0, range_ := range } :
                  Task901.Task_local)) }, ?_, by simp, by simp, by simp, ?_, ?_, ?_, ?_, ?_, ?_,
      ?_, ?_⟩
    · simp only [Task901.ctor]
      rw [hsub]
    · simp only [List.map_map]
      exact List.map_id _
    · intro st hst
      simp only [List.mem_map, List.mem_filter] at hst
      obtain ⟨ci0, ⟨_, hloc⟩, rfl⟩ := hst
      exact ⟨rfl, rfl, rfl, hloc⟩
    · simp only [List.length_map]
      rw [List.countP_eq_length_filter]
    · simp only [List.length_map]
      exact List.length_filter_le _ _
    · simp only [Task902.ctor]
      rw [hsub]
    · simp only [Task903.ctor]
      rw [hsub]
    · simp only [Task904.ctor]
      rw [hsub]
    · simp only [Task905.ctor]
      rw [hsub]

/-- Witness of C21: the tensors at addresses 10, 11, 12, a CI range of three blocks and an
output tensor that is local for the blocks with an even key. -/
theorem task901_construction_witness :
    ∃ task, Task901.ctor (fun _ b => b.key % 2 == 0) [10, 11, 12]
        (fun _ => { range_ := [⟨0, 4, 0⟩, ⟨4, 4, 1⟩, ⟨8, 4, 2⟩] }) = some task ∧
      task.out_ = 10 ∧ task.in_ = (11, 12) ∧
      task.subtasks_.map (fun st => st.block) = [⟨0, 4, 0⟩, ⟨8, 4, 2⟩] := by
  obtain ⟨task, h1, h2, h3, h4, h5, _⟩ := task901_construction (fun _ b => b.key % 2 == 0)
    [10, 11, 12] (fun _ => { range_ := [⟨0, 4, 0⟩, ⟨4, 4, 1⟩, ⟨8, 4, 2⟩] }) (by decide)
  refine ⟨task, h1, ?_, ?_, ?_⟩
  · simpa using h2.symm
  · have e1 : task.in_.1 = 11 := by simpa using h3.symm
    have e2 : task.in_.2 = 12 := by simpa using h4.symm
    exact Prod.ext e1 e2
  · rw [h5]
    rfl

end MSCASPT2
end SMITH
end bagel

namespace bagel
namespace SMITH
namespace CASPT2

/-! ## The passes of `do_rdm_deriv` -/

/-- When `ndet * nact^4` does not exceed `ijmax` there is one pass, with offset 0 and size
`ndet`. -/
theorem do_rdm_deriv_single_pass (ndet nact : Nat) (h1 : 1 ≤ ndet) (h2 : 1 ≤ nact)
    (h : ndet * (nact * nact) * (nact * nact) ≤ 635040001) :
    do_rdm_deriv ndet nact = [(0, ndet)] := by
  have hnn : 1 ≤ nact * nact := Nat.mul_le_mul h2 h2
  have ha : ndet * (nact * nact) ≤ ndet * (nact * nact) * (nact * nact) :=
    Nat.le_mul_of_pos_right _ hnn
  have hb : nact * nact ≤ ndet * (nact * nact) := Nat.le_mul_of_pos_left _ h1
  have hc : ndet ≤ ndet * (nact * nact) := Nat.le_mul_of_pos_right _ hnn
  have hpos : 1 ≤ ndet * (nact * nact) * (nact * nact) := by omega
  have e1 : nact * nact % 2 ^ 64 = nact * nact := Nat.mod_eq_of_lt (by omega)
  have e2 : ndet * (nact * nact) % 2 ^ 64 = ndet * (nact * nact) := Nat.mod_eq_of_lt (by omega)
  have e3 : ndet * (nact * nact) * (nact * nact) % 2 ^ 64
      = ndet * (nact * nact) * (nact * nact) := Nat.mod_eq_of_lt (by omega)
  have e4 : (ndet * (nact * nact) * (nact * nact) + 2 ^ 64 - 1) % 2 ^ 64
      = ndet * (nact * nact) * (nact * nact) - 1 := by
    have : ndet * (nact * nact) * (nact * nact) + 2 ^ 64 - 1
        = (ndet * (nact * nact) * (nact * nact) - 1) + 2 ^ 64 := by omega
    rw [this, Nat.add_mod_right]
    exact Nat.mod_eq_of_lt (by omega)
  have e5 : (ndet * (nact * nact) * (nact * nact) - 1) / 635040001 = 0 :=
    Nat.div_eq_of_lt (by omega)
  have e6 : (ndet + 2 ^ 64 - 1) % 2 ^ 64 = ndet - 1 := by
    have : ndet + 2 ^ 64 - 1 = (ndet - 1) + 2 ^ 64 := by omega
    rw [this, Nat.add_mod_right]
    exact Nat.mod_eq_of_lt (by omega)
  have e7 : (ndet + 2 ^ 64 - 0) % 2 ^ 64 = ndet := by
    rw [Nat.sub_zero, Nat.add_mod_right]
    exact Nat.mod_eq_of_lt (by omega)
  have hr : List.range 1 = [0] := rfl
  unfold do_rdm_deriv
  simp only [e1, e2, e3, e4, e5, e6, Nat.zero_add, Nat.div_one, hr, List.map_cons,
    List.map_nil, Nat.sub_self, ne_eq, not_true_eq_false, if_false, e7, Nat.zero_mul,
    Nat.zero_mod]

/-- C24 at the input `ndet = 153165376`, `nact = 17` (12 electrons in 17 active orbitals,
`ndet = C(17,6)^2`), where nothing overflows: there are 20145 passes of `nsize = 7604`
determinants; pass 20142 is the slice `[153159768, 153167372)`, which runs past `ndet`, pass
20143 starts at `153167372`, beyond `ndet`, and in the last pass `ndet - ioffset` is
`153165376 - 153174976`, which wraps to `2^64 - 9600`. -/
theorem do_rdm_deriv_passes_overrun :
    153165376 * (17 * 17) * (17 * 17) < 2 ^ 64 ∧
    (do_rdm_deriv 153165376 17).length = 20145 ∧
    (do_rdm_deriv 153165376 17)[20142]? = some (153159768, 7604) ∧
    153159768 + 7604 > 153165376 ∧
    (do_rdm_deriv 153165376 17)[20143]? = some (153167372, 7604) ∧
    (do_rdm_deriv 153165376 17)[20144]? = some (153174976, 2 ^ 64 - 9600) := by
  refine ⟨by norm_num, ?_, ?_, by norm_num, ?_, ?_⟩
  · simp [do_rdm_deriv]
  · simp [do_rdm_deriv, List.getElem?_map, List.getElem?_range]
  · simp [do_rdm_deriv, List.getElem?_map, List.getElem?_range]
  · simp [do_rdm_deriv, List.getElem?_map, List.getElem?_range]

end CASPT2
end SMITH

/-! ## The component buffers of `SOECPBatch::compute` -/

/-- The pointers `current_data1` and `current_data2` of `SOECPBatch::compute` are the same,
`intermediate_c + size_c`, for every batch. -/
theorem soecp_same_pointer {R : Type} [Zero R] (self : SOECPBatch)
    (tmp : Nat × Nat × Nat → Nat × Nat × Nat → Nat → Nat → R × R × R) :
    (self.compute tmp).2.2.1 = (self.compute tmp).2.2.2 := rfl

/-- C30 at two p shells with one contraction each and integrals with the components
`(1, 2, 3)`: `size_c` is 9, `current_data1` and `current_data2` are both position 9 of the
intermediate array, every store of `tmp[2]` overwrites the store of `tmp[1]` made just before
it, and the values passed on to `data_`, `data1_` and `data2_` are all 1, all 3 and all 3;
the last third of the array is never written. -/
theorem soecp_components_collide :
    ((SOECPBatch.common_init 1 1 1 1 1 1).compute
        (fun _ _ _ _ => ((1 : Int), (2 : Int), (3 : Int)))).2
      = (0, 9, 9) ∧
    ((SOECPBatch.common_init 1 1 1 1 1 1).compute
        (fun _ _ _ _ => ((1 : Int), (2 : Int), (3 : Int)))).1.writes.take 6
      = [(0, 0), (9, 1), (9, 2), (1, 0), (10, 1), (10, 2)] ∧
    (∀ e ∈ ((SOECPBatch.common_init 1 1 1 1 1 1).compute
        (fun _ _ _ _ => ((1 : Int), (2 : Int), (3 : Int)))).1.writes, e.1 < 2 * 9) ∧
    (SOECPBatch.common_init 1 1 1 1 1 1).get_data_input
        ((SOECPBatch.common_init 1 1 1 1 1 1).compute
          (fun _ _ _ _ => ((1 : Int), (2 : Int), (3 : Int)))).1.intermediate_c 0
      = List.replicate 9 1 ∧
    (SOECPBatch.common_init 1 1 1 1 1 1).get_data_input
        ((SOECPBatch.common_init 1 1 1 1 1 1).compute
          (fun _ _ _ _ => ((1 : Int), (2 : Int), (3 : Int)))).1.intermediate_c 9
      = List.replicate 9 3 := by
  decide

/-! ## The groups of `RelMOFile::kramers` on energies with overlapping closeness -/

/-- On two well separated pairs the groups are `[0,1]` and `[2,3]`, `done` holds every orbital
once and the columns 0 and 1 are written. -/
theorem kramers_paired_example :
    RelMOFile.kramers 4 4 paired_eig
      = .ok { done := [0, 1, 2, 3], blocks := [(0, 1, [0, 1]), (1, 1, [2, 3])] } := by
  norm_num [RelMOFile.kramers, RelMOFile.kramers_loop, RelMOFile.kramers_step,
    RelMOFile.kramers_current, RelMOFile.close_to, paired_eig, List.range_succ, List.range',
    pure, Except.pure, bind, Except.bind]

/-- C15 at six orbitals with the energies `near_eig` and a coefficient matrix of 8 rows.
Orbitals 0, 1, 2 are a group of three orbitals with energies equal within the tolerance:
orbital 2 passes the test of line 138 against orbital 0 and against orbital 1, and none of
the orbitals 3, 4, 5 passes it against any of them, in either direction; likewise orbitals
3, 4, 5.  Both groups have an odd number of members, yet the call returns a result and
throws neither `runtime_error` nor any other exception.  (With 5 rows the same call throws
`logic_error`.) -/
theorem kramers_odd_group_not_fatal :
    (RelMOFile.close_to (near_eig 0) (near_eig 2) = true ∧
      RelMOFile.close_to (near_eig 1) (near_eig 2) = true ∧
      RelMOFile.close_to (near_eig 3) (near_eig 5) = true ∧
      RelMOFile.close_to (near_eig 4) (near_eig 5) = true) ∧
    (∀ i ∈ [0, 1, 2], ∀ j ∈ [3, 4, 5],
      RelMOFile.close_to (near_eig i) (near_eig j) = false ∧
      RelMOFile.close_to (near_eig j) (near_eig i) = false) ∧
    (∃ out, RelMOFile.kramers 8 6 near_eig = .ok out) ∧
    RelMOFile.kramers 8 6 near_eig ≠ .error .runtime_error ∧
    RelMOFile.kramers 5 6 near_eig = .error .logic_error := by
  have hrun : RelMOFile.kramers 8 6 near_eig
      = .ok { done := [0, 2, 1, 2, 3, 5, 4, 5],
              blocks := [(0, 1, [0, 2]), (1, 1, [1, 2]), (2, 1, [3, 5]), (3, 1, [4, 5])] } := by
    norm_num [RelMOFile.kramers, RelMOFile.kramers_loop, RelMOFile.kramers_step,
      RelMOFile.kramers_current, RelMOFile.close_to, near_eig, List.range_succ, List.range',
      pure, Except.pure, bind, Except.bind]
  refine ⟨?_, ?_, ⟨_, hrun⟩, ?_, ?_⟩
  · norm_num [RelMOFile.close_to, near_eig]
  · norm_num [RelMOFile.close_to, near_eig]
  · rw [hrun]
    exact fun h => Except.noConfusion h
  · norm_num [RelMOFile.kramers]

/-- C25 at six orbitals with the energies `near_eig` and a coefficient matrix of 8 rows: no
exception is thrown; the groups are `[0,2]`, `[1,2]`, `[3,5]`, `[4,5]`, so orbitals 2 and 5
are in two groups; `done` ends with 8 entries, not 6; and the last group is placed in
column 3 of outputs that have `mdim/2 = 3` columns. -/
theorem kramers_groups_overlap :
    RelMOFile.kramers 8 6 near_eig
      = .ok { done := [0, 2, 1, 2, 3, 5, 4, 5],
              blocks := [(0, 1, [0, 2]), (1, 1, [1, 2]), (2, 1, [3, 5]), (3, 1, [4, 5])] } ∧
    ([0, 2, 1, 2, 3, 5, 4, 5] : List Nat).length ≠ 6 ∧
    ¬ ([0, 2, 1, 2, 3, 5, 4, 5] : List Nat).Nodup ∧
    ¬ (3 : Nat) < 6 / 2 := by
  refine ⟨?_, by decide, by decide, by decide⟩
  norm_num [RelMOFile.kramers, RelMOFile.kramers_loop, RelMOFile.kramers_step,
    RelMOFile.kramers_current, RelMOFile.close_to, near_eig, List.range_succ, List.range',
    pure, Except.pure, bind, Except.bind]

end bagel

namespace bagel

/-! ## `RelMOFile::rearrange_eig` -/

/-- The loop over the rows `j < k` of lines 428-431 for one `i`: in these rows the columns
`i` and `n + i` are set, the store to column `n + i` being the later one. -/
theorem rearrange_rows {C : Type} (n i : Nat) (coeff : Nat → Nat → C) :
    ∀ (k : Nat) (tm : Nat → Nat → C) (j c : Nat),
      (List.range k).foldl
        (fun (tm : Nat → Nat → C) j =>
          let a := Function.update tm j (Function.update (tm j) i (coeff j (2 * i)))
          Function.update a j (Function.update (a j) (n + i) (coeff j (2 * i + 1))))
        tm j c
      = if j < k then
          (if c = n + i then coeff j (2 * i + 1) else if c = i then coeff j (2 * i) else tm j c)
        else tm j c := by
  intro k
  induction k with
  | zero => intro tm j c; simp
  | succ k ih =>
    intro tm j c
    rw [List.range_succ, List.foldl_append, List.foldl_cons, List.foldl_nil]
    generalize hG : (List.range k).foldl
        (fun (tm : Nat → Nat → C) j =>
          let a := Function.update tm j (Function.update (tm j) i (coeff j (2 * i)))
          Function.update a j (Function.update (a j) (n + i) (coeff j (2 * i + 1))))
        tm = G at ih ⊢
    have ihG := ih tm
    rw [hG] at ihG
    by_cases hjk : j = k
    · subst hjk
      have h1 : j < j + 1 := Nat.lt_succ_self j
      have h2 : ¬ j < j := lt_irrefl j
      rw [if_pos h1]
      by_cases hc1 : c = n + i
      · simp [hc1]
      · by_cases hc2 : c = i
        · subst hc2
          rw [if_neg hc1, if_pos rfl]
          simp only [Function.update_same]
          rw [Function.update_noteq hc1, Function.update_same]
        · simp [hc1, hc2, ihG]
    · have hlt : j < k + 1 ↔ j < k := by omega
      simp [hjk, ihG, hlt]

/-- The arrays `tempv` and `tempm` after the passes `i < m` of the loop, for `m <= n`. -/
theorem rearrange_loop_apply {R C : Type} (n : Nat) (eig : Nat → R) (coeff : Nat → Nat → C)
    (tempv : Nat → R) (tempm : Nat → Nat → C) :
    ∀ m, m ≤ n →
      (∀ p, (RelMOFile.rearrange_loop n eig coeff tempv tempm m).1 p
        = if p < m then eig (2 * p)
          else if n ≤ p ∧ p < n + m then eig (2 * (p - n) + 1) else tempv p) ∧
      (∀ j c, (RelMOFile.rearrange_loop n eig coeff tempv tempm m).2 j c
        = if j < 2 * n then
            (if c < m then coeff j (2 * c)
              else if n ≤ c ∧ c < n + m then coeff j (2 * (c - n) + 1) else tempm j c)
          else tempm j c) := by
  intro m
  induction m with
  | zero =>
    intro _
    refine ⟨fun p => ?_, fun j c => ?_⟩
    · have h1 : ¬ p < 0 := Nat.not_lt_zero p
      have h2 : ¬ (n ≤ p ∧ p < n + 0) := by omega
      rw [if_neg h1, if_neg h2]
      rfl
    · have h1 : ¬ c < 0 := Nat.not_lt_zero c
      have h2 : ¬ (n ≤ c ∧ c < n + 0) := by omega
      rw [if_neg h1, if_neg h2, ite_self]
      rfl
  | succ m ih =>
    intro hm
    obtain ⟨ih1, ih2⟩ := ih (by omega)
    have hunf : RelMOFile.rearrange_loop n eig coeff tempv tempm (m + 1)
        = (Function.update
            (Function.update (RelMOFile.rearrange_loop n eig coeff tempv tempm m).1 m
              (eig (2 * m))) (n + m) (eig (2 * m + 1)),
          (List.range (2 * n)).foldl
            (fun (tm : Nat → Nat → C) j =>
              let a := Function.update tm j (Function.update (tm j) m (coeff j (2 * m)))
              Function.update a j (Function.update (a j) (n + m) (coeff j (2 * m + 1))))
            (RelMOFile.rearrange_loop n eig coeff tempv tempm m).2) := by
      simp only [RelMOFile.rearrange_loop, List.range_succ, List.foldl_append, List.foldl_cons,
        List.foldl_nil]
    rw [hunf]
    refine ⟨fun p => ?_, fun j c => ?_⟩
    · simp only [Function.update_apply]
      by_cases h1 : p = n + m
      · subst h1
        have a1 : ¬ n + m < m + 1 := by omega
        have a2 : n ≤ n + m ∧ n + m < n + (m + 1) := by omega
        have a3 : n + m - n = m := by omega
        rw [if_pos rfl, if_neg a1, if_pos a2, a3]
      · rw [if_neg h1]
        by_cases h2 : p = m
        · subst h2
          rw [if_pos rfl, if_pos (Nat.lt_succ_self p)]
        · rw [if_neg h2, ih1]
          have b1 : p < m + 1 ↔ p < m := by omega
          have b2 : (n ≤ p ∧ p < n + (m + 1)) ↔ (n ≤ p ∧ p < n + m) := by omega
          simp only [b1, b2]
    · simp only
      rw [rearrange_rows n m coeff (2 * n) _ j c]
      by_cases hj : j < 2 * n
      · rw [if_pos hj, if_pos hj]
        by_cases h1 : c = n + m
        · subst h1
          have a1 : ¬ n + m < m + 1 := by omega
          have a2 : n ≤ n + m ∧ n + m < n + (m + 1) := by omega
          have a3 : n + m - n = m := by omega
          rw [if_pos rfl, if_neg a1, if_pos a2, a3]
        · rw [if_neg h1]
          by_cases h2 : c = m
          · subst h2
            rw [if_pos rfl, if_pos (Nat.lt_succ_self c)]
          · rw [if_neg h2, ih2, if_pos hj]
            have b1 : c < m + 1 ↔ c < m := by omega
            have b2 : (n ≤ c ∧ c < n + (m + 1)) ↔ (n ≤ c ∧ c < n + m) := by omega
            simp only [b1, b2]
      · rw [if_neg hj, if_neg hj, ih2, if_neg hj]

/-- The map from new to old positions permutes the positions below `2n`. -/
theorem source_index_perm (n : Nat) :
    ((List.range (2 * n)).map (RelMOFile.source_index n)).Perm (List.range (2 * n)) := by
  have hnd : ((List.range (2 * n)).map (RelMOFile.source_index n)).Nodup := by
    apply List.Nodup.map_on _ (List.nodup_range _)
    intro x hx y hy hxy
    rw [List.mem_range] at hx hy
    unfold RelMOFile.source_index at hxy
    by_cases h1 : x < n <;> by_cases h2 : y < n <;> simp only [h1, h2, if_true, if_false] at hxy
      <;> omega
  have hsub : (List.range (2 * n)).map (RelMOFile.source_index n) ⊆ List.range (2 * n) := by
    intro x hx
    rw [List.mem_map] at hx
    obtain ⟨p, hp, rfl⟩ := hx
    rw [List.mem_range] at hp ⊢
    unfold RelMOFile.source_index
    by_cases h1 : p < n
    · rw [if_pos h1]; omega
    · rw [if_neg h1]; omega
  exact (List.subperm_of_subset hnd hsub).perm_of_length_le (by simp)

/-- C29: `rearrange_eig` de-interleaves the eigenpairs.  For a coefficient matrix with `2n`
rows (and, when `includes_neg` is set, eigenvalues that pass the separation `assert`) the
call returns; afterwards `eig[i]` is the old `eig[2i]` and `eig[n+i]` the old `eig[2i+1]` for
every `i < n`, and the columns `i` and `n+i` of `coeff` are the old columns `2i` and `2i+1`;
position `p` receives eigenvalue and column of the old position `source_index n p`, a
permutation of the `2n` positions, so that the pairs (eigenvalue, column) after the call are a
rearrangement of the pairs before it. -/
theorem rearrange_eig_deinterleaves {R C : Type} [LinearOrderedField R] [Zero C] (c__ : R)
    (n : Nat) (eig : Nat → R) (coeff : Nat → Nat → C) (includes_neg : Bool)
    (tempv0 : Nat → R)
    (hsep : includes_neg = false ∨ RelMOFile.separated c__ n eig = true) :
    ∃ eig2 coeff2,
      RelMOFile.rearrange_eig c__ (2 * n) eig coeff includes_neg tempv0 = some (eig2, coeff2) ∧
      (∀ i, i < n → eig2 i = eig (2 * i) ∧ eig2 (n + i) = eig (2 * i + 1)) ∧
      (∀ i j, i < n → j < 2 * n →
        coeff2 j i = coeff j (2 * i) ∧ coeff2 j (n + i) = coeff j (2 * i + 1)) ∧
      (∀ p, p < 2 * n → RelMOFile.source_index n p < 2 * n ∧
        eig2 p = eig (RelMOFile.source_index n p) ∧
        ∀ j, j < 2 * n → coeff2 j p = coeff j (RelMOFile.source_index n p)) ∧
      ((List.range (2 * n)).map (RelMOFile.source_index n)).Perm (List.range (2 * n)) ∧
      ((List.range (2 * n)).map
          (fun p => (eig2 p, (List.range (2 * n)).map (fun j => coeff2 j p)))).Perm
        ((List.range (2 * n)).map
          (fun p => (eig p, (List.range (2 * n)).map (fun j => coeff j p)))) := by
  obtain ⟨hv, hm⟩ := rearrange_loop_apply n eig coeff tempv0 (fun _ _ => (0 : C)) n (le_refl n)
  have hdiv : 2 * n / 2 = n := by omega
  have hret : RelMOFile.rearrange_eig c__ (2 * n) eig coeff includes_neg tempv0
      = some (RelMOFile.rearrange_loop n eig coeff tempv0 (fun _ _ => (0 : C)) n) := by
    unfold RelMOFile.rearrange_eig
    simp only [hdiv, ne_eq, not_true_eq_false, if_false]
    rcases hsep with h | h
    · simp [h]
    · simp [h]
  have hsrc : ∀ p, p < 2 * n →
      (RelMOFile.rearrange_loop n eig coeff tempv0 (fun _ _ => (0 : C)) n).1 p
          = eig (RelMOFile.source_index n p) ∧
        ∀ j, j < 2 * n →
          (RelMOFile.rearrange_loop n eig coeff tempv0 (fun _ _ => (0 : C)) n).2 j p
            = coeff j (RelMOFile.source_index n p) := by
    intro p hp
    unfold RelMOFile.source_index
    by_cases h1 : p < n
    · refine ⟨?_, fun j hj => ?_⟩
      · rw [hv, if_pos h1, if_pos h1]
      · rw [hm, if_pos hj, if_pos h1, if_pos h1]
    · have h2 : n ≤ p ∧ p < n + n := by omega
      refine ⟨?_, fun j hj => ?_⟩
      · rw [hv, if_neg h1, if_pos h2, if_neg h1]
      · rw [hm, if_pos hj, if_neg h1, if_pos h2, if_neg h1]
  refine ⟨_, _, hret, ?_, ?_, ?_, source_index_perm n, ?_⟩
  · intro i hi
    have a1 := (hsrc i (by omega)).1
    have a2 := (hsrc (n + i) (by omega)).1
    unfold RelMOFile.source_index at a1 a2
    have b1 : ¬ n + i < n := by omega
    have b2 : n + i - n = i := by omega
    rw [if_pos hi] at a1
    rw [if_neg b1, b2] at a2
    exact ⟨a1, a2⟩
  · intro i j hi hj
    have a1 := (hsrc i (by omega)).2 j hj
    have a2 := (hsrc (n + i) (by omega)).2 j hj
    unfold RelMOFile.source_index at a1 a2
    have b1 : ¬ n + i < n := by omega
    have b2 : n + i - n = i := by omega
    rw [if_pos hi] at a1
    rw [if_neg b1, b2] at a2
    exact ⟨a1, a2⟩
  · intro p hp
    refine ⟨?_, (hsrc p hp).1, (hsrc p hp).2⟩
    unfold RelMOFile.source_index
    by_cases h1 : p < n
    · rw [if_pos h1]; omega
    · rw [if_neg h1]; omega
  · have hmap : (List.range (2 * n)).map
          (fun p => ((RelMOFile.rearrange_loop n eig coeff tempv0 (fun _ _ => (0 : C)) n).1 p,
            (List.range (2 * n)).map (fun j =>
              (RelMOFile.rearrange_loop n eig coeff tempv0 (fun _ _ => (0 : C)) n).2 j p)))
        = ((List.range (2 * n)).map (RelMOFile.source_index n)).map
            (fun p => (eig p, (List.range (2 * n)).map (fun j => coeff j p))) := by
      rw [List.map_map]
      apply List.map_congr_left
      intro p hp
      rw [List.mem_range] at hp
      obtain ⟨e1, e2⟩ := hsrc p hp
      simp only [Function.comp_apply]
      rw [e1]
      congr 1
      apply List.map_congr_left
      intro j hj
      rw [List.mem_range] at hj
      exact e2 j hj
    have hperm := (source_index_perm n).map
      (fun p => (eig p, (List.range (2 * n)).map (fun j => coeff j p)))
    rw [← hmap] at hperm
    exact hperm

/-- Witness of C29: three pairs, eigenvalue `p` at position `p`, element `j + 10 c` in row
`j` and column `c`, without the separation test. -/
theorem rearrange_eig_deinterleaves_witness :
    ∃ eig2 coeff2,
      RelMOFile.rearrange_eig (1 : ℚ) (2 * 3) (fun p => (p : ℚ))
        (fun j c => (j : ℚ) + 10 * c) false (fun _ => 0) = some (eig2, coeff2) ∧
      (eig2 1 = ((2 * 1 : Nat) : ℚ) ∧ eig2 (3 + 1) = ((2 * 1 + 1 : Nat) : ℚ)) := by
  obtain ⟨eig2, coeff2, h1, h2, _⟩ := rearrange_eig_deinterleaves (1 : ℚ) 3
    (fun p => (p : ℚ)) (fun j c => (j : ℚ) + 10 * c) false (fun _ => 0) (Or.inl rfl)
  exact ⟨eig2, coeff2, h1, h2 1 (by decide)⟩

end bagel

namespace bagel

/-! ## The packing loops of `MOFile::create_Jiiii` -/

theorem wrap_int_of_lt (x : Int) (h1 : -2 ^ 31 ≤ x) (h2 : x < 2 ^ 31) : wrap_int x = x := by
  unfold wrap_int
  omega

theorem wrap_int_cast (n : Nat) (h : n < 2 ^ 31) : wrap_int (n : Int) = n := by
  apply wrap_int_of_lt
  · have : (0 : Int) ≤ n := Int.natCast_nonneg n
    omega
  · exact_mod_cast h

theorem wrap_mul_cast (a b : Nat) (h : a * b < 2 ^ 31) :
    wrap_int ((a : Int) * (b : Int)) = ((a * b : Nat) : Int) := by
  rw [← Nat.cast_mul]
  exact wrap_int_cast _ h

theorem wrap_add_cast (a b : Nat) (h : a + b < 2 ^ 31) :
    wrap_int ((a : Int) + (b : Int)) = ((a + b : Nat) : Int) := by
  rw [← Nat.cast_add]
  exact wrap_int_cast _ h

theorem foldl_flatMap_eq {α β γ : Type} (f : γ → β → γ) (g : α → List β) :
    ∀ (l : List α) (init : γ),
      (l.flatMap g).foldl f init = l.foldl (fun acc x => (g x).foldl f acc) init := by
  intro l
  induction l with
  | nil => intro init; rfl
  | cons a as ih =>
    intro init
    rw [List.flatMap_cons, List.foldl_append, List.foldl_cons, ih]

/-- A loop of stores over a list of jobs records the indices of the jobs, in order. -/
theorem put_fold_snd {R α : Type} (val : α → R) (idx : α → Int) :
    ∀ (jobs : List α) (st : PackState R),
      (jobs.foldl (fun st x => st.put (val x) (idx x)) st).log.map Prod.snd
        = st.log.map Prod.snd ++ jobs.map idx := by
  intro jobs
  induction jobs with
  | nil => intro st; simp
  | cons a as ih =>
    intro st
    rw [List.foldl_cons, ih]
    simp [PackState.put]

/-- A loop of stores over a list of jobs that starts at a position `pos >= 0` and ends below
`2^31`: the position advances by the number of jobs, job number `q` is stored at position
`pos + q`, the other positions are left alone, and the positions written are
`pos, pos + 1, ...` in this order. -/
theorem put_fold {R α : Type} (val : α → R) (idx : α → Int) :
    ∀ (jobs : List α) (st : PackState R), 0 ≤ st.pos → st.pos + jobs.length < 2 ^ 31 →
      (jobs.foldl (fun st x => st.put (val x) (idx x)) st).pos = st.pos + jobs.length ∧
      (∀ (q : Nat) x, jobs[q]? = some x →
        (jobs.foldl (fun st x => st.put (val x) (idx x)) st).data (st.pos + q) = val x) ∧
      (∀ p : Int, p < st.pos ∨ st.pos + jobs.length ≤ p →
        (jobs.foldl (fun st x => st.put (val x) (idx x)) st).data p = st.data p) ∧
      (jobs.foldl (fun st x => st.put (val x) (idx x)) st).log.map Prod.fst
        = st.log.map Prod.fst
          ++ (List.range jobs.length).map (fun q : Nat => st.pos + (q : Int)) := by
  intro jobs
  induction jobs with
  | nil =>
    intro st _ _
    refine ⟨by simp, ?_, fun _ _ => rfl, by simp⟩
    intro q x h
    simp at h
  | cons a as ih =>
    intro st h0 hlen
    rw [List.length_cons] at hlen
    push_cast at hlen
    have hpos : (st.put (val a) (idx a)).pos = st.pos + 1 := by
      show wrap_int (st.pos + 1) = st.pos + 1
      exact wrap_int_of_lt _ (by omega) (by omega)
    rw [List.foldl_cons]
    obtain ⟨h1, h2, h3, h4⟩ := ih (st.put (val a) (idx a)) (by rw [hpos]; omega)
      (by rw [hpos]; omega)
    refine ⟨?_, ?_, ?_, ?_⟩
    · rw [h1, hpos, List.length_cons]
      push_cast
      omega
    · intro q x hq
      cases q with
      | zero =>
        simp only [List.getElem?_cons_zero, Option.some.injEq] at hq
        subst hq
        rw [h3 _ (Or.inl (by rw [hpos]; push_cast; omega))]
        simp [PackState.put]
      | succ q =>
        simp only [List.getElem?_cons_succ] at hq
        have := h2 q x hq
        rw [hpos] at this
        rw [← this]
        congr 1
        push_cast
        omega
    · intro p hp
      rw [List.length_cons] at hp
      push_cast at hp
      rw [h3 p (by rw [hpos]; omega)]
      have hne : p ≠ st.pos := by omega
      simp [PackState.put, Function.update_noteq hne]
    · rw [h4, hpos, List.length_cons, List.range_succ_eq_map, List.map_cons, List.map_map]
      have hfun : (fun q : Nat => st.pos + 1 + (q : Int))
          = (fun q : Nat => st.pos + (q : Int)) ∘ Nat.succ := by
        funext q
        simp only [Function.comp_apply, Nat.succ_eq_add_one]
        push_cast
        omega
      rw [hfun]
      simp [PackState.put]

theorem triangle_pairs_succ (n : Nat) :
    triangle_pairs (n + 1) = triangle_pairs n ++ (List.range (n + 1)).map (fun j => (n, j)) := by
  unfold triangle_pairs
  conv_lhs => rw [List.range_succ, List.flatMap_append]
  simp only [List.flatMap_cons, List.flatMap_nil, List.append_nil]

theorem triangle_number_succ (n : Nat) : (n + 1) * (n + 2) / 2 = n * (n + 1) / 2 + (n + 1) := by
  have h : (n + 1) * (n + 2) = n * (n + 1) + 2 * (n + 1) := by ring
  rw [h, Nat.add_mul_div_left _ _ (by decide : 0 < 2)]

theorem triangle_pairs_length (n : Nat) : (triangle_pairs n).length = n * (n + 1) / 2 := by
  induction n with
  | zero => rfl
  | succ n ih =>
    rw [triangle_pairs_succ, List.length_append, ih, List.length_map, List.length_range,
      triangle_number_succ]

theorem mem_triangle_pairs (n : Nat) (x : Nat × Nat) :
    x ∈ triangle_pairs n ↔ x.2 ≤ x.1 ∧ x.1 < n := by
  unfold triangle_pairs
  simp only [List.mem_flatMap, List.mem_range, List.mem_map]
  constructor
  · rintro ⟨i, hi, j, hj, rfl⟩
    exact ⟨by simp only; omega, hi⟩
  · rintro ⟨h1, h2⟩
    exact ⟨x.1, h2, x.2, by omega, rfl⟩

/-- The pair `(i, j)` stands at position `i*(i+1)/2 + j` of the list of pairs. -/
theorem triangle_pairs_get (n : Nat) :
    ∀ i j, j ≤ i → i < n → (triangle_pairs n)[i * (i + 1) / 2 + j]? = some (i, j) := by
  induction n with
  | zero => intro i j _ hi; omega
  | succ n ih =>
    intro i j hj hi
    rw [triangle_pairs_succ]
    by_cases hin : i < n
    · have hlt : i * (i + 1) / 2 + j < (triangle_pairs n).length := by
        have := ih i j hj hin
        exact (List.getElem?_eq_some_iff.mp this).1
      rw [List.getElem?_append_left hlt]
      exact ih i j hj hin
    · have hie : i = n := by omega
      subst hie
      have hge : (triangle_pairs i).length ≤ i * (i + 1) / 2 + j := by
        rw [triangle_pairs_length]
        omega
      rw [List.getElem?_append_right hge, triangle_pairs_length]
      have hsub : i * (i + 1) / 2 + j - i * (i + 1) / 2 = j := by omega
      rw [hsub, List.getElem?_map, List.getElem?_range (by omega)]
      rfl

/-- Blocks of equal length laid end to end: entry `b` of block `a` stands at position
`a * m + b`. -/
theorem flatMap_uniform {α β : Type} (g : α → List β) (m : Nat) :
    ∀ (L : List α), (∀ x ∈ L, (g x).length = m) →
      (L.flatMap g).length = L.length * m ∧
      ∀ a x b, L[a]? = some x → b < m → (L.flatMap g)[a * m + b]? = (g x)[b]? := by
  intro L
  induction L with
  | nil =>
    intro _
    refine ⟨by simp, ?_⟩
    intro a x b h
    simp at h
  | cons y ys ih =>
    intro hlen
    obtain ⟨ih1, ih2⟩ := ih (fun x hx => hlen x (List.mem_cons_of_mem _ hx))
    have hy : (g y).length = m := hlen y (List.mem_cons_self _ _)
    refine ⟨?_, ?_⟩
    · rw [List.flatMap_cons, List.length_append, ih1, hy, List.length_cons, Nat.succ_mul]
      omega
    · intro a x b ha hb
      rw [List.flatMap_cons]
      cases a with
      | zero =>
        simp only [List.getElem?_cons_zero, Option.some.injEq] at ha
        subst ha
        rw [Nat.zero_mul, Nat.zero_add, List.getElem?_append_left (by omega)]
      | succ a =>
        simp only [List.getElem?_cons_succ] at ha
        have hge : (g y).length ≤ (a + 1) * m + b := by
          rw [hy, Nat.succ_mul]
          omega
        rw [List.getElem?_append_right hge, hy]
        have hsub : (a + 1) * m + b - m = a * m + b := by
          rw [Nat.succ_mul]
          omega
        rw [hsub]
        exact ih2 a x b ha hb

theorem pack_mo2e_eq {R : Type} (nocc : Nat) (buf2e mo2e0 : Int → R) :
    MOFile.pack_mo2e nocc buf2e mo2e0
      = (MOFile.reads nocc).foldl (fun st r => st.put (buf2e r) r)
          { data := mo2e0, pos := 0, log := [] } := by
  unfold MOFile.pack_mo2e MOFile.reads triangle_pairs
  simp only [foldl_flatMap_eq, List.foldl_map]

theorem pack_mo1e_eq {R : Type} [Field R] (nocc : Nat) (mo1e_ buf2e buf3_0 : Int → R) :
    MOFile.pack_mo1e nocc mo1e_ buf2e buf3_0
      = (triangle_pairs nocc).foldl
          (fun st ij => st.put (MOFile.buf3_entry nocc mo1e_ buf2e ij.1 ij.2)
            (MOFile.mo1e_index nocc ij.1 ij.2))
          { data := buf3_0, pos := 0, log := [] } := by
  unfold MOFile.pack_mo1e triangle_pairs
  simp only [foldl_flatMap_eq, List.foldl_map]

theorem reads_length (nocc : Nat) :
    (MOFile.reads nocc).length = nocc * (nocc + 1) / 2 * (nocc * (nocc + 1) / 2) := by
  unfold MOFile.reads
  rw [(flatMap_uniform _ (nocc * (nocc + 1) / 2) (triangle_pairs nocc)
    (fun x _ => by rw [List.length_map, triangle_pairs_length])).1, triangle_pairs_length]

/-- The index read for the quadruple `(i, j, k, l)` stands at the packed position of the
quadruple. -/
theorem reads_get (nocc i j k l : Nat) (hj : j ≤ i) (hi : i < nocc) (hl : l ≤ k)
    (hk : k < nocc) :
    (MOFile.reads nocc)[(i * (i + 1) / 2 + j) * (nocc * (nocc + 1) / 2)
        + (k * (k + 1) / 2 + l)]?
      = some (MOFile.read_index nocc i j k l) := by
  have hij := triangle_pairs_get nocc i j hj hi
  have hkl := triangle_pairs_get nocc k l hl hk
  have hb : k * (k + 1) / 2 + l < nocc * (nocc + 1) / 2 := by
    have := (List.getElem?_eq_some_iff.mp hkl).1
    rw [triangle_pairs_length] at this
    exact this
  unfold MOFile.reads
  rw [(flatMap_uniform _ (nocc * (nocc + 1) / 2) (triangle_pairs nocc)
    (fun x _ => by rw [List.length_map, triangle_pairs_length])).2 _ (i, j) _ hij hb,
    List.getElem?_map, hkl]
  rfl

theorem read_index_lt (n i j k l : Nat) (hi : i < n) (hj : j < n) (hk : k < n) (hl : l < n) :
    l + k * n + (j + i * n) * n * n < n ^ 4 := by
  have h1 : l + k * n < n * n := by
    have : (k + 1) * n ≤ n * n := Nat.mul_le_mul_right n hk
    rw [Nat.succ_mul] at this
    omega
  have h2 : j + i * n < n * n := by
    have : (i + 1) * n ≤ n * n := Nat.mul_le_mul_right n hi
    rw [Nat.succ_mul] at this
    omega
  have h3 : (j + i * n + 1) * (n * n) ≤ n * n * (n * n) := Nat.mul_le_mul_right (n * n) h2
  rw [Nat.succ_mul] at h3
  have h4 : n ^ 4 = n * n * (n * n) := by ring
  have h5 : (j + i * n) * n * n = (j + i * n) * (n * n) := Nat.mul_assoc _ _ _
  rw [h4, h5]
  omega

theorem foldl_sub_sum {R : Type} [Field R] (c : R) (f : Nat → R) :
    ∀ (l : List Nat) (init : R),
      l.foldl (fun x k => x - c * f k) init = init - c * (l.map f).sum := by
  intro l
  induction l with
  | nil => intro init; simp
  | cons a as ih =>
    intro init
    rw [List.foldl_cons, ih, List.map_cons, List.sum_cons]
    ring

/-- For `nocc <= 215` the fourth power of `nocc` fits an `int`. -/
theorem pow4_lt (n : Nat) (h : n ≤ 215) : n ^ 4 < 2 ^ 31 :=
  calc n ^ 4 ≤ 215 ^ 4 := Nat.pow_le_pow_left h 4
    _ < 2 ^ 31 := by norm_num

/-- For `nocc <= 215` and orbitals below `nocc` no operation of `j + i*nocc` overflows. -/
theorem mo1e_index_exact (n i j : Nat) (h : n ≤ 215) (hi : i < n) (hj : j < n) :
    MOFile.mo1e_index n i j = ((j + i * n : Nat) : Int) := by
  have hnn : n * n ≤ 215 * 215 := Nat.mul_le_mul h h
  have h1 : (i + 1) * n ≤ n * n := Nat.mul_le_mul_right n hi
  rw [Nat.succ_mul] at h1
  unfold MOFile.mo1e_index
  rw [wrap_mul_cast i n (by omega), wrap_add_cast j (i * n) (by omega)]

/-- For `nocc <= 215` and orbitals below `nocc` no operation of `(j + i*nocc)*nocc*nocc`
overflows. -/
theorem ijo_exact (n i j : Nat) (h : n ≤ 215) (hi : i < n) (hj : j < n) :
    MOFile.ijo n i j = (((j + i * n) * n * n : Nat) : Int) := by
  have h4 := pow4_lt n h
  have hidx := read_index_lt n i j 0 0 hi hj (by omega) (by omega)
  have hn : 0 < n := by omega
  have a1 : (j + i * n) * n ≤ (j + i * n) * n * n := Nat.le_mul_of_pos_right _ hn
  have a2 : j + i * n ≤ (j + i * n) * n := Nat.le_mul_of_pos_right _ hn
  have e := mo1e_index_exact n i j h hi hj
  unfold MOFile.mo1e_index at e
  unfold MOFile.ijo
  rw [e, wrap_mul_cast (j + i * n) n (by omega), wrap_mul_cast ((j + i * n) * n) n (by omega)]

/-- For `nocc <= 215` and orbitals below `nocc` the index `l+k*nocc+ijo` is computed without
overflow. -/
theorem read_index_exact (n i j k l : Nat) (h : n ≤ 215) (hi : i < n) (hj : j < n)
    (hk : k < n) (hl : l < n) :
    MOFile.read_index n i j k l = ((l + k * n + (j + i * n) * n * n : Nat) : Int) := by
  have h4 := pow4_lt n h
  have hidx := read_index_lt n i j k l hi hj hk hl
  have e := mo1e_index_exact n k l h hk hl
  unfold MOFile.mo1e_index at e
  unfold MOFile.read_index
  rw [e, ijo_exact n i j h hi hj, wrap_add_cast _ _ (by omega)]

/-- For `nocc <= 215` and orbitals below `nocc` the index `(k+j*nocc)*nocc*nocc+(k+i*nocc)`
is computed without overflow. -/
theorem buf3_index_exact (n i j k : Nat) (h : n ≤ 215) (hi : i < n) (hj : j < n)
    (hk : k < n) :
    MOFile.buf3_index n i j k = (((k + j * n) * n * n + (k + i * n) : Nat) : Int) := by
  have h4 := pow4_lt n h
  have hidx := read_index_lt n j k i k hj hk hi hk
  have e1 := ijo_exact n j k h hj hk
  unfold MOFile.ijo at e1
  have e2 := mo1e_index_exact n i k h hi hk
  unfold MOFile.mo1e_index at e2
  unfold MOFile.buf3_index
  rw [e1, e2, wrap_add_cast _ _ (by omega)]

theorem reads_exact (nocc : Nat) (h : nocc ≤ 215) :
    ∀ r ∈ MOFile.reads nocc, 0 ≤ r ∧ r < ((nocc ^ 4 : Nat) : Int) := by
  intro r hr
  unfold MOFile.reads at hr
  simp only [List.mem_flatMap, List.mem_map] at hr
  obtain ⟨ij, hij, kl, hkl, rfl⟩ := hr
  obtain ⟨a1, a2⟩ := (mem_triangle_pairs nocc ij).mp hij
  obtain ⟨b1, b2⟩ := (mem_triangle_pairs nocc kl).mp hkl
  rw [read_index_exact nocc ij.1 ij.2 kl.1 kl.2 h a2 (by omega) b2 (by omega)]
  refine ⟨Int.natCast_nonneg _, ?_⟩
  exact_mod_cast read_index_lt nocc ij.1 ij.2 kl.1 kl.2 a2 (by omega) b2 (by omega)

theorem sizeij_sq_lt (nocc : Nat) (h : nocc ≤ 215) :
    nocc * (nocc + 1) / 2 * (nocc * (nocc + 1) / 2) < 2 ^ 31 := by
  have h1 : nocc * (nocc + 1) ≤ 215 * 216 := Nat.mul_le_mul h (by omega)
  have h2 : nocc * (nocc + 1) / 2 ≤ 23220 := by omega
  calc nocc * (nocc + 1) / 2 * (nocc * (nocc + 1) / 2) ≤ 23220 * 23220 := Nat.mul_le_mul h2 h2
    _ < 2 ^ 31 := by norm_num

theorem pack_mo2e_log_snd {R : Type} (nocc : Nat) (buf2e mo2e0 : Int → R) :
    (MOFile.pack_mo2e nocc buf2e mo2e0).log.map Prod.snd = MOFile.reads nocc := by
  rw [pack_mo2e_eq, put_fold_snd (fun r => buf2e r) (fun r => r)]
  simp

/-- C28 as stated fails at `nocc = 216`: for `i = j = 215` the product
`(j + i*nocc)*nocc*nocc` is `2176735680`, more than an `int` holds, and the index read for
`k = l = 0` is `-2118231616`, which is not in `[0, nocc^4)`. -/
theorem create_Jiiii_index_overflow :
    MOFile.read_index 216 215 215 0 0 = -2118231616 ∧
    (-2118231616 : Int)
      ∈ (MOFile.pack_mo2e 216 (fun _ => (0 : ℚ)) (fun _ => (0 : ℚ))).log.map Prod.snd ∧
    ¬ (∀ r ∈ (MOFile.pack_mo2e 216 (fun _ => (0 : ℚ)) (fun _ => (0 : ℚ))).log.map Prod.snd,
        0 ≤ r ∧ r < ((216 ^ 4 : Nat) : Int)) := by
  have hval : MOFile.read_index 216 215 215 0 0 = -2118231616 := by decide
  have hmem : (-2118231616 : Int)
      ∈ (MOFile.pack_mo2e 216 (fun _ => (0 : ℚ)) (fun _ => (0 : ℚ))).log.map Prod.snd := by
    rw [pack_mo2e_log_snd, ← hval]
    unfold MOFile.reads
    simp only [List.mem_flatMap, List.mem_map]
    exact ⟨(215, 215), (mem_triangle_pairs 216 (215, 215)).mpr (by decide), (0, 0),
      (mem_triangle_pairs 216 (0, 0)).mpr (by decide), rfl⟩
  refine ⟨hval, hmem, ?_⟩
  intro hall
  have := (hall _ hmem).1
  omega

/-- C28, amended: triangular packing in `MOFile::create_Jiiii` for `nocc <= 215`, where every
index fits an `int`.  With `sizeij = nocc*(nocc+1)/2`, the packing loop makes `sizeij^2`
stores, at the positions `0, 1, ..., sizeij^2 - 1` in this order (each once), every index
read lies in `[0, nocc^4)`, and the other positions are left alone; for `j <= i < nocc` and
`l <= k < nocc` the element at position `(i*(i+1)/2 + j)*sizeij + (k*(k+1)/2 + l)` is
`buf2e[l + k*nocc + (j + i*nocc)*nocc^2]`; and the new one-electron array holds at position
`i*(i+1)/2 + j` the value
`mo1e_[j + i*nocc] - 0.5 * sum over k of buf2e[(k + j*nocc)*nocc^2 + (k + i*nocc)]`. -/
theorem create_Jiiii_packing {R : Type} [Field R] (nocc : Nat)
    (mo1e_ buf2e mo2e0 buf3_0 : Int → R) (h : nocc ≤ 215) :
    (MOFile.pack_mo2e nocc buf2e mo2e0).pos
      = ((nocc * (nocc + 1) / 2 * (nocc * (nocc + 1) / 2) : Nat) : Int) ∧
    (MOFile.pack_mo2e nocc buf2e mo2e0).log.map Prod.fst
      = (List.range (nocc * (nocc + 1) / 2 * (nocc * (nocc + 1) / 2))).map
          (fun p : Nat => (p : Int)) ∧
    (∀ r ∈ (MOFile.pack_mo2e nocc buf2e mo2e0).log.map Prod.snd,
      0 ≤ r ∧ r < ((nocc ^ 4 : Nat) : Int)) ∧
    (∀ p : Int, p < 0 ∨ ((nocc * (nocc + 1) / 2 * (nocc * (nocc + 1) / 2) : Nat) : Int) ≤ p →
      (MOFile.pack_mo2e nocc buf2e mo2e0).data p = mo2e0 p) ∧
    (∀ i j k l, j ≤ i → i < nocc → l ≤ k → k < nocc →
      (MOFile.pack_mo2e nocc buf2e mo2e0).data
          (((i * (i + 1) / 2 + j) * (nocc * (nocc + 1) / 2) + (k * (k + 1) / 2 + l) : Nat) : Int)
        = buf2e ((l + k * nocc + (j + i * nocc) * nocc ^ 2 : Nat) : Int)) ∧
    (MOFile.pack_mo1e nocc mo1e_ buf2e buf3_0).pos = ((nocc * (nocc + 1) / 2 : Nat) : Int) ∧
    (∀ i j, j ≤ i → i < nocc →
      (MOFile.pack_mo1e nocc mo1e_ buf2e buf3_0).data ((i * (i + 1) / 2 + j : Nat) : Int)
        = mo1e_ ((j + i * nocc : Nat) : Int)
          - 1 / 2 * ((List.range nocc).map
              (fun k => buf2e (((k + j * nocc) * nocc ^ 2 + (k + i * nocc) : Nat) : Int))).sum) := by
  have hsq := sizeij_sq_lt nocc h
  have hsz : nocc * (nocc + 1) / 2 < 2 ^ 31 := by
    have h1 : nocc * (nocc + 1) ≤ 215 * 216 := Nat.mul_le_mul h (by omega)
    omega
  obtain ⟨a1, a2, a3, a4⟩ := put_fold (fun r => buf2e r) (fun r => r) (MOFile.reads nocc)
    { data := mo2e0, pos := 0, log := [] } (le_refl _)
    (by rw [reads_length]; simp only [zero_add]; exact_mod_cast hsq)
  obtain ⟨b1, b2, _, _⟩ := put_fold
    (fun ij : Nat × Nat => MOFile.buf3_entry nocc mo1e_ buf2e ij.1 ij.2)
    (fun ij : Nat × Nat => MOFile.mo1e_index nocc ij.1 ij.2) (triangle_pairs nocc)
    { data := buf3_0, pos := 0, log := [] } (le_refl _)
    (by rw [triangle_pairs_length]; simp only [zero_add]; exact_mod_cast hsz)
  rw [← pack_mo2e_eq] at a1 a2 a3 a4
  rw [← pack_mo1e_eq] at b1 b2
  simp only [zero_add, reads_length, List.map_nil, List.nil_append] at a1 a2 a3 a4
  simp only [zero_add, triangle_pairs_length] at b1 b2
  refine ⟨a1, a4, ?_, a3, ?_, b1, ?_⟩
  · intro r hr
    rw [pack_mo2e_log_snd] at hr
    exact reads_exact nocc h r hr
  · intro i j k l hj hi hl hk
    have hget := a2 _ _ (reads_get nocc i j k l hj hi hl hk)
    rw [hget, read_index_exact nocc i j k l h hi (by omega) hk (by omega), pow_two,
      Nat.mul_assoc (j + i * nocc) nocc nocc]
  · intro i j hj hi
    have hget := b2 _ _ (triangle_pairs_get nocc i j hj hi)
    simp only at hget
    rw [hget]
    unfold MOFile.buf3_entry
    rw [foldl_sub_sum (1 / 2) (fun k => buf2e (MOFile.buf3_index nocc i j k)),
      mo1e_index_exact nocc i j h hi (by omega)]
    have hmap : (List.range nocc).map (fun k => buf2e (MOFile.buf3_index nocc i j k))
        = (List.range nocc).map
            (fun k => buf2e (((k + j * nocc) * nocc ^ 2 + (k + i * nocc) : Nat) : Int)) := by
      apply List.map_congr_left
      intro k hk
      rw [List.mem_range] at hk
      rw [buf3_index_exact nocc i j k h hi (by omega) hk, pow_two,
        Nat.mul_assoc (k + j * nocc) nocc nocc]
    rw [hmap]

/-- Witness of the amended C28: two orbitals, `buf2e[r] = r`. -/
theorem create_Jiiii_packing_witness :
    (2 ≤ 215) ∧
    (MOFile.pack_mo2e 2 (fun r => (r : ℚ)) (fun _ => (0 : ℚ))).pos
      = ((2 * (2 + 1) / 2 * (2 * (2 + 1) / 2) : Nat) : Int) ∧
    (MOFile.pack_mo2e 2 (fun r => (r : ℚ)) (fun _ => (0 : ℚ))).data
        (((1 * (1 + 1) / 2 + 1) * (2 * (2 + 1) / 2) + (1 * (1 + 1) / 2 + 0) : Nat) : Int)
      = (((0 + 1 * 2 + (1 + 1 * 2) * 2 ^ 2 : Nat) : Int) : ℚ) :=
  ⟨by decide,
    (create_Jiiii_packing 2 (fun r => (r : ℚ)) (fun r => (r : ℚ)) (fun _ => (0 : ℚ))
      (fun _ => (0 : ℚ)) (by decide)).1,
    (create_Jiiii_packing 2 (fun r => (r : ℚ)) (fun r => (r : ℚ)) (fun _ => (0 : ℚ))
      (fun _ => (0 : ℚ)) (by decide)).2.2.2.2.1 1 1 1 0 (by decide) (by decide) (by decide)
      (by decide)⟩

end bagel
